import Mathlib

/-!
# Verilator support harness (`verilator_support.cpp`): embedding and properties

The harness functions are embedded as pure functions on explicit state.

* Byte buffers reached through C pointers are lists of bytes, distinct pointers
  being distinct buffers; every access is bounds-checked and a call that would
  touch memory outside a buffer, or that would not return, evaluates to `none`.
* `uint32_t` arithmetic is arithmetic on `Nat` reduced modulo `2^32`; a conversion
  to `int` is the two's-complement reading of the low 32 bits.
* Text written with `fprintf` is the list of characters appended to the stream.
-/

set_option linter.unusedVariables false

namespace VerilatorSupport

/-! ## Machine integers and buffers -/

/-- An `unsigned char`. -/
abbrev Byte := Fin 256

/-- Value of an expression of type `uint32_t`. -/
def u32 (x : Nat) : Nat := x % 2 ^ 32

/-- Conversion of a 32-bit pattern to `int` (two's complement). -/
def toInt32 (x : Nat) : Int :=
  if x % 2 ^ 32 < 2 ^ 31 then ((x % 2 ^ 32 : Nat) : Int) else ((x % 2 ^ 32 : Nat) : Int) - 2 ^ 32

/-- Conversion of an `int` to its 32-bit pattern (the value as `unsigned int`). -/
def ofInt32 (x : Int) : Nat := (x % 2 ^ 32).toNat

/-- Store `p[i] = v` into a buffer of known extent. -/
def wr {α : Type} (p : List α) (i : Nat) (v : α) : Option (List α) :=
  if i < p.length then some (p.set i v) else none

/-- Load `q[i][j]` through an array of row pointers. -/
def rd2 {α : Type} (q : List (List α)) (i j : Nat) : Option α :=
  match q[i]? with
  | some row => row[j]?
  | none => none

/-- Store `q[i][j] = v` through an array of row pointers. -/
def wr2 {α : Type} (q : List (List α)) (i j : Nat) (v : α) : Option (List (List α)) :=
  match q[i]? with
  | some row =>
    match wr row j v with
    | some row1 => wr q i row1
    | none => none
  | none => none

/-- Loop `for (i = lo; i < lo + n; i++) body` where `n` is the trip count. -/
def forUp {σ : Type} (body : Nat → σ → Option σ) : Nat → Nat → σ → Option σ
  | 0, _, s => some s
  | n + 1, i, s =>
    match body i s with
    | some s1 => forUp body n (i + 1) s1
    | none => none

/-- Loop `for (i = hi; i > 0; i--) body`. -/
def forDown {σ : Type} (body : Nat → σ → Option σ) : Nat → σ → Option σ
  | 0, s => some s
  | i + 1, s =>
    match body (i + 1) s with
    | some s1 => forDown body i s1
    | none => none

/-! ## Latency memory model: `update_mem_load` -/

/-- The caller-owned buffers `update_mem_load` works on: the three read-port
outputs of the simulated model and the three latency queues. -/
structure LoadPort where
  model_data_i : List Byte
  model_valid_i : Bool
  model_err_i : Bool
  queue_data : List (List Byte)
  queue_valid : List Bool
  queue_err : List Bool
deriving DecidableEq, Repr

/-- The three queues during the shift loop. -/
structure Queues where
  data : List (List Byte)
  valid : List Bool
  err : List Bool
deriving DecidableEq, Repr

/-- Body of the loop that puts the read data on the processor read port:
`model_data_i[i] = queue_data[mem_lat-1][i]`. -/
def deliver_body (queue_data : List (List Byte)) (last : Nat) (i : Nat)
    (out : List Byte) : Option (List Byte) :=
  match rd2 queue_data last i with
  | some b => wr out i b
  | none => none

/-- Body of the inner shift loop: `queue_data[i][j] = queue_data[i-1][j]`. -/
def shift_data_body (i : Nat) (j : Nat) (qd : List (List Byte)) : Option (List (List Byte)) :=
  match rd2 qd (i - 1) j with
  | some b => wr2 qd i j b
  | none => none

/-- Body of the outer shift loop, for queue position `i`. -/
def shift_body (n : Nat) (i : Nat) (q : Queues) : Option Queues :=
  match forUp (shift_data_body i) n 0 q.data with
  | none => none
  | some qd =>
    match q.valid[i - 1]? with
    | none => none
    | some v =>
      match wr q.valid i v with
      | none => none
      | some qv =>
        match q.err[i - 1]? with
        | none => none
        | some e =>
          match wr q.err i e with
          | none => none
          | some qe => some { data := qd, valid := qv, err := qe }

/-- Body of the loop that clears the new entry: `queue_data[0][i] = 0`. -/
def zero_body (i : Nat) (qd : List (List Byte)) : Option (List (List Byte)) :=
  wr2 qd 0 i 0

/-- Body of the loop that copies the addressed bytes:
`queue_data[0][i] |= mem[address+i]`, the index computed in `uint32_t`. -/
def fetch_body (address : Nat) (mem : List Byte) (i : Nat)
    (qd : List (List Byte)) : Option (List (List Byte)) :=
  match rd2 qd 0 i with
  | none => none
  | some old =>
    match mem[u32 (address + i)]? with
    | none => none
    | some b => wr2 qd 0 i (old ||| b)

/-- The function `update_mem_load`: deliver the oldest entry, advance the queues
by one position, then evaluate the outstanding request into position 0. -/
def update_mem_load (address : Nat) (req_valid : Bool) (mem_w mem_lat mem_size : Nat)
    (st : LoadPort) (mem : List Byte) : Option LoadPort :=
  let last := u32 (mem_lat + 2 ^ 32 - 1)
  match forUp (deliver_body st.queue_data last) (mem_w / 8) 0 st.model_data_i with
  | none => none
  | some out =>
    match st.queue_valid[last]? with
    | none => none
    | some v =>
      match st.queue_err[last]? with
      | none => none
      | some e =>
        match forDown (shift_body (mem_w / 8)) (toInt32 last).toNat
            { data := st.queue_data, valid := st.queue_valid, err := st.queue_err } with
        | none => none
        | some q =>
          let valid := decide (address < mem_size) && req_valid
          match forUp zero_body (mem_w / 8) 0 q.data with
          | none => none
          | some qd0 =>
            match (if valid then forUp (fetch_body address mem) (mem_w / 8) 0 qd0
                   else some qd0) with
            | none => none
            | some qd1 =>
              match wr q.valid 0 req_valid with
              | none => none
              | some qv =>
                match wr q.err 0 (!valid) with
                | none => none
                | some qe =>
                  some { model_data_i := out, model_valid_i := v, model_err_i := e,
                         queue_data := qd1, queue_valid := qv, queue_err := qe }

/-! ## Write port: `update_mem_write` -/

/-- Body of the write loop: `if (model_be_o[i/8] & (1<<(i%8))) mem[address+i] = model_data_o[i]`. -/
def write_body (address : Nat) (model_data_o model_be_o : List Byte) (i : Nat)
    (mem : List Byte) : Option (List Byte) :=
  match model_be_o[i / 8]? with
  | none => none
  | some be =>
    if be.val &&& (1 <<< (i % 8)) ≠ 0 then
      match model_data_o[i]? with
      | none => none
      | some d => wr mem (u32 (address + i)) d
    else some mem

/-- The function `update_mem_write`; `mem_size` is accepted and never read. -/
def update_mem_write (address : Nat) (req_valid : Bool) (mem_w mem_size : Nat)
    (model_data_o model_be_o : List Byte) (mem : List Byte) : Option (List Byte) :=
  if req_valid then forUp (write_body address model_data_o model_be_o) (mem_w / 8) 0 mem
  else some mem

/-! ## Memory-mapped I/O detection: `check_memmapio` -/

/-- Body of the capture loop: `data_out[i] = model_data_o[i]`. -/
def capture_body (model_data_o : List Byte) (i : Nat) (data_out : List Byte) :
    Option (List Byte) :=
  match model_data_o[i]? with
  | none => none
  | some b => wr data_out i b

/-- The function `check_memmapio`: the returned flag and the contents of `data_out`
after the call. -/
def check_memmapio (address : Nat) (req_valid : Bool) (mem_w : Nat)
    (model_data_o : List Byte) (memmap_address : Nat) (data_out : List Byte) :
    Option (Bool × List Byte) :=
  if req_valid then
    if address = memmap_address then
      match forUp (capture_body model_data_o) (mem_w / 8) 0 data_out with
      | none => none
      | some out => some (true, out)
    else some (false, data_out)
  else some (false, data_out)

/-! ## Shape of the caller-owned buffers and the state after one call -/

/-- The queues hold `L` entries, every data entry holds `n` bytes and the
read-data output holds at least `n` bytes. -/
def LoadPort.WellFormed (L n : Nat) (st : LoadPort) : Prop :=
  st.queue_data.length = L ∧ (∀ row ∈ st.queue_data, row.length = n) ∧
  st.queue_valid.length = L ∧ st.queue_err.length = L ∧ n ≤ st.model_data_i.length

instance (L n : Nat) (st : LoadPort) : Decidable (st.WellFormed L n) := by
  unfold LoadPort.WellFormed; infer_instance

/-- Every backing-store byte the accept step of `update_mem_load` would read for
this request lies inside the store. -/
def ReadInBounds (address : Nat) (req_valid : Bool) (mem_w mem_size : Nat)
    (mem : List Byte) : Prop :=
  address < mem_size → req_valid = true → ∀ i, i < mem_w / 8 → u32 (address + i) < mem.length

/-- The bytes `mem[address+i]`, `i < n`, with the index computed in `uint32_t`
(zero where the index is outside the store). -/
def fetched (address n : Nat) (mem : List Byte) : List Byte :=
  (List.range n).map fun i => mem.getD (u32 (address + i)) 0

/-- The data entry the accept step leaves at position 0. -/
def new_entry (address : Nat) (req_valid : Bool) (mem_w mem_size : Nat)
    (mem : List Byte) : List Byte :=
  if decide (address < mem_size) && req_valid then fetched address (mem_w / 8) mem
  else List.replicate (mem_w / 8) 0

/-- Closed form of the state after one call of `update_mem_load` on well-formed
buffers: outputs from the last entry, queues advanced, new entry in front. -/
def load_next (address : Nat) (req_valid : Bool) (mem_w mem_size : Nat)
    (st : LoadPort) (mem : List Byte) : LoadPort :=
  { model_data_i := (st.queue_data.getLast?.getD []).take (mem_w / 8)
      ++ st.model_data_i.drop (mem_w / 8)
    model_valid_i := st.queue_valid.getLast?.getD false
    model_err_i := st.queue_err.getLast?.getD false
    queue_data := new_entry address req_valid mem_w mem_size mem :: st.queue_data.dropLast
    queue_valid := req_valid :: st.queue_valid.dropLast
    queue_err := (!(decide (address < mem_size) && req_valid)) :: st.queue_err.dropLast }

/-- Invariant of the shift loop after position `i` has been processed: positions
up to `i` are still the original ones, positions above hold their predecessor. -/
def Shifted {α : Type} (i : Nat) (l0 l : List α) : Prop :=
  l.length = l0.length ∧
  ∀ r, l[r]? = if r ≤ i then l0[r]? else if r < l0.length then l0[r - 1]? else none

/-- One cycle's read request as the harness passes it to `update_mem_load`,
together with the backing store as it is at that call. -/
structure LoadReq where
  address : Nat
  req_valid : Bool
  mem_size : Nat
  mem : List Byte
deriving DecidableEq, Repr

/-- The request reads only store bytes that exist. -/
def LoadReq.InBounds (mem_w : Nat) (r : LoadReq) : Prop :=
  ReadInBounds r.address r.req_valid mem_w r.mem_size r.mem

/-- Consecutive calls of `update_mem_load`, one per request, on the same buffers. -/
def run_load (mem_w mem_lat : Nat) : LoadPort → List LoadReq → Option LoadPort
  | st, [] => some st
  | st, r :: rs =>
    match update_mem_load r.address r.req_valid mem_w mem_lat r.mem_size st r.mem with
    | some st1 => run_load mem_w mem_lat st1 rs
    | none => none

instance (address : Nat) (req_valid : Bool) (mem_w mem_size : Nat) (mem : List Byte) :
    Decidable (ReadInBounds address req_valid mem_w mem_size mem) := by
  unfold ReadInBounds; infer_instance

instance (mem_w : Nat) (r : LoadReq) : Decidable (r.InBounds mem_w) := by
  unfold LoadReq.InBounds; infer_instance

/-- Bit `i` of a byte-enable mask stored as bytes: bit `i % 8` of mask byte `i / 8`. -/
def be_bit (model_be_o : List Byte) (i : Nat) : Bool :=
  (model_be_o.getD (i / 8) 0).val.testBit (i % 8)

/-! ## Text written with `fprintf` -/

/-- Hexadecimal digits of `v`, least significant first and without leading zeros;
the first argument bounds the number of digits produced. -/
def hex_digits_rev : Nat → Nat → List Char
  | 0, _ => []
  | f + 1, v =>
    Nat.digitChar (v % 16) :: (if v / 16 = 0 then [] else hex_digits_rev f (v / 16))

/-- The `fprintf` conversion `%0<width>x` of an `unsigned int` argument (an `int`
argument is read as its 32-bit pattern): lowercase hexadecimal, at most 8 digits,
padded on the left with `0` up to `width` characters. -/
def fmt_x (width v : Nat) : List Char :=
  let ds := (hex_digits_rev 8 (v % 2 ^ 32)).reverse
  List.replicate (width - ds.length) '0' ++ ds

/-- The `fprintf` conversion `%d` of a non-negative argument. -/
def fmt_d (v : Nat) : List Char := Nat.toDigits 10 v

/-- The `n` lowercase hexadecimal digits of `v`, most significant first. -/
def hex_digits (n v : Nat) : List Char :=
  (List.range n).reverse.map fun k => Nat.digitChar (v / 16 ^ k % 16)

/-! ## Statistics globals and the instruction trace -/

/-- Modelled from the spec: the signals of the generated simulation model `Vvproc_top`
that the harness reads (the generated headers are not among the sources). Each signal
is its unsigned value; `vregfile_wr_data_q` is the register write data as the bytes
the harness sees through its `unsigned char*`. -/
structure Top where
  pc_if : Nat := 0
  instruction_wb_pc : Nat := 0
  instruction_wb : Nat := 0
  vcore_result_valid : Bool := false
  vcore_result_ready : Bool := false
  csr_vl_o : Nat := 0
  csr_vtype_o : Nat := 0
  csr_vlen_b_o : Nat := 0
  vregfile_wr_en_q : Bool := false
  vregfile_wr_addr_q : Nat := 0
  vregfile_wr_data_q : List Byte := []
  vregfile_wr_mask_q : Nat := 0
deriving DecidableEq, Repr

/-- The `int` globals of the header that count cycles and instructions; all start
at 0. The vector-length accumulators are not part of this record. -/
structure Stats where
  cycles : Int := 0
  current_WB_PC : Int := 0
  last_WB_PC : Int := 0
  instr : Int := 0
  vector_instr : Int := 0
deriving DecidableEq, Repr

/-- Increment of an `int`, wrapping in 32 bits. -/
def incr32 (x : Int) : Int := toInt32 (ofInt32 (x + 1))

/-- The function `update_cycles`. -/
def update_cycles (g : Stats) : Stats := { g with cycles := incr32 g.cycles }

/-- The function `update_instructions`. -/
def update_instructions (g : Stats) (top : Top) : Stats :=
  let g1 := { g with current_WB_PC := toInt32 top.instruction_wb_pc }
  let g2 := if g1.current_WB_PC ≠ g1.last_WB_PC then { g1 with instr := incr32 g1.instr } else g1
  { g2 with last_WB_PC := g2.current_WB_PC }

/-- The function `update_vector_count`. -/
def update_vector_count (g : Stats) (top : Top) : Stats :=
  if top.vcore_result_valid && top.vcore_result_ready then
    { g with vector_instr := incr32 g.vector_instr }
  else g

/-- The function `update_stats` on the counters of `Stats`. Its last call,
`update_avg_vector_len`, reads and writes only the vector-length accumulators. -/
def update_stats (g : Stats) (top : Top) : Stats :=
  update_vector_count (update_instructions (update_cycles g) top) top

/-- The function `update_inst_trace`: the text it appends to the trace stream;
the flag `inst_trace` says that the stream pointer is not `NULL`. -/
def update_inst_trace (g : Stats) (top : Top) (inst_trace : Bool)
    (begin_cycles end_cycles : Nat) : List Char :=
  if inst_trace then
    if (begin_cycles ≤ ofInt32 g.cycles ∧ ofInt32 g.cycles < end_cycles) ∨ end_cycles = 0 then
      (if g.current_WB_PC ≠ g.last_WB_PC then "NEW PC\n".toList else [])
        ++ (fmt_x 8 top.instruction_wb ++ ['\n'])
    else []
  else []

/-- One simulated cycle of the harness as the comments of the source prescribe it:
`update_stats` first, then `update_inst_trace` on an open trace stream. The state is
the globals and the trace text so far. -/
def trace_cycle (begin_cycles end_cycles : Nat) (s : Stats × List Char) (top : Top) :
    Stats × List Char :=
  let g := update_stats s.1 top
  (g, s.2 ++ update_inst_trace g top true begin_cycles end_cycles)

/-- The trace window test of `update_inst_trace` on the cycle counter. -/
def in_trace_window (begin_cycles end_cycles : Nat) (g : Stats) : Prop :=
  (begin_cycles ≤ ofInt32 g.cycles ∧ ofInt32 g.cycles < end_cycles) ∨ end_cycles = 0

instance (begin_cycles end_cycles : Nat) (g : Stats) :
    Decidable (in_trace_window begin_cycles end_cycles g) := by
  unfold in_trace_window; infer_instance

/-! ## Vector register commit log: `update_vreg_commit` -/

/-- Body of the byte loop for `i = k - 1`: two hex digits of `reg_write_data[i]` when
`(int)mask & (0x1 << i)` is non-zero, `XX` otherwise. A shift count of 32 or more has
no defined value. -/
def vreg_byte_body (mask : Nat) (reg_write_data : List Byte) (k : Nat)
    (out : List Char) : Option (List Char) :=
  let i := k - 1
  if 32 ≤ i then none
  else if (mask % 2 ^ 32) &&& ((1 <<< i) % 2 ^ 32) ≠ 0 then
    match reg_write_data[i]? with
    | none => none
    | some b => some (out ++ fmt_x 2 b.val)
  else some (out ++ ['X', 'X'])

/-- The function `update_vreg_commit`: the text it appends to the commit log. The
flag `RISCV_ZVE32X` is the preprocessor symbol that compiles the body in. The loop
`for (i = vreg_w/8-1; i >= 0; i--)` runs with `k = i + 1`. -/
def update_vreg_commit (RISCV_ZVE32X : Bool) (top : Top) (vreg_w : Int) :
    Option (List Char) :=
  if RISCV_ZVE32X && top.vregfile_wr_en_q then
    match forDown (vreg_byte_body top.vregfile_wr_mask_q top.vregfile_wr_data_q)
        (Int.tdiv vreg_w 8 - 1 + 1).toNat
        ('v' :: fmt_d top.vregfile_wr_addr_q ++ " 0x".toList) with
    | none => none
    | some out => some (out ++ ['\n'])
  else some []

/-- One two-character group of the vector commit line for byte index `i`. -/
def vreg_group (mask : Nat) (data : List Byte) (i : Nat) : List Char :=
  if mask.testBit i then hex_digits 2 (data.getD i 0).val else ['X', 'X']

/-- The vector commit line as the specification words it: `v<index> 0x`, then the
groups for byte indices `n-1` down to `0`, then a newline. -/
def vreg_line (index mask : Nat) (data : List Byte) (n : Nat) : List Char :=
  'v' :: Nat.toDigits 10 index ++ " 0x".toList
    ++ (List.range n).flatMap (fun k => vreg_group mask data (n - 1 - k)) ++ ['\n']

/-! ## Program image loader: `load_program` -/

/-- The C library's `isspace` (in the "C" locale). -/
def isspace (c : Char) : Bool :=
  c = ' ' || c = '\t' || c = '\n' || c = '\x0b' || c = '\x0c' || c = '\r'

/-- Value of a hexadecimal digit character, upper or lower case. -/
def hex_val (c : Char) : Option Nat :=
  if '0' ≤ c ∧ c ≤ '9' then some (c.toNat - '0'.toNat)
  else if 'a' ≤ c ∧ c ≤ 'f' then some (c.toNat - 'a'.toNat + 10)
  else if 'A' ≤ c ∧ c ≤ 'F' then some (c.toNat - 'A'.toNat + 10)
  else none

/-- The longest run of hexadecimal digits at the start of a string: the value
accumulated, whether a digit was read, and the rest of the string. -/
def scan_hex : List Char → Nat → Bool → Nat × Bool × List Char
  | [], acc, any => (acc, any, [])
  | c :: t, acc, any =>
    match hex_val c with
    | some d => scan_hex t (16 * acc + d) true
    | none => (acc, any, c :: t)

/-- The C library's `strtol(s, &end, 16)` with a 64-bit `long`: leading white space,
an optional sign, an optional `0x` or `0X` in front of a digit, then the digits; the
value is clamped to the range of `long`. Without a digit the value is 0 and `end` is
`s` itself. The result is the value and the string `end` points to. -/
def strtol16 (s : List Char) : Int × List Char :=
  let s1 := s.dropWhile isspace
  let neg := s1.head? = some '-'
  let s2 := if s1.head? = some '-' ∨ s1.head? = some '+' then s1.tail else s1
  let s3 :=
    if s2.head? = some '0' ∧ (s2[1]? = some 'x' ∨ s2[1]? = some 'X')
        ∧ (s2[2]?.bind hex_val).isSome then s2.drop 2
    else s2
  match scan_hex s3 0 false with
  | (_, false, _) => (0, s)
  | (v, true, rest) =>
    let r : Int := if neg then -(v : Int) else (v : Int)
    (max (-(2 ^ 63)) (min r (2 ^ 63 - 1)), rest)

/-- The C library's `fgets` on a stream that holds `s`: at most `n` characters are
read, stopping after a newline. The result is the line read and the rest of the
stream. -/
def fgets_take : Nat → List Char → List Char × List Char
  | 0, s => ([], s)
  | _ + 1, [] => ([], [])
  | n + 1, c :: t =>
    if c = '\n' then ([c], t)
    else ((c :: (fgets_take n t).1), (fgets_take n t).2)

/-- Store `p[idx] = v` with an `int` index. -/
def wr_int {α : Type} (p : List α) (idx : Int) (v : α) : Option (List α) :=
  if 0 ≤ idx then wr p idx.toNat v else none

/-- Load `p[idx]` with an `int` index. -/
def rd_int {α : Type} (p : List α) (idx : Int) : Option α :=
  if 0 ≤ idx then p[idx.toNat]? else none

/-- Body of the loop `for (i = 0; i < 4; i++) mem[addr+i] = data >> (8*i)`; the
shift of the `int` is arithmetic and the store keeps the low 8 bits. -/
def store_body (addr data : Int) (i : Nat) (mem : List Byte) : Option (List Byte) :=
  wr_int mem (addr + i) (Fin.ofNat ((data >>> (8 * i)) % 256).toNat)

/-- The loop `while (*ptr != '\n' && *ptr != 0)` of `load_program` on the rest of
the line buffer; the end of the list is the terminating NUL. One unit of fuel is
spent per iteration; an iteration that does not advance `ptr` repeats for ever, and
in that case the fuel runs out or a store leaves the memory. -/
def token_loop : Nat → List Char → Int → List Byte → Option (Int × List Byte)
  | 0, _, _, _ => none
  | fuel + 1, ptr, addr, mem =>
    if ptr.head? = none ∨ ptr.head? = some '\n' ∨ ptr.head? = some '\x00' then some (addr, mem)
    else
      let data : Int := toInt32 (ofInt32 (strtol16 ptr).1)
      match forUp (store_body addr data) 4 0 mem with
      | none => none
      | some mem1 =>
        token_loop fuel ((strtol16 ptr).2.dropWhile (· = ' ')) (toInt32 (ofInt32 (addr + 4))) mem1

/-- One iteration of the `fgets` loop of `load_program` on the line in `buf`:
comment lines are skipped, a line starting with `@` sets the address, then the
tokens of the line are stored. -/
def load_line (buf : List Char) (addr : Int) (mem : List Byte) : Option (Int × List Byte) :=
  if buf.head? = some '#' ∨ buf.head? = some '/' then some (addr, mem)
  else if buf.head? = some '@' then
    token_loop (buf.length + 1) ((strtol16 buf.tail).2.dropWhile (· = ' '))
      (toInt32 (ofInt32 ((strtol16 buf.tail).1 * 4))) mem
  else token_loop (buf.length + 1) buf addr mem

/-- The loop `while (fgets(buf, sizeof(buf), ftmp) != NULL)` with `char buf[256]`,
on the rest of the file. Every `fgets` that succeeds takes at least one character, so
a fuel above the length of the file is never used up. -/
def load_lines : Nat → List Char → Int → List Byte → Option (List Byte)
  | 0, stream, _, mem => if stream = [] then some mem else none
  | fuel + 1, stream, addr, mem =>
    if stream = [] then some mem
    else
      match load_line (fgets_take 255 stream).1 addr mem with
      | none => none
      | some r => load_lines fuel (fgets_take 255 stream).2 r.1 r.2

/-- The function `load_program`. `malloc_ok` says that the allocation succeeds and
`prog` is the text of the file at `prog_path` (`none` when it cannot be opened). The
result is `some none` when the function returns `NULL`, `some (some mem)` when it
returns the store `mem`, and `none` when it does not return without leaving the
store. -/
def load_program (mem_sz : Nat) (malloc_ok : Bool) (prog : Option (List Char)) :
    Option (Option (List Byte)) :=
  if malloc_ok then
    match prog with
    | none => some none
    | some text =>
      match load_lines (text.length + 1) text 0 (List.replicate mem_sz 0) with
      | none => none
      | some mem => some (some mem)
  else some none

/-! ## Memory dump: `dump_mem_region` -/

/-- The loop `for (addr = start_addr; addr < end_addr; addr += 4)` with `int addr`;
the comparison is made in `unsigned`. One unit of fuel is spent per iteration. -/
def dump_loop : Nat → Int → Nat → List Byte → List Char → Option (List Char)
  | 0, addr, end_addr, _, out => if ofInt32 addr < end_addr then none else some out
  | fuel + 1, addr, end_addr, mem, out =>
    if ofInt32 addr < end_addr then
      match rd_int mem addr, rd_int mem (addr + 1), rd_int mem (addr + 2),
          rd_int mem (addr + 3) with
      | some b0, some b1, some b2, some b3 =>
        dump_loop fuel (toInt32 (ofInt32 (addr + 4))) end_addr mem
          (out ++ (fmt_x 8 (b0.val ||| (b1.val <<< 8) ||| (b2.val <<< 16) ||| (b3.val <<< 24))
            ++ ['\n']))
      | _, _, _, _ => none
    else some out

/-- The function `dump_mem_region`: the text written to the dump file (nothing when
the file cannot be opened). Every iteration that completes reads the store at a
larger address, so a fuel above the length of the store is never used up. -/
def dump_mem_region (start_addr end_addr : Nat) (mem : List Byte) (fopen_ok : Bool) :
    Option (List Char) :=
  if fopen_ok then dump_loop (mem.length + 1) (toInt32 start_addr) end_addr mem []
  else some []

/-- The 32-bit word at address `a`, assembled little-endian. -/
def word_at (mem : List Byte) (a : Nat) : Nat :=
  (mem.getD a 0).val + 2 ^ 8 * (mem.getD (a + 1) 0).val + 2 ^ 16 * (mem.getD (a + 2) 0).val
    + 2 ^ 24 * (mem.getD (a + 3) 0).val

/-! ## Program texts and the image they describe -/

/-- Value of a string of hexadecimal digits. -/
def hex_value (tok : List Char) : Nat :=
  tok.foldl (fun acc c => 16 * acc + (hex_val c).getD 0) 0

/-- A hex token: a non-empty string of hexadecimal digits. -/
def is_hex_token (tok : List Char) : Bool :=
  !tok.isEmpty && tok.all fun c => (hex_val c).isSome

/-- The tokens of one line, each followed by its number of spaces. -/
def render_toks (items : List (List Char × Nat)) : List Char :=
  items.flatMap fun it => it.1 ++ List.replicate it.2 ' '

/-- Every token is a hex token below `2^32`, and every token but the last is
followed by at least one space. -/
def items_ok : List (List Char × Nat) → Bool
  | [] => true
  | [it] => is_hex_token it.1 && decide (hex_value it.1 < 2 ^ 32)
  | it :: it2 :: rest =>
    is_hex_token it.1 && decide (hex_value it.1 < 2 ^ 32) && decide (1 ≤ it.2)
      && items_ok (it2 :: rest)

/-- A line of tokens without its newline: leading spaces, then the tokens. -/
structure TokLine where
  lead : Nat
  items : List (List Char × Nat)
deriving DecidableEq, Repr

/-- The characters of a line of tokens (without the newline). -/
def TokLine.render (l : TokLine) : List Char :=
  List.replicate l.lead ' ' ++ render_toks l.items

/-- The values of the tokens of a line. -/
def TokLine.values (l : TokLine) : List Nat :=
  l.items.map fun it => hex_value it.1

/-- A data line the loader reads as its tokens: well-formed tokens, not made of
spaces only, and short enough (with its newline) for the 256-byte line buffer. -/
def TokLine.ok (l : TokLine) : Bool :=
  items_ok l.items && (!l.items.isEmpty || decide (l.lead = 0))
    && decide (l.render.length + 1 ≤ 255)

/-- The last line of a text, which has no newline: as a data line, with the whole
line buffer for the line itself. -/
def TokLine.ok_last (l : TokLine) : Bool :=
  items_ok l.items && (!l.items.isEmpty || decide (l.lead = 0))
    && decide (l.render.length ≤ 255)

/-- The rest of an address line after `@A`: as a data line, but the spaces are what
separates the first token from the address. -/
def TokLine.ok_after_address (l : TokLine) (A : List Char) : Bool :=
  items_ok l.items && (l.items.isEmpty || decide (1 ≤ l.lead))
    && decide (1 + A.length + l.render.length + 1 ≤ 255)

/-- A program text: the line `@A` (with tokens after the address on the same line
allowed), then lines of tokens, then a last line without a newline (empty when the
text ends with a newline). -/
def program_text (A : List Char) (first : TokLine) (lines : List TokLine) (last : TokLine) :
    List Char :=
  '@' :: A ++ first.render ++ ['\n'] ++ lines.flatMap (fun l => l.render ++ ['\n'])
    ++ last.render

/-- The token values `d_0 .. d_(n-1)` of a program text, in order. -/
def program_words (first : TokLine) (lines : List TokLine) (last : TokLine) : List Nat :=
  first.values ++ lines.flatMap TokLine.values ++ last.values

/-- Bits `8j .. 8j+7` of `d`. -/
def word_byte (d j : Nat) : Byte := Fin.ofNat (d / 2 ^ (8 * j) % 256)

/-- The store the specification describes: `mem_sz` bytes, byte `4*A + 4*k + j` is
bits `8j..8j+7` of `d_k`, every other byte is zero. -/
def image (mem_sz A : Nat) (ds : List Nat) : List Byte :=
  (List.range mem_sz).map fun p =>
    if 4 * A ≤ p ∧ p < 4 * A + 4 * ds.length then
      word_byte (ds.getD ((p - 4 * A) / 4) 0) ((p - 4 * A) % 4)
    else 0

/-- The store after the four byte stores of one word at address `a`. -/
def put_word (mem : List Byte) (a d : Nat) : List Byte :=
  (((mem.set a (word_byte d 0)).set (a + 1) (word_byte d 1)).set (a + 2) (word_byte d 2)).set
    (a + 3) (word_byte d 3)

/-- The store after the words `ds` have been stored from address `a` on. -/
def store_words : List Byte → Nat → List Nat → List Byte
  | mem, _, [] => mem
  | mem, a, d :: ds => store_words (put_word mem a d) (a + 4) ds

/-- The string is empty or starts with a space or a newline. -/
def Sep (s : List Char) : Prop :=
  s.head? = none ∨ s.head? = some ' ' ∨ s.head? = some '\n'

/-! ## Stall detection: `check_stall` -/

/-- The globals `cycles_stalled` and `last_IF_PC` of the header, both `uint32_t`
and both 0 at the start. -/
structure StallState where
  cycles_stalled : Nat := 0
  last_IF_PC : Nat := 0
deriving DecidableEq, Repr

/-- The function `check_stall`: the globals after the call and the value returned.
The message written to `stderr` when a stall is declared is not part of the result. -/
def check_stall (s : StallState) (top : Top) (max_cycles : Nat) : StallState × Bool :=
  let current_IF_PC := top.pc_if
  let stalled := if current_IF_PC = s.last_IF_PC then u32 (s.cycles_stalled + 1) else 0
  ({ cycles_stalled := stalled, last_IF_PC := current_IF_PC }, decide (max_cycles ≤ stalled))

/-- The globals after consecutive calls of `check_stall` from the start of the
simulation, one call per element of `tops`. -/
def run_stall (max_cycles : Nat) (tops : List Top) : StallState :=
  tops.foldl (fun s top => (check_stall s top max_cycles).1) {}

/-- The fetch PCs `p_0, p_1, ..., p_n` of a sequence of calls, `p_0 = 0` being the
initial value of `last_IF_PC`. -/
def pc_history (tops : List Top) : List Nat := 0 :: tops.map fun t => t.pc_if

/-! ## Floating-point arithmetic used by `update_avg_vector_len` -/

/-- A finite floating-point value, `m * 2^e`. The values computed by
`update_avg_vector_len` come from 32-bit integers, so the exponent range of `float` and
`double` is never reached; a result that is not finite (a division by zero) is the
absence of a value. -/
structure Flt where
  m : Int
  e : Int
deriving DecidableEq, Repr

/-- Number of binary digits of `n`, counted with `fuel` halvings at most. -/
def bit_length_aux : Nat → Nat → Nat
  | 0, _ => 0
  | fuel + 1, n => if n = 0 then 0 else bit_length_aux fuel (n / 2) + 1

/-- Number of binary digits of `n`. -/
def bit_length (n : Nat) : Nat := bit_length_aux n n

/-- The quotient `m / 2^k` rounded to the nearest integer, ties to even. -/
def round_half_even (m k : Nat) : Nat :=
  if m % 2 ^ k < 2 ^ (k - 1) then m / 2 ^ k
  else if 2 ^ (k - 1) < m % 2 ^ k then m / 2 ^ k + 1
  else if m / 2 ^ k % 2 = 0 then m / 2 ^ k
  else m / 2 ^ k + 1

/-- The value `m * 2^e` rounded to `p` significant bits (24 for `float`, 53 for
`double`), to nearest with ties to even, as IEEE 754 arithmetic rounds. -/
def round_nat (p m : Nat) (e : Int) : Flt :=
  if m < 2 ^ p then { m := (m : Int), e := e }
  else { m := (round_half_even m (bit_length m - p) : Nat), e := e + ((bit_length m - p : Nat) : Int) }

/-- Rounding of a signed value `m * 2^e` to `p` significant bits. -/
def round_int (p : Nat) (m e : Int) : Flt :=
  { m := if m < 0 then -(round_nat p m.natAbs e).m else (round_nat p m.natAbs e).m,
    e := (round_nat p m.natAbs e).e }

/-- Conversion of an integer to the format with `p` significant bits: `(float)z` for
`p = 24`, `(double)z` for `p = 53`. -/
def of_int (p : Nat) (z : Int) : Flt := round_int p z 0

/-- Product of two floating-point values, rounded to `p` significant bits. -/
def fmul (p : Nat) (a b : Flt) : Flt := round_int p (a.m * b.m) (a.e + b.e)

/-- Quotient of two floating-point values, rounded to `p` significant bits; no finite
value when the divisor is zero. The quotient is computed with more than `p + 2` bits and
a sticky bit for the remainder, then rounded. -/
def fdiv (p : Nat) (a b : Flt) : Option Flt :=
  if b.m = 0 then none
  else if a.m = 0 then some { m := 0, e := 0 }
  else
    let t := p + 2 + bit_length b.m.natAbs
    let n := a.m.natAbs * 2 ^ t
    let r := round_nat p (2 * (n / b.m.natAbs) + (if n % b.m.natAbs = 0 then 0 else 1))
      (a.e - b.e - t - 1)
    some { m := if decide (a.m < 0) != decide (b.m < 0) then -r.m else r.m, e := r.e }

/-- Sum of two floating-point values of `p` significant bits, rounded to `p` significant
bits; a zero operand leaves the other one as it is. -/
def fadd (p : Nat) (a b : Flt) : Flt :=
  if a.m = 0 then b
  else if b.m = 0 then a
  else
    round_int p (a.m * 2 ^ (a.e - min a.e b.e).toNat + b.m * 2 ^ (b.e - min a.e b.e).toNat)
      (min a.e b.e)

/-- Conversion of a floating-point value to `int`: the value truncated toward zero; no
value when that is outside the range of `int`. -/
def to_int32 (a : Flt) : Option Int :=
  let mag : Nat :=
    if 0 ≤ a.e then a.m.natAbs * 2 ^ a.e.toNat else a.m.natAbs / 2 ^ (-a.e).toNat
  let z : Int := if a.m < 0 then -(mag : Int) else (mag : Int)
  if -(2 ^ 31) ≤ z ∧ z < 2 ^ 31 then some z else none

/-- The statement `sum += x` for an `int` `sum` and a floating-point `x` of `p`
significant bits: `sum` is converted to the format of `x`, the sum is rounded and
converted back to `int`. Without a finite `x` the conversion has no value. -/
def add_assign (p : Nat) (sum : Int) (x : Option Flt) : Option Int :=
  match x with
  | none => none
  | some v => to_int32 (fadd p (of_int p sum) v)

/-! ## Vector-length statistics: `update_avg_vector_len` -/

/-- The accumulators `sum_vec_lengths` and `sum_vec_lengths_bytes` of the header, both
`int`. The third accumulator, `sum_vec_percentage`, is a `float` and never read by the
integer ones, so it is not part of this record. -/
structure VecAcc where
  sum_vec_lengths : Int := 0
  sum_vec_lengths_bytes : Int := 0
deriving DecidableEq, Repr

/-- The function `update_avg_vector_len` on the integer accumulators. Each expression is
evaluated in the type C gives it: `float` for `(float)cur/(float)vlen` and
`(float)cur/((float)vlen * 4)`, `double` for `(float)cur/((float)vlen/2.0)`, and
`sum_vec_lengths_bytes += x` converts the accumulator to the type of `x` and the sum back
to `int`. The fall-through of the LMUL switch (case 0 into case 1, case 7 into 6 into 5
into the default) is kept; case 1 adds to `sum_vec_percentage` only. The result is `none`
when a conversion to `int` has no value. The message written to `stderr` for an
unsupported SEW is not part of the result. -/
def update_avg_vector_len (a : VecAcc) (top : Top) : Option VecAcc :=
  if top.vcore_result_valid && top.vcore_result_ready then
    let sum_vec_lengths := toInt32 (ofInt32 a.sum_vec_lengths + top.csr_vl_o)
    let vl := top.csr_vl_o
    let sew : Int × Int :=
      match top.csr_vtype_o / 8 % 8 with
      | 0 => (toInt32 (ofInt32 a.sum_vec_lengths_bytes + vl), toInt32 vl)
      | 1 => (toInt32 (ofInt32 a.sum_vec_lengths_bytes + u32 (vl * 2)), toInt32 (vl * 2))
      | 2 => (toInt32 (ofInt32 a.sum_vec_lengths_bytes + u32 (vl * 4)), toInt32 (vl * 4))
      | _ => (a.sum_vec_lengths_bytes, 0)
    let cur := of_int 24 sew.2
    let vlen := of_int 24 (top.csr_vlen_b_o : Int)
    let bytes : Option Int :=
      match top.csr_vtype_o % 8 with
      | 0 => add_assign 24 sew.1 (fdiv 24 cur vlen)
      | 1 => some sew.1
      | 2 => add_assign 24 sew.1 (fdiv 24 cur (fmul 24 vlen (of_int 24 4)))
      | 4 => add_assign 24 sew.1 (fdiv 24 cur (fmul 24 vlen (of_int 24 8)))
      | 7 =>
        (add_assign 53 sew.1 ((fdiv 53 vlen (of_int 53 2)).bind (fdiv 53 cur))).bind fun b1 =>
        (add_assign 53 b1 ((fdiv 53 vlen (of_int 53 4)).bind (fdiv 53 cur))).bind fun b2 =>
        (add_assign 53 b2 ((fdiv 53 vlen (of_int 53 8)).bind (fdiv 53 cur))).bind fun b3 =>
        add_assign 24 b3 (fdiv 24 cur vlen)
      | 6 =>
        (add_assign 53 sew.1 ((fdiv 53 vlen (of_int 53 4)).bind (fdiv 53 cur))).bind fun b2 =>
        (add_assign 53 b2 ((fdiv 53 vlen (of_int 53 8)).bind (fdiv 53 cur))).bind fun b3 =>
        add_assign 24 b3 (fdiv 24 cur vlen)
      | 5 =>
        (add_assign 53 sew.1 ((fdiv 53 vlen (of_int 53 8)).bind (fdiv 53 cur))).bind fun b3 =>
        add_assign 24 b3 (fdiv 24 cur vlen)
      | _ => add_assign 24 sew.1 (fdiv 24 cur vlen)
    bytes.map fun b => { sum_vec_lengths := sum_vec_lengths, sum_vec_lengths_bytes := b }
  else some a

/-! ## Read position of the token loop -/

/-- The read position after one iteration of the token loop of `load_program` that
starts at `ptr`: `strtol` leaves `ptr` at the end of what it read, then
`while (*ptr == ' ') ptr++` skips the spaces. -/
def next_ptr (ptr : List Char) : List Char := (strtol16 ptr).2.dropWhile (· = ' ')

/-- Every iteration of the token loop started at `ptr` moves the read position forward,
up to the iteration that finds the end of the line; at most `fuel` iterations are
looked at. -/
def line_advances : Nat → List Char → Bool
  | 0, _ => false
  | fuel + 1, ptr =>
    if ptr.head? = none ∨ ptr.head? = some '\n' ∨ ptr.head? = some '\x00' then true
    else decide ((next_ptr ptr).length < ptr.length) && line_advances fuel (next_ptr ptr)

/-! ## Lines of a memory dump read as program text -/

/-- The line `dump_mem_region` writes for the word `w`, as a line of tokens: the 8 hex
digits of `w`, no space before or after. -/
def dump_line (w : Nat) : TokLine := { lead := 0, items := [(hex_digits 8 w, 0)] }

/-! ## Loop rules -/

theorem forUp_inv {σ : Type} (body : Nat → σ → Option σ) (n : Nat) :
    ∀ (P : Nat → σ → Prop) (i0 : Nat) (s0 : σ), P 0 s0 →
      (∀ k s, k < n → P k s → ∃ s1, body (i0 + k) s = some s1 ∧ P (k + 1) s1) →
      ∃ s1, forUp body n i0 s0 = some s1 ∧ P n s1 := by
  induction n with
  | zero => intro P i0 s0 h0 _; exact ⟨s0, rfl, h0⟩
  | succ n ih =>
    intro P i0 s0 h0 hstep
    obtain ⟨s1, hb, hP1⟩ := hstep 0 s0 (Nat.succ_pos n) h0
    have hb1 : body i0 s0 = some s1 := by simpa using hb
    obtain ⟨s2, hrun, hP2⟩ := ih (fun k s => P (k + 1) s) (i0 + 1) s1 hP1 (by
      intro k s hk hP
      obtain ⟨s3, hb3, hP3⟩ := hstep (k + 1) s (Nat.succ_lt_succ hk) hP
      refine ⟨s3, ?_, hP3⟩
      rw [← hb3]; congr 1; omega)
    exact ⟨s2, by simp [forUp, hb1, hrun], hP2⟩

theorem forDown_inv {σ : Type} (body : Nat → σ → Option σ) (P : Nat → σ → Prop) (hi : Nat) :
    ∀ (s0 : σ), P hi s0 →
      (∀ i s, 0 < i → i ≤ hi → P i s → ∃ s1, body i s = some s1 ∧ P (i - 1) s1) →
      ∃ s1, forDown body hi s0 = some s1 ∧ P 0 s1 := by
  induction hi with
  | zero => intro s0 h0 _; exact ⟨s0, rfl, h0⟩
  | succ i ih =>
    intro s0 h0 hstep
    obtain ⟨s1, hb, hP1⟩ := hstep (i + 1) s0 (Nat.succ_pos i) (Nat.le_refl _) h0
    obtain ⟨s2, hrun, hP2⟩ := ih s1 (by simpa using hP1) (by
      intro k s hk hle hP
      exact hstep k s hk (Nat.le_succ_of_le hle) hP)
    exact ⟨s2, by simp [forDown, hb, hrun], hP2⟩

/-! ## Buffer lemmas -/

theorem set_eq_self_of_getElem? {α : Type} (l : List α) (r : Nat) (x : α)
    (h : l[r]? = some x) : l.set r x = l := by
  apply List.ext_getElem?
  intro j
  rw [List.getElem?_set]
  split
  · next hj => subst hj; simp [h]; exact (List.getElem?_eq_some.mp h).1
  · rfl

theorem take_drop_set {α : Type} (vals row : List α) (k : Nat) (v : α)
    (hv : vals[k]? = some v) (hk : k < row.length) :
    (vals.take k ++ row.drop k).set k v = vals.take (k + 1) ++ row.drop (k + 1) := by
  have hkv : k < vals.length := (List.getElem?_eq_some.mp hv).1
  apply List.ext_getElem?
  intro j
  rw [List.getElem?_set]
  simp only [List.getElem?_append, List.length_take, List.length_append, List.length_drop,
    List.getElem?_take, List.getElem?_drop]
  have h1 : min k vals.length = k := by omega
  have h2 : min (k + 1) vals.length = k + 1 := by omega
  rw [h1, h2]
  by_cases hjk : k = j
  · subst hjk
    simp [hv]; omega
  · by_cases hlt : j < k
    · have : j < k + 1 := by omega
      simp [hjk, hlt, this]
    · have h3 : ¬ j < k + 1 := by omega
      simp only [hjk, hlt, h3, if_false]
      congr 1; omega

theorem wr2_set {α : Type} (q0 : List (List α)) (r k : Nat) (X : List α) (v : α)
    (hr : r < q0.length) (hk : k < X.length) :
    wr2 (q0.set r X) r k v = some (q0.set r (X.set k v)) := by
  have h1 : (q0.set r X)[r]? = some X := by
    rw [List.getElem?_set]; simp [hr]
  simp [wr2, h1, wr, hk, hr]

theorem fill_rows {α : Type} (body : Nat → List (List α) → Option (List (List α)))
    (r n : Nat) (vals row : List α) (q0 : List (List α))
    (hrow : q0[r]? = some row) (hn : n ≤ row.length) (hv : n ≤ vals.length)
    (hbody : ∀ k v, k < n → vals[k]? = some v →
      body k (q0.set r (vals.take k ++ row.drop k))
        = wr2 (q0.set r (vals.take k ++ row.drop k)) r k v) :
    forUp body n 0 q0 = some (q0.set r (vals.take n ++ row.drop n)) := by
  have hr : r < q0.length := (List.getElem?_eq_some.mp hrow).1
  obtain ⟨s1, hrun, hP⟩ := forUp_inv body n
    (fun k q => q = q0.set r (vals.take k ++ row.drop k)) 0 q0
    (by simp [set_eq_self_of_getElem? q0 r row hrow])
    (by
      intro k s hk hP
      subst hP
      have hkv : k < vals.length := by omega
      have hval : vals[k]? = some vals[k] := List.getElem?_eq_getElem hkv
      refine ⟨q0.set r (vals.take (k + 1) ++ row.drop (k + 1)), ?_, rfl⟩
      rw [Nat.zero_add, hbody k vals[k] hk hval, wr2_set q0 r k _ _ hr (by
        simp only [List.length_append, List.length_take, List.length_drop]; omega)]
      rw [take_drop_set vals row k vals[k] hval (by omega)])
  rw [hrun, hP]

theorem fill_buf {α : Type} (body : Nat → List α → Option (List α))
    (n : Nat) (vals out : List α) (hn : n ≤ out.length) (hv : n ≤ vals.length)
    (hbody : ∀ k v, k < n → vals[k]? = some v →
      body k (vals.take k ++ out.drop k) = wr (vals.take k ++ out.drop k) k v) :
    forUp body n 0 out = some (vals.take n ++ out.drop n) := by
  obtain ⟨s1, hrun, hP⟩ := forUp_inv body n
    (fun k o => o = vals.take k ++ out.drop k) 0 out (by simp)
    (by
      intro k s hk hP
      subst hP
      have hkv : k < vals.length := by omega
      have hval : vals[k]? = some vals[k] := List.getElem?_eq_getElem hkv
      refine ⟨vals.take (k + 1) ++ out.drop (k + 1), ?_, rfl⟩
      rw [Nat.zero_add, hbody k vals[k] hk hval]
      have hlen : k < (vals.take k ++ out.drop k).length := by
        simp only [List.length_append, List.length_take, List.length_drop]; omega
      simp only [wr, hlen, if_true]
      rw [take_drop_set vals out k vals[k] hval (by omega)])
  rw [hrun, hP]

/-! ## The shift loop -/

theorem shifted_init {α : Type} (l0 : List α) : Shifted (l0.length - 1) l0 l0 := by
  refine ⟨rfl, fun r => ?_⟩
  by_cases h : r ≤ l0.length - 1
  · simp [h]
  · have h2 : ¬ r < l0.length := by omega
    simp only [h, h2, if_false]
    exact List.getElem?_eq_none (by omega)

theorem shifted_step {α : Type} (l0 l : List α) (i : Nat) (hi : 0 < i) (hiL : i < l0.length)
    (h : Shifted i l0 l) :
    ∃ v, l[i - 1]? = some v ∧ l0[i - 1]? = some v ∧ Shifted (i - 1) l0 (l.set i v) := by
  obtain ⟨hlen, hpt⟩ := h
  have h1 : i - 1 < l0.length := by omega
  have hv : l[i - 1]? = l0[i - 1]? := by
    rw [hpt (i - 1)]; simp
  refine ⟨l0[i - 1], ?_, List.getElem?_eq_getElem h1, ?_, ?_⟩
  · rw [hv]; exact List.getElem?_eq_getElem h1
  · simp [hlen]
  · intro r
    rw [List.getElem?_set]
    by_cases hr : i = r
    · subst hr
      have h2 : ¬ i ≤ i - 1 := by omega
      simp [hlen, hiL, h2]
    · rw [if_neg hr, hpt r]
      by_cases h3 : r ≤ i
      · have h4 : r ≤ i - 1 := by omega
        simp [h3, h4]
      · have h4 : ¬ r ≤ i - 1 := by omega
        simp [h3, h4]

theorem shifted_final {α : Type} (l0 l : List α) (h : Shifted 0 l0 l) (hL : 1 ≤ l0.length)
    (x : α) : l.set 0 x = x :: l0.dropLast := by
  obtain ⟨hlen, hpt⟩ := h
  apply List.ext_getElem?
  intro j
  rw [List.getElem?_set]
  cases j with
  | zero =>
    have h0 : 0 < l.length := by omega
    simp [h0]
  | succ j =>
    have h0 : ¬ (0 = j + 1) := by omega
    rw [if_neg h0, hpt (j + 1), List.dropLast_eq_take]
    simp only [List.getElem?_cons_succ, List.getElem?_take]
    have h1 : ¬ (j + 1 ≤ 0) := by omega
    rw [if_neg h1]
    by_cases h2 : j + 1 < l0.length
    · have h3 : j < l0.length - 1 := by omega
      simp [h2, h3]
    · have h3 : ¬ j < l0.length - 1 := by omega
      simp [h2, h3]

theorem shifted_rows {α : Type} (i n : Nat) (l0 l : List (List α)) (h : Shifted i l0 l)
    (hrows : ∀ row ∈ l0, row.length = n) : ∀ row ∈ l, row.length = n := by
  intro row hrow
  obtain ⟨r, hr, hget⟩ := List.getElem_of_mem hrow
  have h1 : l[r]? = some row := by rw [List.getElem?_eq_getElem hr, hget]
  rw [h.2 r] at h1
  split at h1
  · exact hrows row (List.getElem?_mem h1)
  · split at h1
    · exact hrows row (List.getElem?_mem h1)
    · cases h1

/-! ## The loops of `update_mem_load` -/

theorem byte_zero_or (b : Byte) : (0 : Byte) ||| b = b := by
  apply Fin.ext
  show (0 ||| b.val) % 256 = b.val
  rw [Nat.zero_or]
  exact Nat.mod_eq_of_lt b.isLt

theorem deliver_loop_eq (qd : List (List Byte)) (out : List Byte) (last n : Nat)
    (row : List Byte) (hrow : qd[last]? = some row) (hn : n ≤ row.length)
    (ho : n ≤ out.length) :
    forUp (deliver_body qd last) n 0 out = some (row.take n ++ out.drop n) := by
  apply fill_buf _ n row out ho hn
  intro k v _ hv
  simp [deliver_body, rd2, hrow, hv]

theorem shift_data_loop_eq (i n : Nat) (q : List (List Byte)) (src dst : List Byte)
    (hi : 0 < i) (hsrc : q[i - 1]? = some src) (hdst : q[i]? = some dst)
    (hs : src.length = n) (hd : dst.length = n) :
    forUp (shift_data_body i) n 0 q = some (q.set i src) := by
  have h := fill_rows (shift_data_body i) i n src dst q hdst (by omega) (by omega) (by
    intro k v _ hv
    have h1 : (q.set i (src.take k ++ dst.drop k))[i - 1]? = some src := by
      rw [List.getElem?_set]
      have : ¬ (i = i - 1) := by omega
      rw [if_neg this, hsrc]
    simp [shift_data_body, rd2, h1, hv])
  rw [h]
  congr 2
  rw [← hs, List.take_length, hs, ← hd, List.drop_length, List.append_nil]

theorem zero_loop_eq (n : Nat) (q : List (List Byte)) (row : List Byte)
    (hrow : q[0]? = some row) (hlen : row.length = n) :
    forUp zero_body n 0 q = some (q.set 0 (List.replicate n 0)) := by
  have h := fill_rows zero_body 0 n (List.replicate n (0 : Byte)) row q hrow (by omega)
    (by simp) (by
      intro k v hk hv
      have : v = 0 := by
        rw [List.getElem?_replicate] at hv
        simp [hk] at hv
        exact hv.symm
      subst this
      rfl)
  rw [h]
  congr 2
  rw [List.take_of_length_le (by simp), ← hlen, List.drop_length, List.append_nil]

theorem fetched_length (address n : Nat) (mem : List Byte) :
    (fetched address n mem).length = n := by
  simp [fetched]

theorem fetched_getElem? (address n : Nat) (mem : List Byte) (k : Nat) (hk : k < n) :
    (fetched address n mem)[k]? = some (mem.getD (u32 (address + k)) 0) := by
  simp [fetched, List.getElem?_map, List.getElem?_range hk]

theorem fetch_loop_eq (address n : Nat) (mem : List Byte) (q : List (List Byte))
    (hrow : q[0]? = some (List.replicate n 0))
    (hsafe : ∀ i, i < n → u32 (address + i) < mem.length) :
    forUp (fetch_body address mem) n 0 q = some (q.set 0 (fetched address n mem)) := by
  have h := fill_rows (fetch_body address mem) 0 n (fetched address n mem)
    (List.replicate n (0 : Byte)) q hrow (by simp) (by simp [fetched_length]) (by
      intro k v hk hv
      rw [fetched_getElem? address n mem k hk] at hv
      have hq : 0 < q.length := (List.getElem?_eq_some.mp hrow).1
      have h1 : (q.set 0 (List.take k (fetched address n mem)
          ++ List.drop k (List.replicate n (0 : Byte))))[0]?
          = some (List.take k (fetched address n mem)
              ++ List.drop k (List.replicate n (0 : Byte))) := by
        rw [List.getElem?_set]; simp [hq]
      have h2 : (List.take k (fetched address n mem)
          ++ List.drop k (List.replicate n (0 : Byte)))[k]? = some 0 := by
        rw [List.getElem?_append_right (by simp [fetched_length])]
        have hmin : k - min k n = 0 := by omega
        simp only [List.length_take, fetched_length, List.drop_replicate, hmin,
          List.getElem?_replicate]
        rw [if_pos (by omega)]
      have h3 : mem[u32 (address + k)]? = some (mem.getD (u32 (address + k)) 0) := by
        rw [List.getD_eq_getElem?_getD, List.getElem?_eq_getElem (hsafe k hk)]
        simp
      have hv2 : mem.getD (u32 (address + k)) 0 = v := by simpa using hv
      simp only [fetch_body, rd2, h1, h2, h3, byte_zero_or, hv2])
  rw [h]
  congr 2
  rw [List.take_of_length_le (by simp [fetched_length]), List.drop_of_length_le (by simp),
    List.append_nil]

theorem shift_loop_eq (n L : Nat) (qd : List (List Byte)) (qv qe : List Bool)
    (hqd : qd.length = L) (hrows : ∀ row ∈ qd, row.length = n)
    (hqv : qv.length = L) (hqe : qe.length = L) :
    ∃ q, forDown (shift_body n) (L - 1) { data := qd, valid := qv, err := qe } = some q ∧
      Shifted 0 qd q.data ∧ Shifted 0 qv q.valid ∧ Shifted 0 qe q.err := by
  apply forDown_inv (shift_body n)
    (fun i q => Shifted i qd q.data ∧ Shifted i qv q.valid ∧ Shifted i qe q.err) (L - 1)
  · refine ⟨?_, ?_, ?_⟩
    · rw [← hqd]; exact shifted_init qd
    · rw [← hqv]; exact shifted_init qv
    · rw [← hqe]; exact shifted_init qe
  · intro i q hi hle hP
    obtain ⟨hPd, hPv, hPe⟩ := hP
    obtain ⟨src, hsrc, hsrc0, hd1⟩ := shifted_step qd q.data i hi (by omega) hPd
    obtain ⟨v, hv, _, hv1⟩ := shifted_step qv q.valid i hi (by omega) hPv
    obtain ⟨e, he, _, he1⟩ := shifted_step qe q.err i hi (by omega) hPe
    have hid : i < q.data.length := by rw [hPd.1]; omega
    have hiv : i < q.valid.length := by rw [hPv.1]; omega
    have hie : i < q.err.length := by rw [hPe.1]; omega
    have hrows1 := shifted_rows i n qd q.data hPd hrows
    have hinner := shift_data_loop_eq i n q.data src q.data[i] hi hsrc
      (List.getElem?_eq_getElem hid) (hrows1 src (List.getElem?_mem hsrc))
      (hrows1 _ (List.getElem_mem hid))
    refine ⟨{ data := q.data.set i src, valid := q.valid.set i v, err := q.err.set i e },
      ?_, hd1, hv1, he1⟩
    simp [shift_body, hinner, hv, he, wr, hiv, hie]

theorem last_index (L : Nat) (hL : 1 ≤ L) (hL31 : L ≤ 2 ^ 31) :
    u32 (L + 2 ^ 32 - 1) = L - 1 ∧ (toInt32 (L - 1)).toNat = L - 1 := by
  constructor
  · unfold u32; omega
  · unfold toInt32
    have h1 : (L - 1) % 2 ^ 32 = L - 1 := Nat.mod_eq_of_lt (by omega)
    rw [h1, if_pos (by omega)]
    simp

theorem getLast?_getD_eq {α : Type} (l : List α) (d x : α) (h : l[l.length - 1]? = some x) :
    l.getLast?.getD d = x := by
  rw [List.getLast?_eq_getElem?, h]; rfl

/-- On well-formed buffers, with a latency that the `int` loop counter can hold and
every store byte of an accepted request inside the store, `update_mem_load`
returns, and the state it leaves is `load_next`. -/
theorem update_mem_load_eq (address : Nat) (req_valid : Bool)
    (mem_w mem_lat mem_size : Nat) (st : LoadPort) (mem : List Byte)
    (hL : 1 ≤ mem_lat) (hL31 : mem_lat ≤ 2 ^ 31)
    (hwf : st.WellFormed mem_lat (mem_w / 8))
    (hsafe : ReadInBounds address req_valid mem_w mem_size mem) :
    update_mem_load address req_valid mem_w mem_lat mem_size st mem
      = some (load_next address req_valid mem_w mem_size st mem) := by
  obtain ⟨hqd, hrows, hqv, hqe, hout⟩ := hwf
  obtain ⟨hlast, hint⟩ := last_index mem_lat hL hL31
  have hld : mem_lat - 1 < st.queue_data.length := by omega
  have hlv : mem_lat - 1 < st.queue_valid.length := by omega
  have hle : mem_lat - 1 < st.queue_err.length := by omega
  have hrow : st.queue_data[mem_lat - 1]? = some st.queue_data[mem_lat - 1] :=
    List.getElem?_eq_getElem hld
  have hv : st.queue_valid[mem_lat - 1]? = some st.queue_valid[mem_lat - 1] :=
    List.getElem?_eq_getElem hlv
  have he : st.queue_err[mem_lat - 1]? = some st.queue_err[mem_lat - 1] :=
    List.getElem?_eq_getElem hle
  have hdel := deliver_loop_eq st.queue_data st.model_data_i (mem_lat - 1) (mem_w / 8)
    _ hrow (by rw [hrows _ (List.getElem_mem hld)]) hout
  obtain ⟨q, hshift, hsd, hsv, hse⟩ := shift_loop_eq (mem_w / 8) mem_lat st.queue_data
    st.queue_valid st.queue_err hqd hrows hqv hqe
  have hq0 : 0 < q.data.length := by rw [hsd.1]; omega
  have hqv0 : 0 < q.valid.length := by rw [hsv.1]; omega
  have hqe0 : 0 < q.err.length := by rw [hse.1]; omega
  have hzero := zero_loop_eq (mem_w / 8) q.data q.data[0] (List.getElem?_eq_getElem hq0)
    (shifted_rows 0 _ _ _ hsd hrows _ (List.getElem_mem hq0))
  have hfinal_d := fun x => shifted_final st.queue_data q.data hsd (by omega) x
  have hfinal_v := fun x => shifted_final st.queue_valid q.valid hsv (by omega) x
  have hfinal_e := fun x => shifted_final st.queue_err q.err hse (by omega) x
  have hgd : st.queue_data.getLast?.getD [] = st.queue_data[mem_lat - 1] :=
    getLast?_getD_eq _ _ _ (by rw [hqd]; exact hrow)
  have hgv : st.queue_valid.getLast?.getD false = st.queue_valid[mem_lat - 1] :=
    getLast?_getD_eq _ _ _ (by rw [hqv]; exact hv)
  have hge : st.queue_err.getLast?.getD false = st.queue_err[mem_lat - 1] :=
    getLast?_getD_eq _ _ _ (by rw [hqe]; exact he)
  unfold update_mem_load load_next new_entry
  rw [hlast]
  dsimp only
  rw [hint, hdel, hv, he, hshift]
  dsimp only
  rw [hzero]
  dsimp only [wr]
  rw [if_pos hqv0, if_pos hqe0, hfinal_v, hfinal_e, hgd, hgv, hge]
  by_cases hacc : (decide (address < mem_size) && req_valid) = true
  · have hboth : address < mem_size ∧ req_valid = true := by simpa using hacc
    have hfetch := fetch_loop_eq address (mem_w / 8) mem
      (q.data.set 0 (List.replicate (mem_w / 8) 0))
      (by rw [List.getElem?_set]; simp [hq0]) (hsafe hboth.1 hboth.2)
    rw [if_pos hacc, if_pos hacc, hfetch, List.set_set, hfinal_d, hacc]
  · have hacc2 : (decide (address < mem_size) && req_valid) = false := by
      simpa using hacc
    rw [if_neg hacc, if_neg hacc, hfinal_d, hacc2]

/-! ## The latency pipeline over several calls -/

theorem dropLast_cons_getElem? {α : Type} (x : α) (l : List α) (j : Nat)
    (hj : j + 1 < l.length) : (x :: l.dropLast)[j + 1]? = l[j]? := by
  rw [List.getElem?_cons_succ, List.dropLast_eq_take, List.getElem?_take]
  rw [if_pos (by omega)]

theorem load_next_wellFormed (address : Nat) (req_valid : Bool) (mem_w mem_size L : Nat)
    (st : LoadPort) (mem : List Byte) (hL : 1 ≤ L) (hwf : st.WellFormed L (mem_w / 8)) :
    (load_next address req_valid mem_w mem_size st mem).WellFormed L (mem_w / 8) := by
  obtain ⟨hqd, hrows, hqv, hqe, hout⟩ := hwf
  refine ⟨?_, ?_, ?_, ?_, ?_⟩
  · simp [load_next, hqd]; omega
  · intro row hrow
    simp only [load_next, List.mem_cons] at hrow
    rcases hrow with h | h
    · subst h
      unfold new_entry
      split
      · exact fetched_length _ _ _
      · simp
    · exact hrows row (List.mem_of_mem_dropLast h)
  · simp [load_next, hqv]; omega
  · simp [load_next, hqe]; omega
  · have hrow : (st.queue_data.getLast?.getD []).length = mem_w / 8 := by
      cases hg : st.queue_data.getLast? with
      | none =>
        rw [List.getLast?_eq_none_iff] at hg
        rw [hg] at hqd
        simp at hqd
        omega
      | some x => exact hrows x (List.mem_of_getLast?_eq_some hg)
    simp only [load_next, List.length_append, List.length_take, List.length_drop, hrow]
    omega

/-- An entry at queue position `j` is at position `j + k` after `k` further calls,
as long as that position exists. -/
theorem entry_travels (mem_w L : Nat) (hL : 1 ≤ L) (hL31 : L ≤ 2 ^ 31) :
    ∀ (rs : List LoadReq) (st : LoadPort) (j : Nat) (d : List Byte) (v e : Bool),
      st.WellFormed L (mem_w / 8) → (∀ r ∈ rs, r.InBounds mem_w) → j + rs.length < L →
      st.queue_data[j]? = some d → st.queue_valid[j]? = some v → st.queue_err[j]? = some e →
      ∃ s, run_load mem_w L st rs = some s ∧ s.WellFormed L (mem_w / 8) ∧
        s.queue_data[j + rs.length]? = some d ∧ s.queue_valid[j + rs.length]? = some v ∧
        s.queue_err[j + rs.length]? = some e := by
  intro rs
  induction rs with
  | nil => intro st j d v e hwf _ _ hd hv he; exact ⟨st, rfl, hwf, hd, hv, he⟩
  | cons r rs ih =>
    intro st j d v e hwf hsafe hlen hd hv he
    have hstep := update_mem_load_eq r.address r.req_valid mem_w L r.mem_size st r.mem hL hL31
      hwf (hsafe r (List.mem_cons_self _ _))
    have hwf1 := load_next_wellFormed r.address r.req_valid mem_w r.mem_size L st r.mem hL hwf
    simp only [List.length_cons] at hlen
    obtain ⟨s, hrun, hwfs, hsd, hsv, hse⟩ := ih
      (load_next r.address r.req_valid mem_w r.mem_size st r.mem) (j + 1) d v e hwf1
      (fun x hx => hsafe x (List.mem_cons_of_mem _ hx)) (by omega)
      (by
        show (_ :: st.queue_data.dropLast)[j + 1]? = some d
        rw [dropLast_cons_getElem? _ _ _ (by rw [hwf.1]; omega), hd])
      (by
        show (_ :: st.queue_valid.dropLast)[j + 1]? = some v
        rw [dropLast_cons_getElem? _ _ _ (by rw [hwf.2.2.1]; omega), hv])
      (by
        show (_ :: st.queue_err.dropLast)[j + 1]? = some e
        rw [dropLast_cons_getElem? _ _ _ (by rw [hwf.2.2.2.1]; omega), he])
    refine ⟨s, ?_, hwfs, ?_, ?_, ?_⟩
    · simp only [run_load, hstep, hrun]
    · rw [List.length_cons, ← hsd]; congr 1; omega
    · rw [List.length_cons, ← hsv]; congr 1; omega
    · rw [List.length_cons, ← hse]; congr 1; omega

theorem run_load_append (mem_w L : Nat) :
    ∀ (rs : List LoadReq) (st s : LoadPort) (r : LoadReq), run_load mem_w L st rs = some s →
      run_load mem_w L st (rs ++ [r])
        = update_mem_load r.address r.req_valid mem_w L r.mem_size s r.mem := by
  intro rs
  induction rs with
  | nil =>
    intro st s r h
    simp only [run_load, Option.some.injEq] at h
    subst h
    simp only [List.nil_append, run_load]
    cases update_mem_load r.address r.req_valid mem_w L r.mem_size st r.mem <;> rfl
  | cons x rs ih =>
    intro st s r h
    simp only [run_load, List.cons_append] at h ⊢
    cases hx : update_mem_load x.address x.req_valid mem_w L x.mem_size st x.mem with
    | none => rw [hx] at h; cases h
    | some st1 => rw [hx] at h; exact ih st1 s r h

/-- The entry issued by one call is delivered by the call that comes `L` calls
later, whatever the requests and stores of the calls in between. -/
theorem entry_delivered (mem_w L : Nat) (hL : 1 ≤ L) (hL31 : L ≤ 2 ^ 31)
    (st : LoadPort) (first : LoadReq) (further : List LoadReq) (final : LoadReq)
    (hwf : st.WellFormed L (mem_w / 8)) (hfirst : first.InBounds mem_w)
    (hfurther : ∀ r ∈ further, r.InBounds mem_w) (hfinal : final.InBounds mem_w)
    (hlen : further.length = L - 1) :
    (∀ j, j < L → ∃ s, run_load mem_w L st (first :: further.take j) = some s ∧
      s.queue_data[j]? = some (new_entry first.address first.req_valid mem_w first.mem_size
        first.mem) ∧
      s.queue_valid[j]? = some first.req_valid ∧
      s.queue_err[j]? = some (!(decide (first.address < first.mem_size) && first.req_valid))) ∧
    ∃ s, run_load mem_w L st (first :: further ++ [final]) = some s ∧
      s.model_data_i.take (mem_w / 8)
        = new_entry first.address first.req_valid mem_w first.mem_size first.mem ∧
      s.model_valid_i = first.req_valid ∧
      s.model_err_i = !(decide (first.address < first.mem_size) && first.req_valid) := by
  have hstep := update_mem_load_eq first.address first.req_valid mem_w L first.mem_size st
    first.mem hL hL31 hwf hfirst
  have hwf1 := load_next_wellFormed first.address first.req_valid mem_w first.mem_size L st
    first.mem hL hwf
  have htravel : ∀ j, j < L → ∃ s, run_load mem_w L st (first :: further.take j) = some s ∧
      s.WellFormed L (mem_w / 8) ∧
      s.queue_data[j]? = some (new_entry first.address first.req_valid mem_w first.mem_size
        first.mem) ∧
      s.queue_valid[j]? = some first.req_valid ∧
      s.queue_err[j]? = some (!(decide (first.address < first.mem_size) && first.req_valid)) := by
    intro j hj
    have hlj : (further.take j).length = j := by rw [List.length_take]; omega
    obtain ⟨s, hrun, hwfs, hd, hv, he⟩ := entry_travels mem_w L hL hL31 (further.take j)
      (load_next first.address first.req_valid mem_w first.mem_size st first.mem) 0
      (new_entry first.address first.req_valid mem_w first.mem_size first.mem)
      first.req_valid (!(decide (first.address < first.mem_size) && first.req_valid)) hwf1
      (fun r hr => hfurther r (List.mem_of_mem_take hr)) (by omega)
      (by simp [load_next]) (by simp [load_next]) (by simp [load_next])
    rw [hlj, Nat.zero_add] at hd hv he
    exact ⟨s, by simp only [run_load, hstep, hrun], hwfs, hd, hv, he⟩
  constructor
  · intro j hj
    obtain ⟨s, hrun, _, hd, hv, he⟩ := htravel j hj
    exact ⟨s, hrun, hd, hv, he⟩
  · obtain ⟨s, hrun, hwfs, hd, hv, he⟩ := htravel (L - 1) (by omega)
    rw [List.take_of_length_le (by omega)] at hrun
    have hlast := update_mem_load_eq final.address final.req_valid mem_w L final.mem_size s
      final.mem hL hL31 hwfs hfinal
    refine ⟨load_next final.address final.req_valid mem_w final.mem_size s final.mem, ?_, ?_, ?_, ?_⟩
    · rw [run_load_append mem_w L _ st s final hrun, hlast]
    · have hrowlen : (new_entry first.address first.req_valid mem_w first.mem_size
          first.mem).length = mem_w / 8 := hwfs.2.1 _ (List.getElem?_mem hd)
      have hg := getLast?_getD_eq s.queue_data []
        (new_entry first.address first.req_valid mem_w first.mem_size first.mem)
        (by rw [hwfs.1]; exact hd)
      simp only [load_next, hg]
      rw [List.take_append_of_le_length (by rw [List.length_take]; omega),
        List.take_take, Nat.min_self, List.take_of_length_le (by omega)]
    · exact getLast?_getD_eq s.queue_valid false _ (by rw [hwfs.2.2.1]; exact hv)
    · exact getLast?_getD_eq s.queue_err false _ (by rw [hwfs.2.2.2.1]; exact he)

/-! ## The write loop -/

theorem and_shift_ne_zero_iff (x k : Nat) : x &&& (1 <<< k) ≠ 0 ↔ x.testBit k = true := by
  rw [Nat.one_shiftLeft, Nat.and_two_pow]
  cases x.testBit k <;> simp

theorem u32_add_inj (a i j : Nat) (hi : i < 2 ^ 32) (hj : j < 2 ^ 32)
    (h : u32 (a + i) = u32 (a + j)) : i = j := by
  unfold u32 at h
  omega

/-- Pointwise description of the store after the write loop. -/
theorem write_loop_spec (address n : Nat) (d be mem : List Byte) (hn : n ≤ 2 ^ 32)
    (hbe : n ≤ 8 * be.length)
    (hen : ∀ i, i < n → be_bit be i = true → i < d.length ∧ u32 (address + i) < mem.length) :
    ∃ m, forUp (write_body address d be) n 0 mem = some m ∧ m.length = mem.length ∧
      (∀ i, i < n → be_bit be i = true → m[u32 (address + i)]? = d[i]?) ∧
      (∀ p, (∀ i, i < n → be_bit be i = true → u32 (address + i) ≠ p) → m[p]? = mem[p]?) := by
  have h := forUp_inv (write_body address d be) n
    (fun k m => m.length = mem.length ∧
      (∀ i, i < k → be_bit be i = true → m[u32 (address + i)]? = d[i]?) ∧
      (∀ p, (∀ i, i < k → be_bit be i = true → u32 (address + i) ≠ p) → m[p]? = mem[p]?))
    0 mem
    ⟨rfl, fun i hi => absurd hi (Nat.not_lt_zero i), fun _ _ => rfl⟩
    (by
      intro k m hk hP
      obtain ⟨hlen, hset, hframe⟩ := hP
      have hbk : k / 8 < be.length := by omega
      have hbe1 : be[k / 8]? = some be[k / 8] := List.getElem?_eq_getElem hbk
      have hbit : be_bit be k = be[k / 8].val.testBit (k % 8) := by
        unfold be_bit
        rw [List.getD_eq_getElem?_getD, hbe1]; rfl
      rw [Nat.zero_add]
      by_cases hb : be_bit be k = true
      · obtain ⟨hkd, hkm⟩ := hen k hk hb
        have hcond : be[k / 8].val &&& (1 <<< (k % 8)) ≠ 0 :=
          (and_shift_ne_zero_iff _ _).mpr (hbit ▸ hb)
        have hd1 : d[k]? = some d[k] := List.getElem?_eq_getElem hkd
        refine ⟨m.set (u32 (address + k)) d[k], ?_, ?_, ?_, ?_⟩
        · simp only [write_body, hbe1, hd1, wr, hlen, hkm, if_true]
          rw [if_pos hcond]
        · simp [hlen]
        · intro i hi hbi
          rw [List.getElem?_set]
          by_cases hik : i = k
          · subst hik
            simp [hlen, hkm, hd1]
          · have hne : ¬ (u32 (address + k) = u32 (address + i)) := fun heq =>
              hik (u32_add_inj address k i (by omega) (by omega) heq).symm
            rw [if_neg hne]
            exact hset i (by omega) hbi
        · intro p hp
          rw [List.getElem?_set]
          have hne : ¬ (u32 (address + k) = p) := hp k (by omega) hb
          rw [if_neg hne]
          exact hframe p (fun i hi hbi => hp i (by omega) hbi)
      · have hcond : ¬ (be[k / 8].val &&& (1 <<< (k % 8)) ≠ 0) := fun hc =>
          hb (hbit ▸ (and_shift_ne_zero_iff _ _).mp hc)
        refine ⟨m, ?_, hlen, ?_, ?_⟩
        · simp only [write_body, hbe1]
          rw [if_neg hcond]
        · intro i hi hbi
          have hik : i ≠ k := fun heq => hb (heq ▸ hbi)
          exact hset i (by omega) hbi
        · intro p hp
          apply hframe p
          intro i hi hbi
          exact hp i (by omega) hbi)
  exact h

/-! ## Properties of the memory model -/

theorem u32_of_lt (x : Nat) (h : x < 2 ^ 32) : u32 x = x := Nat.mod_eq_of_lt h

theorem u32_le (x : Nat) : u32 x ≤ x := Nat.mod_le x _

theorem fetched_eq_take (address n : Nat) (mem : List Byte) (hin : address + n ≤ mem.length)
    (h32 : address + n ≤ 2 ^ 32) : fetched address n mem = (mem.drop address).take n := by
  apply List.ext_getElem?
  intro k
  rw [List.getElem?_take, List.getElem?_drop]
  by_cases hk : k < n
  · rw [fetched_getElem? address n mem k hk, if_pos hk, u32_of_lt _ (by omega),
      List.getD_eq_getElem?_getD, List.getElem?_eq_getElem (by omega)]
    rfl
  · rw [if_neg hk]
    exact List.getElem?_eq_none (by rw [fetched_length]; omega)

theorem inBounds_of_le (address : Nat) (req_valid : Bool) (mem_w mem_size : Nat)
    (mem : List Byte) (hin : address + mem_w / 8 ≤ mem.length) :
    ReadInBounds address req_valid mem_w mem_size mem := by
  intro _ _ i hi
  have := u32_le (address + i)
  omega

/-- C1: for a latency `L ≥ 1` (within the range of the `int` loop counter), queues of `L`
entries of `mem_w/8` bytes, and a call of `update_mem_load` with `req_valid = true`,
`address < mem_size` and the addressed bytes inside the store (at 32-bit addresses): after `j < L` further
calls the response sits at queue position `j`, and after `L-1` further calls with any
requests and stores the next call returns with exactly the bytes the store held at
`address .. address+mem_w/8-1` at the issuing call on the data output, `valid = true`
and `error = false`. -/
theorem read_response_after_latency (mem_w L : Nat) (hL : 1 ≤ L) (hL31 : L ≤ 2 ^ 31)
    (st : LoadPort) (hwf : st.WellFormed L (mem_w / 8))
    (address mem_size : Nat) (mem : List Byte)
    (hacc : address < mem_size) (hin : address + mem_w / 8 ≤ mem.length)
    (h32 : address + mem_w / 8 ≤ 2 ^ 32)
    (further : List LoadReq) (final : LoadReq) (hlen : further.length = L - 1)
    (hfurther : ∀ r ∈ further, r.InBounds mem_w) (hfinal : final.InBounds mem_w) :
    (∀ j, j < L → ∃ s, run_load mem_w L st
        ({ address := address, req_valid := true, mem_size := mem_size, mem := mem }
          :: further.take j) = some s ∧
      s.queue_data[j]? = some ((mem.drop address).take (mem_w / 8)) ∧
      s.queue_valid[j]? = some true ∧ s.queue_err[j]? = some false) ∧
    ∃ s, run_load mem_w L st
        ({ address := address, req_valid := true, mem_size := mem_size, mem := mem }
          :: further ++ [final]) = some s ∧
      s.model_data_i.take (mem_w / 8) = (mem.drop address).take (mem_w / 8) ∧
      s.model_valid_i = true ∧ s.model_err_i = false := by
  have h := entry_delivered mem_w L hL hL31 st
    { address := address, req_valid := true, mem_size := mem_size, mem := mem } further final
    hwf (inBounds_of_le address true mem_w mem_size mem hin) hfurther hfinal hlen
  have hentry : new_entry address true mem_w mem_size mem
      = (mem.drop address).take (mem_w / 8) := by
    unfold new_entry
    rw [if_pos (by simp [hacc])]
    exact fetched_eq_take address (mem_w / 8) mem hin h32
  have hflag : (!(decide (address < mem_size) && true)) = false := by simp [hacc]
  simp only [hentry, hflag] at h
  exact h

theorem read_response_after_latency_witness :
    ∃ s, run_load 16 2
        { model_data_i := [0, 0], model_valid_i := false, model_err_i := false, queue_data := [[0, 0], [0, 0]], queue_valid := [false, false], queue_err := [false, false] }
        ({ address := 1, req_valid := true, mem_size := 4, mem := [10, 11, 12, 13] }
          :: [{ address := 0, req_valid := false, mem_size := 0, mem := [] }]
          ++ [{ address := 9, req_valid := true, mem_size := 4, mem := [1] }]) = some s ∧
      s.model_data_i.take (16 / 8) = (List.drop 1 [10, 11, 12, 13]).take (16 / 8) ∧
      s.model_valid_i = true ∧ s.model_err_i = false :=
  (read_response_after_latency 16 2 (by decide) (by decide)
    { model_data_i := [0, 0], model_valid_i := false, model_err_i := false, queue_data := [[0, 0], [0, 0]], queue_valid := [false, false], queue_err := [false, false] }
    (by decide) 1 4 [10, 11, 12, 13] (by decide) (by decide) (by decide)
    [{ address := 0, req_valid := false, mem_size := 0, mem := [] }]
    { address := 9, req_valid := true, mem_size := 4, mem := [1] }
    rfl (by decide) (by decide)).2

/-- C2: for a latency `L ≥ 1` and a call of `update_mem_load` whose request is not
accepted (`req_valid = false`, or `address ≥ mem_size`), the `L`-th later call returns
with `error = true` and `valid` equal to the `req_valid` of the issuing call. -/
theorem unaccepted_request_flags (mem_w L : Nat) (hL : 1 ≤ L) (hL31 : L ≤ 2 ^ 31)
    (st : LoadPort) (hwf : st.WellFormed L (mem_w / 8))
    (address : Nat) (req_valid : Bool) (mem_size : Nat) (mem : List Byte)
    (hrej : req_valid = false ∨ mem_size ≤ address)
    (further : List LoadReq) (final : LoadReq) (hlen : further.length = L - 1)
    (hfurther : ∀ r ∈ further, r.InBounds mem_w) (hfinal : final.InBounds mem_w) :
    ∃ s, run_load mem_w L st
        ({ address := address, req_valid := req_valid, mem_size := mem_size, mem := mem }
          :: further ++ [final]) = some s ∧
      s.model_err_i = true ∧ s.model_valid_i = req_valid := by
  have hfirst : LoadReq.InBounds mem_w
      { address := address, req_valid := req_valid, mem_size := mem_size, mem := mem } := by
    intro h1 h2
    rcases hrej with h | h
    · rw [h] at h2; cases h2
    · exact absurd h1 (by simpa using h)
  obtain ⟨_, s, hrun, _, hv, he⟩ := entry_delivered mem_w L hL hL31 st
    { address := address, req_valid := req_valid, mem_size := mem_size, mem := mem }
    further final hwf hfirst hfurther hfinal hlen
  refine ⟨s, hrun, ?_, hv⟩
  rw [he]
  rcases hrej with h | h
  · simp [h]
  · have : ¬ address < mem_size := by omega
    simp [this]

theorem unaccepted_request_flags_witness :
    ∃ s, run_load 16 2
        { model_data_i := [0, 0], model_valid_i := false, model_err_i := false, queue_data := [[0, 0], [0, 0]], queue_valid := [false, false], queue_err := [false, false] }
        ({ address := 7, req_valid := true, mem_size := 4, mem := [10, 11, 12, 13] }
          :: [{ address := 0, req_valid := false, mem_size := 0, mem := [] }]
          ++ [{ address := 1, req_valid := true, mem_size := 4, mem := [1, 2, 3] }]) = some s ∧
      s.model_err_i = true ∧ s.model_valid_i = true :=
  unaccepted_request_flags 16 2 (by decide) (by decide)
    { model_data_i := [0, 0], model_valid_i := false, model_err_i := false, queue_data := [[0, 0], [0, 0]], queue_valid := [false, false], queue_err := [false, false] }
    (by decide) 7 true 4 [10, 11, 12, 13] (by decide)
    [{ address := 0, req_valid := false, mem_size := 0, mem := [] }]
    { address := 1, req_valid := true, mem_size := 4, mem := [1, 2, 3] }
    rfl (by decide) (by decide)

/-- C3: round trip of `update_mem_write` and `update_mem_load`. A write to `address`
with data `d` and byte enables `be`, followed (with the store not written again) by a read
of `address` with `req_valid = true`, is answered `L` calls after the read with
`valid = true`, `error = false` and data byte `i` equal to `d[i]` where enable bit `i`
is set and to the old store byte `s[address+i]` where it is clear. -/
theorem write_read_round_trip (mem_w L : Nat) (hL : 1 ≤ L) (hL31 : L ≤ 2 ^ 31)
    (st : LoadPort) (hwf : st.WellFormed L (mem_w / 8))
    (address mem_size wr_mem_size : Nat) (s d be : List Byte)
    (hacc : address < mem_size) (hin : address + mem_w / 8 ≤ s.length)
    (h32 : address + mem_w / 8 ≤ 2 ^ 32)
    (hd : mem_w / 8 ≤ d.length) (hbe : mem_w / 8 ≤ 8 * be.length)
    (further : List LoadReq) (final : LoadReq) (hlen : further.length = L - 1)
    (hfurther : ∀ r ∈ further, r.InBounds mem_w) (hfinal : final.InBounds mem_w) :
    ∃ s1, update_mem_write address true mem_w wr_mem_size d be s = some s1 ∧
      ∃ p, run_load mem_w L st
          ({ address := address, req_valid := true, mem_size := mem_size, mem := s1 }
            :: further ++ [final]) = some p ∧
        p.model_valid_i = true ∧ p.model_err_i = false ∧
        ∀ i, i < mem_w / 8 →
          p.model_data_i[i]? = if be_bit be i = true then d[i]? else s[address + i]? := by
  have hu : ∀ i, i < mem_w / 8 → u32 (address + i) = address + i := fun i hi =>
    u32_of_lt _ (by omega)
  obtain ⟨s1, hrun1, hlen1, hset, hframe⟩ := write_loop_spec address (mem_w / 8) d be s
    (by omega) hbe (fun i hi _ => ⟨by omega, by rw [hu i hi]; omega⟩)
  refine ⟨s1, by simp only [update_mem_write, if_true, hrun1], ?_⟩
  obtain ⟨_, p, hrun, hdata, hv, he⟩ := entry_delivered mem_w L hL hL31 st
    { address := address, req_valid := true, mem_size := mem_size, mem := s1 } further final
    hwf (inBounds_of_le address true mem_w mem_size s1 (by omega)) hfurther hfinal hlen
  refine ⟨p, hrun, hv, by simp [he, hacc], ?_⟩
  intro i hi
  have hentry : new_entry address true mem_w mem_size s1 = fetched address (mem_w / 8) s1 := by
    unfold new_entry
    rw [if_pos (by simp [hacc])]
  have h1 : p.model_data_i[i]? = (p.model_data_i.take (mem_w / 8))[i]? := by
    rw [List.getElem?_take, if_pos hi]
  have hget : s1[address + i]? = some (s1.getD (address + i) 0) := by
    rw [List.getD_eq_getElem?_getD, List.getElem?_eq_getElem (by omega)]
    rfl
  rw [h1, hdata, hentry, fetched_getElem? address _ s1 i hi, hu i hi, ← hget]
  by_cases hb : be_bit be i = true
  · rw [if_pos hb, ← hu i hi]
    exact hset i hi hb
  · rw [if_neg hb]
    apply hframe
    intro k hk hbk heq
    rw [hu k hk] at heq
    have : k = i := by omega
    exact hb (this ▸ hbk)

theorem write_read_round_trip_witness :
    ∃ s1, update_mem_write 1 true 16 0 [7, 8] [2] [10, 11, 12, 13] = some s1 ∧
      ∃ p, run_load 16 2
          { model_data_i := [0, 0], model_valid_i := false, model_err_i := false, queue_data := [[0, 0], [0, 0]], queue_valid := [false, false], queue_err := [false, false] }
          ({ address := 1, req_valid := true, mem_size := 4, mem := s1 }
            :: [{ address := 0, req_valid := false, mem_size := 0, mem := [] }]
            ++ [{ address := 9, req_valid := true, mem_size := 4, mem := [1] }]) = some p ∧
        p.model_valid_i = true ∧ p.model_err_i = false ∧
        ∀ i, i < 16 / 8 →
          p.model_data_i[i]? = if be_bit [2] i = true then [7, 8][i]?
            else [10, 11, 12, 13][1 + i]? :=
  write_read_round_trip 16 2 (by decide) (by decide)
    { model_data_i := [0, 0], model_valid_i := false, model_err_i := false, queue_data := [[0, 0], [0, 0]], queue_valid := [false, false], queue_err := [false, false] }
    (by decide) 1 4 0 [10, 11, 12, 13] [7, 8] [2] (by decide) (by decide) (by decide)
    (by decide) (by decide)
    [{ address := 0, req_valid := false, mem_size := 0, mem := [] }]
    { address := 9, req_valid := true, mem_size := 4, mem := [1] }
    rfl (by decide) (by decide)

/-- C4: postcondition of `update_mem_write` with `req_valid = true`. For every address,
width, data, byte-enable mask and value of `mem_size`, provided the bytes the call
touches exist, the call returns and every byte index `i < mem_w/8` whose enable bit is
set has `mem[address+i] = model_data_o[i]` afterwards (the index `address+i` as the
code computes it, in `uint32_t`; it is the plain sum when `address + mem_w/8 ≤ 2^32`).
The result is the same for every value of `mem_size`. -/
theorem write_postcondition (address mem_w mem_size : Nat) (d be mem : List Byte)
    (hw : mem_w < 2 ^ 32) (hbe : mem_w / 8 ≤ 8 * be.length)
    (hen : ∀ i, i < mem_w / 8 → be_bit be i = true →
      i < d.length ∧ u32 (address + i) < mem.length) :
    ∃ m, update_mem_write address true mem_w mem_size d be mem = some m ∧
      (∀ i, i < mem_w / 8 → be_bit be i = true → m[u32 (address + i)]? = d[i]?) ∧
      (address + mem_w / 8 ≤ 2 ^ 32 →
        ∀ i, i < mem_w / 8 → be_bit be i = true → m[address + i]? = d[i]?) ∧
      ∀ mem_size1, update_mem_write address true mem_w mem_size1 d be mem = some m := by
  obtain ⟨m, hrun, _, hset, _⟩ := write_loop_spec address (mem_w / 8) d be mem
    (by omega) hbe hen
  refine ⟨m, by simp only [update_mem_write, if_true, hrun], hset, ?_, ?_⟩
  · intro h32 i hi hb
    rw [← u32_of_lt (address + i) (by omega)]
    exact hset i hi hb
  · intro mem_size1
    simp only [update_mem_write, if_true, hrun]

theorem write_postcondition_witness :
    ∃ m, update_mem_write 5 true 16 2 [7, 8] [3] [10, 11, 12, 13, 14, 15, 16] = some m ∧
      (∀ i, i < 16 / 8 → be_bit [3] i = true → m[u32 (5 + i)]? = [7, 8][i]?) ∧
      (5 + 16 / 8 ≤ 2 ^ 32 →
        ∀ i, i < 16 / 8 → be_bit [3] i = true → m[5 + i]? = [7, 8][i]?) ∧
      ∀ mem_size1, update_mem_write 5 true 16 mem_size1 [7, 8] [3]
        [10, 11, 12, 13, 14, 15, 16] = some m :=
  write_postcondition 5 16 2 [7, 8] [3] [10, 11, 12, 13, 14, 15, 16] (by decide) (by decide)
    (by decide)

/-! ## Memory-mapped I/O detection -/

theorem capture_loop_eq (n : Nat) (data out : List Byte) (hd : n ≤ data.length)
    (ho : n ≤ out.length) :
    forUp (capture_body data) n 0 out = some (data.take n ++ out.drop n) := by
  apply fill_buf _ n data out ho hd
  intro k v _ hv
  simp [capture_body, hv]

/-- C5: `check_memmapio` returns `true` exactly when `req_valid` is true and
`address == memmap_address`, for every address, width, write data and target address
(the call returns whenever the buffers hold the `mem_w/8` bytes a hit copies). The
function has no backing-store argument or result. -/
theorem memmapio_hit_iff (address : Nat) (req_valid : Bool) (mem_w : Nat)
    (model_data_o : List Byte) (memmap_address : Nat) (data_out : List Byte)
    (hbuf : req_valid = true → address = memmap_address →
      mem_w / 8 ≤ model_data_o.length ∧ mem_w / 8 ≤ data_out.length) :
    ∃ r, check_memmapio address req_valid mem_w model_data_o memmap_address data_out = some r ∧
      (r.1 = true ↔ (req_valid = true ∧ address = memmap_address)) := by
  unfold check_memmapio
  by_cases hv : req_valid = true
  · by_cases ha : address = memmap_address
    · obtain ⟨hd, ho⟩ := hbuf hv ha
      rw [if_pos hv, if_pos ha, capture_loop_eq _ _ _ hd ho]
      exact ⟨_, rfl, by simp [hv, ha]⟩
    · rw [if_pos hv, if_neg ha]
      exact ⟨_, rfl, by simp [ha]⟩
  · rw [if_neg hv]
    exact ⟨_, rfl, by simp [hv]⟩

theorem memmapio_hit_iff_witness :
    ∃ r, check_memmapio 8 true 16 [7, 8] 8 [0, 0, 0] = some r ∧
      (r.1 = true ↔ (true = true ∧ 8 = 8)) :=
  memmapio_hit_iff 8 true 16 [7, 8] 8 [0, 0, 0] (by decide)

/-! ## Hexadecimal formatting -/

theorem digits_of_zero (w : Nat) :
    (List.range w).map (fun k => Nat.digitChar (0 / 16 ^ k % 16)) = List.replicate w '0' := by
  apply List.ext_getElem?
  intro j
  by_cases hj : j < w
  · simp [List.getElem?_map, List.getElem?_range hj, List.getElem?_replicate, hj]
    rfl
  · rw [List.getElem?_eq_none (by simp; omega), List.getElem?_eq_none (by simp; omega)]

theorem range_succ_map_digits (w v : Nat) :
    (List.range (w + 1)).map (fun k => Nat.digitChar (v / 16 ^ k % 16))
      = Nat.digitChar (v % 16)
        :: (List.range w).map (fun k => Nat.digitChar (v / 16 / 16 ^ k % 16)) := by
  rw [List.range_succ_eq_map, List.map_cons, List.map_map]
  congr 1
  · simp
  · apply List.map_congr_left
    intro k _
    simp only [Function.comp, Nat.pow_succ, Nat.div_div_eq_div_mul]
    rw [Nat.mul_comm]

theorem hex_digits_rev_pad (w : Nat) :
    ∀ g v, w ≤ g → v < 16 ^ (w + 1) →
      hex_digits_rev (g + 1) v
          ++ List.replicate (w + 1 - (hex_digits_rev (g + 1) v).length) '0'
        = (List.range (w + 1)).map (fun k => Nat.digitChar (v / 16 ^ k % 16)) := by
  induction w with
  | zero =>
    intro g v _ hv
    have h0 : v / 16 = 0 := by omega
    simp [hex_digits_rev, h0, List.range_succ]
  | succ w ih =>
    intro g v hg hv
    rw [range_succ_map_digits]
    by_cases h0 : v / 16 = 0
    · simp only [hex_digits_rev, h0, if_true, List.length_singleton, List.cons_append,
        List.nil_append]
      rw [digits_of_zero]
      congr 2
    · obtain ⟨g1, rfl⟩ : ∃ g1, g = g1 + 1 := ⟨g - 1, by omega⟩
      have hv1 : v / 16 < 16 ^ (w + 1) := by
        rw [Nat.div_lt_iff_lt_mul (by decide)]
        rw [Nat.pow_succ] at hv
        exact hv
      have := ih g1 (v / 16) (by omega) hv1
      rw [← this]
      have hunf : hex_digits_rev (g1 + 1 + 1) v
          = Nat.digitChar (v % 16) :: hex_digits_rev (g1 + 1) (v / 16) := by
        show Nat.digitChar (v % 16)
          :: (if v / 16 = 0 then [] else hex_digits_rev (g1 + 1) (v / 16)) = _
        rw [if_neg h0]
      rw [hunf, List.length_cons, List.cons_append, Nat.add_sub_add_right]

/-- For a value that fits `w` hexadecimal digits, `1 ≤ w ≤ 8`, the conversion
`%0<w>x` prints exactly its `w` digits. -/
theorem fmt_x_eq_hex_digits (w v : Nat) (hw : 1 ≤ w) (hw8 : w ≤ 8) (hv : v < 16 ^ w) :
    fmt_x w v = hex_digits w v := by
  have h32 : v % 2 ^ 32 = v := by
    apply Nat.mod_eq_of_lt
    calc v < 16 ^ w := hv
      _ ≤ 16 ^ 8 := Nat.pow_le_pow_right (by decide) hw8
      _ = 2 ^ 32 := by norm_num
  obtain ⟨w1, rfl⟩ : ∃ w1, w = w1 + 1 := ⟨w - 1, by omega⟩
  have h := hex_digits_rev_pad w1 7 v (by omega) hv
  unfold fmt_x hex_digits
  simp only [h32, List.length_reverse]
  rw [List.map_reverse, ← h, List.reverse_append, List.reverse_replicate]

theorem hex_digits_length (n v : Nat) : (hex_digits n v).length = n := by
  simp [hex_digits]

/-! ## Instruction trace -/

theorem update_stats_pc_pair (g : Stats) (top : Top) :
    (update_stats g top).current_WB_PC = (update_stats g top).last_WB_PC := by
  have h : ∀ g1 : Stats, (update_instructions g1 top).current_WB_PC
      = (update_instructions g1 top).last_WB_PC := fun _ => rfl
  unfold update_stats update_vector_count
  split
  · exact h _
  · exact h _

/-- After `update_stats` the trace emitter finds the writeback PC pair equal, so
inside the window it appends the instruction word line and nothing else. -/
theorem trace_text_after_stats (g : Stats) (top : Top) (begin_cycles end_cycles : Nat)
    (hin : in_trace_window begin_cycles end_cycles (update_stats g top)) :
    update_inst_trace (update_stats g top) top true begin_cycles end_cycles
      = fmt_x 8 top.instruction_wb ++ ['\n'] := by
  unfold in_trace_window at hin
  unfold update_inst_trace
  rw [if_pos rfl, if_pos hin, if_neg (not_not.mpr (update_stats_pc_pair g top))]
  rfl

/-- C6 (the code at the failing input): two cycles inside the trace window (the
whole run, `end_cycles = 0`) whose writeback PCs are `0x100` and then `0x104`, run
in the prescribed order `update_stats`, `update_inst_trace`. The trace holds the two
instruction-word lines and no `NEW PC` line, although the PC changed twice. -/
theorem new_pc_line_missing :
    (List.foldl (trace_cycle 0 0) ({}, [])
        [{ instruction_wb_pc := 0x100, instruction_wb := 0x13 },
         { instruction_wb_pc := 0x104, instruction_wb := 0x93 }]).2
      = "00000013\n00000093\n".toList := by
  decide

/-- C7: with the per-cycle order `update_stats` (which runs `update_instructions`)
then `update_inst_trace`, two consecutive cycles inside the trace window with the same
writeback PC append exactly two lines, each the 8 hexadecimal digits of that cycle's
instruction word followed by a newline, and no `NEW PC` line between them. -/
theorem same_pc_no_new_pc_line (begin_cycles end_cycles : Nat) (g : Stats) (log : List Char)
    (top1 top2 : Top) (hpc : top1.instruction_wb_pc = top2.instruction_wb_pc)
    (hw1 : top1.instruction_wb < 2 ^ 32) (hw2 : top2.instruction_wb < 2 ^ 32)
    (hin1 : in_trace_window begin_cycles end_cycles (update_stats g top1))
    (hin2 : in_trace_window begin_cycles end_cycles
      (update_stats (update_stats g top1) top2)) :
    (trace_cycle begin_cycles end_cycles
        (trace_cycle begin_cycles end_cycles (g, log) top1) top2).2
      = log ++ (hex_digits 8 top1.instruction_wb ++ ['\n'])
          ++ (hex_digits 8 top2.instruction_wb ++ ['\n']) ∧
    (hex_digits 8 top1.instruction_wb).length = 8 ∧
    (hex_digits 8 top2.instruction_wb).length = 8 := by
  refine ⟨?_, hex_digits_length _ _, hex_digits_length _ _⟩
  simp only [trace_cycle]
  rw [trace_text_after_stats g top1 _ _ hin1, trace_text_after_stats _ top2 _ _ hin2,
    fmt_x_eq_hex_digits 8 _ (by decide) (by decide) (by simpa using hw1),
    fmt_x_eq_hex_digits 8 _ (by decide) (by decide) (by simpa using hw2)]

theorem same_pc_no_new_pc_line_witness :
    (trace_cycle 0 0 (trace_cycle 0 0 ({}, [])
        { instruction_wb_pc := 0x100, instruction_wb := 0x13 })
        { instruction_wb_pc := 0x100, instruction_wb := 0x93 }).2
      = [] ++ (hex_digits 8 0x13 ++ ['\n']) ++ (hex_digits 8 0x93 ++ ['\n']) ∧
    (hex_digits 8 0x13).length = 8 ∧ (hex_digits 8 0x93).length = 8 :=
  same_pc_no_new_pc_line 0 0 {} []
    { instruction_wb_pc := 0x100, instruction_wb := 0x13 }
    { instruction_wb_pc := 0x100, instruction_wb := 0x93 }
    rfl (by decide) (by decide) (by decide) (by decide)

/-! ## Vector register commit log -/

theorem mask_test_iff (mask i : Nat) (hi : i < 32) :
    (mask % 2 ^ 32) &&& ((1 <<< i) % 2 ^ 32) ≠ 0 ↔ mask.testBit i = true := by
  have hpow : (1 <<< i) % 2 ^ 32 = 1 <<< i := by
    rw [Nat.one_shiftLeft]
    exact Nat.mod_eq_of_lt (Nat.pow_lt_pow_right (by decide) hi)
  rw [hpow, and_shift_ne_zero_iff, Nat.testBit_mod_two_pow]
  simp [hi]

theorem byte_fmt (b : Byte) : fmt_x 2 b.val = hex_digits 2 b.val :=
  fmt_x_eq_hex_digits 2 b.val (by decide) (by decide) (by have := b.isLt; omega)

theorem vreg_byte_body_eq (mask : Nat) (data : List Byte) (k : Nat) (out : List Char)
    (hk : 0 < k) (hk32 : k ≤ 32) (hkd : k ≤ data.length) :
    vreg_byte_body mask data k out = some (out ++ vreg_group mask data (k - 1)) := by
  have hi : k - 1 < 32 := by omega
  have hd : data[k - 1]? = some data[k - 1] := List.getElem?_eq_getElem (by omega)
  have hgd : data.getD (k - 1) 0 = data[k - 1] := by
    rw [List.getD_eq_getElem?_getD, hd]; rfl
  unfold vreg_byte_body vreg_group
  simp only []
  rw [if_neg (by omega)]
  by_cases hb : mask.testBit (k - 1) = true
  · rw [if_pos ((mask_test_iff mask (k - 1) hi).mpr hb), hd, if_pos hb, hgd]
    simp only [byte_fmt]
  · rw [if_neg (fun h => hb ((mask_test_iff mask (k - 1) hi).mp h)), if_neg hb]

theorem vreg_loop_eq (mask : Nat) (data : List Byte) (n : Nat) (header : List Char)
    (hn : n ≤ 32) (hd : n ≤ data.length) :
    forDown (vreg_byte_body mask data) n header
      = some (header ++ (List.range n).flatMap (fun k => vreg_group mask data (n - 1 - k))) := by
  obtain ⟨out, hrun, hP⟩ := forDown_inv (vreg_byte_body mask data)
    (fun k out => out = header
      ++ (List.range (n - k)).flatMap (fun j => vreg_group mask data (n - 1 - j))) n header
    (by simp)
    (by
      intro k out hk hkn hP
      refine ⟨out ++ vreg_group mask data (k - 1),
        vreg_byte_body_eq mask data k out hk (by omega) (by omega), ?_⟩
      have hsucc : n - (k - 1) = (n - k) + 1 := by omega
      have hidx : n - 1 - (n - k) = k - 1 := by omega
      show out ++ vreg_group mask data (k - 1) = header
        ++ (List.range (n - (k - 1))).flatMap (fun j => vreg_group mask data (n - 1 - j))
      rw [hsucc, List.range_succ, List.flatMap_append, hP]
      simp [List.flatMap, hidx])
  rw [hrun, hP, Nat.sub_zero]

theorem vreg_trip_count (vreg_w : Nat) :
    (Int.tdiv (vreg_w : Int) 8 - 1 + 1).toNat = vreg_w / 8 := by
  have h : Int.tdiv (vreg_w : Int) 8 = ((vreg_w / 8 : Nat) : Int) :=
    (Int.ofNat_tdiv vreg_w 8).symm
  rw [h]
  omega

/-- C8: format of the vector commit line. With the write enable asserted, a register
width with `vreg_w/8 ≤ 32` and write data of at least `vreg_w/8` bytes,
`update_vreg_commit` appends exactly `v<decimal index> 0x`, then `vreg_w/8`
two-character groups, most significant byte first (group `k` is byte `vreg_w/8-1-k` as
two lowercase hex digits if its mask bit is set and `XX` otherwise), then a newline.
For width 128 and mask `0x00FF` these are 8 `XX` groups followed by the hex groups of
bytes 7 down to 0. With the write enable not asserted nothing is appended. -/
theorem vreg_commit_line (top : Top) (vreg_w : Nat) :
    (top.vregfile_wr_en_q = true → vreg_w / 8 ≤ 32 →
      vreg_w / 8 ≤ top.vregfile_wr_data_q.length →
      update_vreg_commit true top vreg_w
        = some (vreg_line top.vregfile_wr_addr_q top.vregfile_wr_mask_q
            top.vregfile_wr_data_q (vreg_w / 8))) ∧
    (top.vregfile_wr_en_q = true → top.vregfile_wr_mask_q = 0x00FF →
      16 ≤ top.vregfile_wr_data_q.length →
      update_vreg_commit true top 128
        = some ('v' :: Nat.toDigits 10 top.vregfile_wr_addr_q ++ " 0x".toList
            ++ (List.replicate 8 ['X', 'X']).flatten
            ++ (List.range 8).flatMap
                (fun k => hex_digits 2 (top.vregfile_wr_data_q.getD (7 - k) 0).val)
            ++ ['\n'])) ∧
    (top.vregfile_wr_en_q = false → ∀ flag, update_vreg_commit flag top vreg_w = some []) := by
  have hgen : ∀ w : Nat, top.vregfile_wr_en_q = true → w / 8 ≤ 32 →
      w / 8 ≤ top.vregfile_wr_data_q.length →
      update_vreg_commit true top w
        = some (vreg_line top.vregfile_wr_addr_q top.vregfile_wr_mask_q
            top.vregfile_wr_data_q (w / 8)) := by
    intro w hen hn hd
    unfold update_vreg_commit vreg_line fmt_d
    rw [if_pos (by simp [hen]), vreg_trip_count, vreg_loop_eq _ _ _ _ hn hd]
  refine ⟨hgen vreg_w, ?_, ?_⟩
  · intro hen hmask hd
    have h := hgen 128 hen (by decide) (by simpa using hd)
    have hcast : ((128 : Nat) : Int) = 128 := rfl
    rw [hcast] at h
    have hg : ∀ i, vreg_group 0x00FF top.vregfile_wr_data_q i
        = if i < 8 then hex_digits 2 (top.vregfile_wr_data_q.getD i 0).val else ['X', 'X'] := by
      intro i
      have ht : Nat.testBit 255 i = decide (i < 8) := Nat.testBit_two_pow_sub_one 8 i
      unfold vreg_group
      rw [ht]
      simp
    rw [h, hmask]
    simp [vreg_line, hg, List.range_succ, List.flatMap, List.replicate]
  · intro hen flag
    unfold update_vreg_commit
    rw [if_neg (by simp [hen])]

theorem vreg_commit_line_witness :
    ((({ vregfile_wr_en_q := true, vregfile_wr_addr_q := 12, vregfile_wr_mask_q := 0x00FF,
          vregfile_wr_data_q := [1, 2, 3, 4, 5, 6, 7, 8, 9, 10, 11, 12, 13, 14, 15, 16] }
        : Top).vregfile_wr_en_q = true) ∧ 128 / 8 ≤ 32) ∧
    update_vreg_commit true
        { vregfile_wr_en_q := true, vregfile_wr_addr_q := 12, vregfile_wr_mask_q := 0x00FF,
          vregfile_wr_data_q := [1, 2, 3, 4, 5, 6, 7, 8, 9, 10, 11, 12, 13, 14, 15, 16] }
        ((128 : Nat) : Int)
      = some (vreg_line 12 0x00FF [1, 2, 3, 4, 5, 6, 7, 8, 9, 10, 11, 12, 13, 14, 15, 16]
          (128 / 8)) ∧
    vreg_line 12 0x00FF [1, 2, 3, 4, 5, 6, 7, 8, 9, 10, 11, 12, 13, 14, 15, 16] (128 / 8)
      = "v12 0xXXXXXXXXXXXXXXXX0807060504030201\n".toList :=
  ⟨⟨rfl, by decide⟩,
    (vreg_commit_line
      { vregfile_wr_en_q := true, vregfile_wr_addr_q := 12, vregfile_wr_mask_q := 0x00FF,
        vregfile_wr_data_q := [1, 2, 3, 4, 5, 6, 7, 8, 9, 10, 11, 12, 13, 14, 15, 16] }
      128).1 rfl (by decide) (by decide),
    by decide⟩

/-! ## Memory dump -/

theorem toInt32_of_lt (a : Nat) (h : a < 2 ^ 31) : toInt32 a = (a : Int) := by
  unfold toInt32
  have h1 : a % 2 ^ 32 = a := Nat.mod_eq_of_lt (by omega)
  rw [h1, if_pos h]

theorem ofInt32_toInt32 (a : Nat) : ofInt32 (toInt32 a) = a % 2 ^ 32 := by
  unfold ofInt32 toInt32
  split <;> omega

theorem ofInt32_natCast_add (a b : Nat) : ofInt32 ((a : Int) + (b : Int)) = (a + b) % 2 ^ 32 := by
  unfold ofInt32
  omega

theorem rd_int_natCast {α : Type} (p : List α) (a b : Nat) :
    rd_int p ((a : Int) + (b : Int)) = p[a + b]? := by
  unfold rd_int
  rw [if_pos (by omega)]
  congr 1

theorem word_or_eq_add (b0 b1 b2 b3 : Nat) (h0 : b0 < 256) (h1 : b1 < 256) (h2 : b2 < 256) :
    b0 ||| (b1 <<< 8) ||| (b2 <<< 16) ||| (b3 <<< 24)
      = b0 + 2 ^ 8 * b1 + 2 ^ 16 * b2 + 2 ^ 24 * b3 := by
  simp only [Nat.shiftLeft_eq]
  have e1 : b0 ||| b1 * 2 ^ 8 = 2 ^ 8 * b1 + b0 := by
    rw [Nat.lor_comm, Nat.mul_comm, ← Nat.mul_add_lt_is_or (by omega)]
  have e2 : 2 ^ 8 * b1 + b0 ||| b2 * 2 ^ 16 = 2 ^ 16 * b2 + (2 ^ 8 * b1 + b0) := by
    rw [Nat.lor_comm, Nat.mul_comm, ← Nat.mul_add_lt_is_or (by omega)]
  have e3 : 2 ^ 16 * b2 + (2 ^ 8 * b1 + b0) ||| b3 * 2 ^ 24
      = 2 ^ 24 * b3 + (2 ^ 16 * b2 + (2 ^ 8 * b1 + b0)) := by
    rw [Nat.lor_comm, Nat.mul_comm, ← Nat.mul_add_lt_is_or (by omega)]
  rw [e1, e2, e3]
  omega

theorem word_at_lt (mem : List Byte) (a : Nat) : word_at mem a < 2 ^ 32 := by
  unfold word_at
  have h0 := (mem.getD a 0).isLt
  have h1 := (mem.getD (a + 1) 0).isLt
  have h2 := (mem.getD (a + 2) 0).isLt
  have h3 := (mem.getD (a + 3) 0).isLt
  omega

theorem range_succ_flatMap {β : Type} (r : Nat) (f : Nat → List β) :
    (List.range (r + 1)).flatMap f = f 0 ++ (List.range r).flatMap (fun k => f (k + 1)) := by
  rw [List.range_succ_eq_map, List.flatMap_cons, List.flatMap_map]

/-- The dump loop started at address `a` with `r` words left to print. -/
theorem dump_loop_eq (end_addr : Nat) (mem : List Byte) :
    ∀ (r a fuel : Nat) (out : List Char), r ≤ fuel → a < 2 ^ 32 →
      r = (end_addr - a + 3) / 4 → (0 < r → a + 4 * r ≤ mem.length ∧ a + 4 * r ≤ 2 ^ 31) →
      dump_loop fuel (toInt32 a) end_addr mem out
        = some (out ++ (List.range r).flatMap
            (fun k => hex_digits 8 (word_at mem (a + 4 * k)) ++ ['\n'])) := by
  intro r
  induction r with
  | zero =>
    intro a fuel out _ ha hr _
    have hcond : ¬ ofInt32 (toInt32 a) < end_addr := by
      rw [ofInt32_toInt32, Nat.mod_eq_of_lt ha]; omega
    cases fuel with
    | zero => simp [dump_loop, hcond]
    | succ f => simp [dump_loop, hcond]
  | succ r ih =>
    intro a fuel out hfuel ha hr hfit
    obtain ⟨hlen, h31⟩ := hfit (Nat.succ_pos r)
    obtain ⟨f, rfl⟩ : ∃ f, fuel = f + 1 := ⟨fuel - 1, by omega⟩
    have ha31 : a < 2 ^ 31 := by omega
    have hcond : ofInt32 (toInt32 a) < end_addr := by
      rw [ofInt32_toInt32, Nat.mod_eq_of_lt ha]; omega
    have hget : ∀ j, j < 4 → mem[a + j]? = some (mem.getD (a + j) 0) := by
      intro j hj
      rw [List.getD_eq_getElem?_getD, List.getElem?_eq_getElem (by omega)]
      rfl
    have hr0 : rd_int mem (toInt32 a) = some (mem.getD a 0) := by
      have h0 := rd_int_natCast mem a 0
      rw [toInt32_of_lt a ha31]
      simp only [Nat.cast_zero, Int.add_zero, Nat.add_zero] at h0
      rw [h0]
      exact hget 0 (by omega)
    have hr1 : rd_int mem (toInt32 a + 1) = some (mem.getD (a + 1) 0) := by
      rw [toInt32_of_lt a ha31]
      exact (rd_int_natCast mem a 1).trans (hget 1 (by omega))
    have hr2 : rd_int mem (toInt32 a + 2) = some (mem.getD (a + 2) 0) := by
      rw [toInt32_of_lt a ha31]
      exact (rd_int_natCast mem a 2).trans (hget 2 (by omega))
    have hr3 : rd_int mem (toInt32 a + 3) = some (mem.getD (a + 3) 0) := by
      rw [toInt32_of_lt a ha31]
      exact (rd_int_natCast mem a 3).trans (hget 3 (by omega))
    have hnext : toInt32 (ofInt32 (toInt32 a + 4)) = toInt32 (a + 4) := by
      rw [toInt32_of_lt a ha31]
      have := ofInt32_natCast_add a 4
      simp only [Nat.cast_ofNat] at this
      rw [this]
      unfold toInt32
      simp only [Nat.mod_mod]
    have hword : (mem.getD a 0).val ||| ((mem.getD (a + 1) 0).val <<< 8)
        ||| ((mem.getD (a + 2) 0).val <<< 16) ||| ((mem.getD (a + 3) 0).val <<< 24)
        = word_at mem a :=
      word_or_eq_add _ _ _ _ (mem.getD a 0).isLt (mem.getD (a + 1) 0).isLt
        (mem.getD (a + 2) 0).isLt
    have hstep := ih (a + 4) f
      (out ++ (hex_digits 8 (word_at mem a) ++ ['\n'])) (by omega) (by omega) (by omega)
      (fun _ => ⟨by omega, by omega⟩)
    rw [dump_loop, if_pos hcond, hr0, hr1, hr2, hr3]
    simp only []
    rw [hnext, hword, fmt_x_eq_hex_digits 8 _ (by decide) (by decide)
      (by have := word_at_lt mem a; omega), hstep, range_succ_flatMap, List.append_assoc]
    congr 3
    apply List.flatMap_congr
    intro k _
    congr 3
    omega

/-- C10: format of the memory dump. With the dump file open and the words to print
inside the store (and below the `int` range of the loop counter), `dump_mem_region`
writes exactly one line for each address `start_addr, start_addr+4, ...` strictly below
`end_addr`, that is `ceil((end_addr - start_addr)/4)` lines and none when
`start_addr ≥ end_addr`; the line for address `a` is the 8 lowercase hex digits of
`mem[a] + 2^8*mem[a+1] + 2^16*mem[a+2] + 2^24*mem[a+3]` followed by a newline. -/
theorem dump_format (start_addr end_addr : Nat) (mem : List Byte)
    (hstart : start_addr < 2 ^ 32)
    (hfit : start_addr < end_addr →
      start_addr + 4 * ((end_addr - start_addr + 3) / 4) ≤ mem.length ∧
      start_addr + 4 * ((end_addr - start_addr + 3) / 4) ≤ 2 ^ 31) :
    dump_mem_region start_addr end_addr mem true
      = some ((List.range ((end_addr - start_addr + 3) / 4)).flatMap
          (fun k => hex_digits 8 (word_at mem (start_addr + 4 * k)) ++ ['\n'])) := by
  unfold dump_mem_region
  rw [if_pos rfl]
  by_cases hlt : start_addr < end_addr
  · obtain ⟨hlen, h31⟩ := hfit hlt
    have h := dump_loop_eq end_addr mem ((end_addr - start_addr + 3) / 4) start_addr
      (mem.length + 1) [] (by omega) hstart rfl (fun _ => ⟨hlen, h31⟩)
    rw [h, List.nil_append]
  · have h := dump_loop_eq end_addr mem ((end_addr - start_addr + 3) / 4) start_addr
      (mem.length + 1) [] (by omega) hstart rfl (fun h0 => by omega)
    rw [h, List.nil_append]

theorem dump_format_witness :
    dump_mem_region 1 6 [1, 2, 3, 4, 5, 6, 7, 255, 9] true
        = some ((List.range ((6 - 1 + 3) / 4)).flatMap
            (fun k => hex_digits 8 (word_at [1, 2, 3, 4, 5, 6, 7, 255, 9] (1 + 4 * k))
              ++ ['\n'])) ∧
      (List.range ((6 - 1 + 3) / 4)).flatMap
          (fun k => hex_digits 8 (word_at [1, 2, 3, 4, 5, 6, 7, 255, 9] (1 + 4 * k)) ++ ['\n'])
        = "05040302\n09ff0706\n".toList :=
  ⟨dump_format 1 6 [1, 2, 3, 4, 5, 6, 7, 255, 9] (by decide) (by decide), by decide⟩

/-! ## Program image loader: parsing one token -/

theorem hex_char_ne (c d : Char) (hc : (hex_val c).isSome = true) (hd : hex_val d = none) :
    c ≠ d := by
  intro h
  subst h
  rw [hd] at hc
  cases hc

theorem hex_char_not_space (c : Char) (hc : (hex_val c).isSome = true) : isspace c = false := by
  cases hs : isspace c with
  | false => rfl
  | true =>
    exfalso
    simp only [isspace, Bool.or_eq_true, decide_eq_true_eq] at hs
    rcases hs with ((((h | h) | h) | h) | h) | h <;>
      exact hex_char_ne c _ hc (by decide) h

theorem is_hex_token_iff (tok : List Char) :
    is_hex_token tok = true ↔ tok ≠ [] ∧ ∀ c ∈ tok, (hex_val c).isSome = true := by
  cases tok <;> simp [is_hex_token]

theorem scan_hex_token (rest : List Char) (hrest : ∀ c, rest.head? = some c → hex_val c = none) :
    ∀ (tok : List Char) (acc : Nat) (any : Bool),
      (∀ c ∈ tok, (hex_val c).isSome = true) →
      scan_hex (tok ++ rest) acc any
        = (tok.foldl (fun a c => 16 * a + (hex_val c).getD 0) acc, any || !tok.isEmpty, rest) := by
  intro tok
  induction tok with
  | nil =>
    intro acc any _
    cases rest with
    | nil => simp [scan_hex]
    | cons c t =>
      have := hrest c rfl
      simp [scan_hex, this]
  | cons c t ih =>
    intro acc any hall
    have hc : (hex_val c).isSome = true := hall c (List.mem_cons_self _ _)
    obtain ⟨d, hd⟩ := Option.isSome_iff_exists.mp hc
    have := ih (16 * acc + d) true (fun x hx => hall x (List.mem_cons_of_mem _ hx))
    simp [scan_hex, hd, this]

theorem dropWhile_replicate_append {p : Char → Bool} (c : Char) (hc : p c = true) (k : Nat)
    (s : List Char) (hs : ∀ d, s.head? = some d → p d = false) :
    (List.replicate k c ++ s).dropWhile p = s := by
  induction k with
  | zero =>
    cases s with
    | nil => rfl
    | cons d t => simp [List.dropWhile, hs d rfl]
  | succ k ih => simp [List.replicate_succ, List.dropWhile, hc, ih]

/-- `strtol` on spaces, a hex token and a rest that starts with a separator: the
value of the token, and `end` at the rest. -/
theorem strtol16_token (k : Nat) (tok rest : List Char) (htok : is_hex_token tok = true)
    (hval : hex_value tok < 2 ^ 63) (hrest : Sep rest) :
    strtol16 (List.replicate k ' ' ++ (tok ++ rest)) = ((hex_value tok : Int), rest) := by
  obtain ⟨hne, hall⟩ := (is_hex_token_iff tok).mp htok
  obtain ⟨c, t, rfl⟩ := List.exists_cons_of_ne_nil hne
  have hc : (hex_val c).isSome = true := hall c (List.mem_cons_self _ _)
  have hstop : ∀ d, rest.head? = some d → hex_val d = none := by
    intro d hd
    rcases hrest with h | h | h <;> rw [h] at hd <;> cases hd <;> decide
  have hdrop : (List.replicate k ' ' ++ (c :: t ++ rest)).dropWhile isspace = c :: t ++ rest :=
    dropWhile_replicate_append ' ' (by decide) k _ (by
      intro d hd
      simp only [List.cons_append, List.head?_cons, Option.some.injEq] at hd
      subst hd
      exact hex_char_not_space _ hc)
  have hminus : c ≠ '-' := hex_char_ne c _ hc (by decide)
  have hplus : c ≠ '+' := hex_char_ne c _ hc (by decide)
  have hx : ¬ ((c :: t ++ rest)[1]? = some 'x' ∨ (c :: t ++ rest)[1]? = some 'X') := by
    cases t with
    | nil =>
      simp only [List.cons_append, List.nil_append, List.getElem?_cons_succ]
      have h0 : rest[0]? = rest.head? := by cases rest <;> simp
      rw [h0]
      rcases hrest with h | h | h <;> rw [h] <;> decide
    | cons c2 t2 =>
      have hc2 : (hex_val c2).isSome = true :=
        hall c2 (List.mem_cons_of_mem _ (List.mem_cons_self _ _))
      simp only [List.cons_append, List.getElem?_cons_succ, List.getElem?_cons_zero,
        Option.some.injEq]
      intro h
      rcases h with h | h
      · exact hex_char_ne c2 _ hc2 (by decide) h
      · exact hex_char_ne c2 _ hc2 (by decide) h
  have hscan := scan_hex_token rest hstop (c :: t) 0 false hall
  unfold strtol16
  simp only [hdrop]
  have hhead : (c :: t ++ rest).head? = some c := rfl
  simp only [hhead, Option.some.injEq, hminus, hplus, or_self, if_false]
  rw [if_neg (fun h => hx h.2.1), hscan]
  simp only [List.isEmpty_cons, Bool.not_false, Bool.or_true, decide_False, if_false]
  have hv : hex_value (c :: t) = List.foldl (fun a c => 16 * a + (hex_val c).getD 0) 0 (c :: t) :=
    rfl
  rw [← hv]
  congr 1
  omega

/-! ## Program image loader: storing one word -/

theorem store_byte_eq (d : Nat) (hd : d < 2 ^ 32) (j : Nat) (hj : j < 4) :
    (Fin.ofNat (((toInt32 (ofInt32 (d : Int))) >>> (8 * j)) % 256).toNat : Byte)
      = word_byte d j := by
  have h1 : ofInt32 (d : Int) = d := by unfold ofInt32; omega
  unfold word_byte
  congr 1
  rw [h1, Int.shiftRight_eq_div_pow]
  unfold toInt32
  have hj4 : j = 0 ∨ j = 1 ∨ j = 2 ∨ j = 3 := by omega
  rcases hj4 with h | h | h | h <;> subst h <;> split <;> simp <;> omega

theorem store_loop_eq (a d : Nat) (mem : List Byte) (hd : d < 2 ^ 32)
    (ha : a + 4 ≤ mem.length) :
    forUp (store_body (a : Int) (toInt32 (ofInt32 (d : Int)))) 4 0 mem
      = some (put_word mem a d) := by
  have hwr : ∀ (m : List Byte) (j : Nat), j < 4 → m.length = mem.length →
      store_body (a : Int) (toInt32 (ofInt32 (d : Int))) j m
        = some (m.set (a + j) (word_byte d j)) := by
    intro m j hj hm
    unfold store_body wr_int wr
    rw [store_byte_eq d hd j hj, if_pos (by omega)]
    have : ((a : Int) + (j : Int)).toNat = a + j := by omega
    rw [this, if_pos (by omega)]
  unfold put_word
  simp only [forUp]
  rw [hwr mem 0 (by omega) rfl]
  simp only [Nat.add_zero]
  rw [hwr _ 1 (by omega) (by simp)]
  simp only []
  rw [hwr _ 2 (by omega) (by simp)]
  simp only []
  rw [hwr _ 3 (by omega) (by simp)]

theorem put_word_length (mem : List Byte) (a d : Nat) :
    (put_word mem a d).length = mem.length := by
  simp [put_word]

theorem store_words_length (ds : List Nat) :
    ∀ (mem : List Byte) (a : Nat), (store_words mem a ds).length = mem.length := by
  induction ds with
  | nil => intro mem a; rfl
  | cons d ds ih => intro mem a; rw [store_words, ih, put_word_length]

theorem store_words_append (ds1 ds2 : List Nat) :
    ∀ (mem : List Byte) (a : Nat),
      store_words mem a (ds1 ++ ds2)
        = store_words (store_words mem a ds1) (a + 4 * ds1.length) ds2 := by
  induction ds1 with
  | nil => intro mem a; rfl
  | cons d ds ih =>
    intro mem a
    show store_words (put_word mem a d) (a + 4) (ds ++ ds2)
      = store_words (store_words (put_word mem a d) (a + 4) ds) (a + 4 * (ds.length + 1)) ds2
    rw [ih]
    congr 1
    omega

/-! ## Program image loader: the tokens of one line -/

theorem items_ok_cons (it : List Char × Nat) (rest : List (List Char × Nat))
    (h : items_ok (it :: rest) = true) :
    is_hex_token it.1 = true ∧ hex_value it.1 < 2 ^ 32 ∧ (rest ≠ [] → 1 ≤ it.2) ∧
      items_ok rest = true := by
  cases rest with
  | nil =>
    simp only [items_ok, Bool.and_eq_true, decide_eq_true_eq] at h
    exact ⟨h.1, h.2, fun hne => absurd rfl hne, rfl⟩
  | cons it2 rest =>
    simp only [items_ok, Bool.and_eq_true, decide_eq_true_eq] at h
    exact ⟨h.1.1.1, h.1.1.2, fun _ => h.1.2, h.2⟩

theorem render_toks_cons (it : List Char × Nat) (rest : List (List Char × Nat)) :
    render_toks (it :: rest) = it.1 ++ (List.replicate it.2 ' ' ++ render_toks rest) := by
  simp [render_toks]

theorem hex_token_head (tok : List Char) (htok : is_hex_token tok = true) :
    ∃ c t, tok = c :: t ∧ (hex_val c).isSome = true := by
  obtain ⟨hne, hall⟩ := (is_hex_token_iff tok).mp htok
  obtain ⟨c, t, rfl⟩ := List.exists_cons_of_ne_nil hne
  exact ⟨c, t, rfl, hall c (List.mem_cons_self _ _)⟩

/-- What follows the tokens of a line starts with a hex digit or is the end of the
line: it does not start with a space. -/
theorem render_head_not_space (items : List (List Char × Nat)) (term : List Char)
    (hok : items_ok items = true) (hterm : term = [] ∨ term = ['\n']) :
    ∀ d, (render_toks items ++ term).head? = some d → decide (d = ' ') = false := by
  intro d hd
  cases items with
  | nil =>
    rcases hterm with h | h <;> subst h <;> simp [render_toks] at hd
    subst hd
    decide
  | cons it rest =>
    obtain ⟨htok, _, _, _⟩ := items_ok_cons it rest hok
    obtain ⟨c, t, hct, hc⟩ := hex_token_head it.1 htok
    rw [render_toks_cons, hct] at hd
    simp only [List.cons_append, List.head?_cons, Option.some.injEq] at hd
    subst hd
    exact decide_eq_false (hex_char_ne _ _ hc (by decide))

theorem sep_after_token (k : Nat) (rest : List (List Char × Nat)) (term : List Char)
    (hk : rest ≠ [] → 1 ≤ k) (hterm : term = [] ∨ term = ['\n']) :
    Sep (List.replicate k ' ' ++ (render_toks rest ++ term)) := by
  cases k with
  | succ k => right; left; simp [List.replicate_succ]
  | zero =>
    have hrest : rest = [] := by
      by_contra hne
      have := hk hne
      omega
    subst hrest
    rcases hterm with h | h <;> subst h
    · left; rfl
    · right; right; rfl

theorem toInt32_next (a : Nat) (h31 : a + 4 ≤ 2 ^ 31) :
    toInt32 (ofInt32 (toInt32 a + 4)) = toInt32 (a + 4) := by
  rw [toInt32_of_lt a (by omega)]
  have := ofInt32_natCast_add a 4
  simp only [Nat.cast_ofNat] at this
  rw [this]
  unfold toInt32
  simp only [Nat.mod_mod]

/-- One iteration of the token loop on spaces, a hex token and a rest that starts
with a separator: the word is stored and the loop goes on behind the spaces that
follow the token. -/
theorem token_loop_step (fuel k0 : Nat) (tok rest : List Char) (a : Nat) (mem : List Byte)
    (htok : is_hex_token tok = true) (hval : hex_value tok < 2 ^ 32) (hrest : Sep rest)
    (ha : a + 4 ≤ mem.length) (h31 : a + 4 ≤ 2 ^ 31) :
    token_loop (fuel + 1) (List.replicate k0 ' ' ++ (tok ++ rest)) (toInt32 a) mem
      = token_loop fuel (rest.dropWhile (· = ' ')) (toInt32 (a + 4))
          (put_word mem a (hex_value tok)) := by
  obtain ⟨c, t, hct, hc⟩ := hex_token_head tok htok
  have hhead : ∃ d, (List.replicate k0 ' ' ++ (tok ++ rest)).head? = some d ∧ d ≠ '\n'
      ∧ d ≠ '\x00' := by
    cases k0 with
    | zero =>
      exact ⟨c, by simp [hct], hex_char_ne _ _ hc (by decide), hex_char_ne _ _ hc (by decide)⟩
    | succ k => exact ⟨' ', by simp [List.replicate_succ], by decide, by decide⟩
  obtain ⟨d, hd, hd1, hd2⟩ := hhead
  have hcond : ¬ ((List.replicate k0 ' ' ++ (tok ++ rest)).head? = none
      ∨ (List.replicate k0 ' ' ++ (tok ++ rest)).head? = some '\n'
      ∨ (List.replicate k0 ' ' ++ (tok ++ rest)).head? = some '\x00') := by
    rw [hd]
    simp [hd1, hd2]
  have hstr := strtol16_token k0 tok rest htok (by omega) hrest
  have hofInt : ofInt32 ((hex_value tok : Nat) : Int) = hex_value tok := by
    unfold ofInt32; omega
  rw [token_loop, if_neg hcond]
  simp only [hstr]
  rw [toInt32_of_lt a (by omega), store_loop_eq a (hex_value tok) mem hval ha]
  simp only []
  rw [← toInt32_of_lt a (by omega), toInt32_next a h31]

/-- The token loop on the tokens of a line, from the first character of the first
token to the end of the line. -/
theorem token_loop_items (term : List Char) (hterm : term = [] ∨ term = ['\n']) :
    ∀ (items : List (List Char × Nat)) (a fuel : Nat) (mem : List Byte),
      items_ok items = true → items.length < fuel →
      a + 4 * items.length ≤ mem.length → a + 4 * items.length ≤ 2 ^ 31 →
      token_loop fuel (render_toks items ++ term) (toInt32 a) mem
        = some (toInt32 (a + 4 * items.length),
            store_words mem a (items.map fun it => hex_value it.1)) := by
  intro items
  induction items with
  | nil =>
    intro a fuel mem _ hfuel _ _
    obtain ⟨f, rfl⟩ : ∃ f, fuel = f + 1 := ⟨fuel - 1, by simp at hfuel; omega⟩
    have hcond : (render_toks [] ++ term).head? = none
        ∨ (render_toks [] ++ term).head? = some '\n'
        ∨ (render_toks [] ++ term).head? = some '\x00' := by
      rcases hterm with h | h <;> subst h <;> simp [render_toks]
    rw [token_loop, if_pos hcond]
    rfl
  | cons it rest ih =>
    intro a fuel mem hok hfuel hlen h31
    obtain ⟨htok, hval, hk, hokrest⟩ := items_ok_cons it rest hok
    simp only [List.length_cons] at hfuel hlen h31
    obtain ⟨f, rfl⟩ : ∃ f, fuel = f + 1 := ⟨fuel - 1, by omega⟩
    have hptr : render_toks (it :: rest) ++ term
        = List.replicate 0 ' ' ++ (it.1 ++ (List.replicate it.2 ' ' ++ (render_toks rest ++ term))) := by
      rw [render_toks_cons]
      simp
    rw [hptr, token_loop_step f 0 it.1 _ a mem htok hval (sep_after_token it.2 rest term hk hterm)
      (by omega) (by omega),
      dropWhile_replicate_append ' ' (by decide) it.2 _
        (render_head_not_space rest term hokrest hterm),
      ih (a + 4) f (put_word mem a (hex_value it.1)) hokrest (by omega)
        (by rw [put_word_length]; omega) (by omega)]
    simp only [List.map_cons, store_words, List.length_cons]
    congr 3
    omega

/-! ## Program image loader: one line -/

theorem items_length_le (items : List (List Char × Nat)) (hok : items_ok items = true) :
    items.length ≤ (render_toks items).length := by
  induction items with
  | nil => simp
  | cons it rest ih =>
    obtain ⟨htok, _, _, hokrest⟩ := items_ok_cons it rest hok
    obtain ⟨c, t, hct, _⟩ := hex_token_head it.1 htok
    have := ih hokrest
    rw [render_toks_cons, hct]
    simp only [List.length_cons, List.length_append, List.length_replicate]
    omega

theorem values_length (l : TokLine) : l.values.length = l.items.length := by
  simp [TokLine.values]

/-- The loader on a line of tokens in the line buffer, the newline included or not. -/
theorem load_line_data (l : TokLine) (term : List Char) (hterm : term = [] ∨ term = ['\n'])
    (hok : items_ok l.items = true) (hlead : l.items = [] → l.lead = 0)
    (a : Nat) (mem : List Byte) (hfit : a + 4 * l.items.length ≤ mem.length)
    (h31 : a + 4 * l.items.length ≤ 2 ^ 31) :
    load_line (l.render ++ term) (toInt32 a) mem
      = some (toInt32 (a + 4 * l.items.length), store_words mem a l.values) := by
  obtain ⟨lead, items⟩ := l
  simp only [TokLine.render, TokLine.values] at *
  cases items with
  | nil =>
    have h0 := hlead rfl
    subst h0
    have hbuf : List.replicate 0 ' ' ++ render_toks [] ++ term = render_toks [] ++ term := by
      simp
    have hnot : ¬ ((render_toks [] ++ term).head? = some '#'
        ∨ (render_toks [] ++ term).head? = some '/') := by
      rcases hterm with h | h <;> subst h <;> simp [render_toks]
    have hnat : ¬ ((render_toks [] ++ term).head? = some '@') := by
      rcases hterm with h | h <;> subst h <;> simp [render_toks]
    rw [hbuf, load_line, if_neg hnot, if_neg hnat]
    exact token_loop_items term hterm [] a _ mem rfl (by simp) hfit h31
  | cons it rest =>
    obtain ⟨htok, hval, hk, hokrest⟩ := items_ok_cons it rest hok
    obtain ⟨c, t, hct, hc⟩ := hex_token_head it.1 htok
    simp only [List.length_cons] at hfit h31
    have hbuf : List.replicate lead ' ' ++ render_toks (it :: rest) ++ term
        = List.replicate lead ' '
          ++ (it.1 ++ (List.replicate it.2 ' ' ++ (render_toks rest ++ term))) := by
      rw [render_toks_cons]
      simp
    have hhead : ∃ d, (List.replicate lead ' '
          ++ (it.1 ++ (List.replicate it.2 ' ' ++ (render_toks rest ++ term)))).head? = some d
        ∧ d ≠ '#' ∧ d ≠ '/' ∧ d ≠ '@' := by
      cases lead with
      | zero =>
        exact ⟨c, by simp [hct], hex_char_ne _ _ hc (by decide), hex_char_ne _ _ hc (by decide),
          hex_char_ne _ _ hc (by decide)⟩
      | succ k =>
        exact ⟨' ', by simp [List.replicate_succ], by decide, by decide, by decide⟩
    obtain ⟨d, hd, hd1, hd2, hd3⟩ := hhead
    have hlenbuf : rest.length < (List.replicate lead ' '
        ++ (it.1 ++ (List.replicate it.2 ' ' ++ (render_toks rest ++ term)))).length := by
      have := items_length_le rest hokrest
      rw [hct]
      simp only [List.length_append, List.length_cons, List.length_replicate]
      omega
    rw [hbuf, load_line, hd, if_neg (by simp [hd1, hd2]), if_neg (by simp [hd3]),
      token_loop_step _ lead it.1 _ a mem htok hval (sep_after_token it.2 rest term hk hterm)
        (by omega) (by omega),
      dropWhile_replicate_append ' ' (by decide) it.2 _
        (render_head_not_space rest term hokrest hterm),
      token_loop_items term hterm rest (a + 4) _ (put_word mem a (hex_value it.1)) hokrest
        hlenbuf (by rw [put_word_length]; omega) (by omega)]
    simp only [List.map_cons, store_words, List.length_cons]
    congr 3
    omega

/-- The loader on the address line `@A`, with tokens after the address allowed. -/
theorem load_line_address (A : List Char) (l : TokLine) (hA : is_hex_token A = true)
    (hok : items_ok l.items = true) (hlead : l.items ≠ [] → 1 ≤ l.lead)
    (addr : Int) (mem : List Byte)
    (hfit : 4 * hex_value A + 4 * l.items.length ≤ mem.length)
    (h31 : 4 * hex_value A + 4 * l.items.length ≤ 2 ^ 31) :
    load_line ('@' :: A ++ l.render ++ ['\n']) addr mem
      = some (toInt32 (4 * hex_value A + 4 * l.items.length),
          store_words mem (4 * hex_value A) l.values) := by
  obtain ⟨lead, items⟩ := l
  simp only [TokLine.render, TokLine.values] at *
  have htail : ('@' :: A ++ (List.replicate lead ' ' ++ render_toks items) ++ ['\n']).tail
      = List.replicate 0 ' '
        ++ (A ++ (List.replicate lead ' ' ++ (render_toks items ++ ['\n']))) := by
    simp
  have hstr := strtol16_token 0 A (List.replicate lead ' ' ++ (render_toks items ++ ['\n'])) hA
    (by omega) (sep_after_token lead items ['\n'] hlead (Or.inr rfl))
  have haddr : toInt32 (ofInt32 (((hex_value A : Nat) : Int) * 4)) = toInt32 (4 * hex_value A) := by
    have : ofInt32 (((hex_value A : Nat) : Int) * 4) = (4 * hex_value A) % 2 ^ 32 := by
      unfold ofInt32; omega
    rw [this]
    unfold toInt32
    simp only [Nat.mod_mod]
  have hlenbuf : items.length
      < ('@' :: A ++ (List.replicate lead ' ' ++ render_toks items) ++ ['\n']).length + 1 := by
    have := items_length_le items hok
    simp only [List.length_append, List.length_cons, List.length_replicate]
    omega
  rw [load_line, if_neg (by simp), if_pos (by simp), htail, hstr]
  simp only []
  rw [haddr, dropWhile_replicate_append ' ' (by decide) lead _
      (render_head_not_space items ['\n'] hok (Or.inr rfl)),
    token_loop_items ['\n'] (Or.inr rfl) items (4 * hex_value A) _ mem hok hlenbuf hfit h31]

/-! ## Program image loader: splitting the file into lines -/

theorem fgets_take_line (rest : List Char) :
    ∀ (line : List Char) (n : Nat), (∀ c ∈ line, c ≠ '\n') → line.length < n →
      fgets_take n (line ++ '\n' :: rest) = (line ++ ['\n'], rest) := by
  intro line
  induction line with
  | nil =>
    intro n _ hn
    obtain ⟨m, rfl⟩ : ∃ m, n = m + 1 := ⟨n - 1, by simp at hn; omega⟩
    simp [fgets_take]
  | cons c t ih =>
    intro n hnl hn
    obtain ⟨m, rfl⟩ : ∃ m, n = m + 1 := ⟨n - 1, by simp at hn; omega⟩
    have hc : c ≠ '\n' := hnl c (List.mem_cons_self _ _)
    have := ih m (fun x hx => hnl x (List.mem_cons_of_mem _ hx))
      (by simp only [List.length_cons] at hn; omega)
    simp [fgets_take, hc, this]

theorem fgets_take_last :
    ∀ (line : List Char) (n : Nat), (∀ c ∈ line, c ≠ '\n') → line.length ≤ n →
      fgets_take n line = (line, []) := by
  intro line
  induction line with
  | nil => intro n _ _; cases n <;> rfl
  | cons c t ih =>
    intro n hnl hn
    obtain ⟨m, rfl⟩ : ∃ m, n = m + 1 := ⟨n - 1, by simp at hn; omega⟩
    have hc : c ≠ '\n' := hnl c (List.mem_cons_self _ _)
    have := ih m (fun x hx => hnl x (List.mem_cons_of_mem _ hx))
      (by simp only [List.length_cons] at hn; omega)
    simp [fgets_take, hc, this]

theorem token_no_newline (tok : List Char) (htok : is_hex_token tok = true) :
    ∀ c ∈ tok, c ≠ '\n' := by
  intro c hc
  exact hex_char_ne c _ (((is_hex_token_iff tok).mp htok).2 c hc) (by decide)

theorem render_toks_no_newline (items : List (List Char × Nat))
    (hok : items_ok items = true) : ∀ c ∈ render_toks items, c ≠ '\n' := by
  induction items with
  | nil => intro c hc; simp [render_toks] at hc
  | cons it rest ih =>
    obtain ⟨htok, _, _, hokrest⟩ := items_ok_cons it rest hok
    intro c hc
    rw [render_toks_cons] at hc
    simp only [List.mem_append, List.mem_replicate] at hc
    rcases hc with h | h | h
    · exact token_no_newline it.1 htok c h
    · rw [h.2]; decide
    · exact ih hokrest c h

theorem render_no_newline (l : TokLine) (hok : items_ok l.items = true) :
    ∀ c ∈ l.render, c ≠ '\n' := by
  intro c hc
  simp only [TokLine.render, List.mem_append, List.mem_replicate] at hc
  rcases hc with h | h
  · rw [h.2]; decide
  · exact render_toks_no_newline l.items hok c h

theorem ok_iff (l : TokLine) :
    l.ok = true ↔ items_ok l.items = true ∧ (l.items = [] → l.lead = 0)
      ∧ l.render.length + 1 ≤ 255 := by
  cases hl : l.items <;> simp [TokLine.ok, hl, and_assoc]

theorem ok_last_iff (l : TokLine) :
    l.ok_last = true ↔ items_ok l.items = true ∧ (l.items = [] → l.lead = 0)
      ∧ l.render.length ≤ 255 := by
  cases hl : l.items <;> simp [TokLine.ok_last, hl, and_assoc]

theorem ok_after_address_iff (l : TokLine) (A : List Char) :
    l.ok_after_address A = true ↔ items_ok l.items = true ∧ (l.items ≠ [] → 1 ≤ l.lead)
      ∧ 1 + A.length + l.render.length + 1 ≤ 255 := by
  cases hl : l.items <;> simp [TokLine.ok_after_address, hl, and_assoc]

theorem load_lines_nil (fuel : Nat) (addr : Int) (mem : List Byte) :
    load_lines fuel [] addr mem = some mem := by
  cases fuel <;> simp [load_lines]

/-- The `fgets` loop on lines of tokens followed by a last line without newline. -/
theorem load_lines_data (last : TokLine) (hlast : last.ok_last = true) :
    ∀ (lines : List TokLine) (a fuel : Nat) (mem : List Byte),
      (∀ l ∈ lines, l.ok = true) →
      (lines.flatMap (fun l => l.render ++ ['\n']) ++ last.render).length < fuel →
      a + 4 * (lines.flatMap TokLine.values ++ last.values).length ≤ mem.length →
      a + 4 * (lines.flatMap TokLine.values ++ last.values).length ≤ 2 ^ 31 →
      load_lines fuel (lines.flatMap (fun l => l.render ++ ['\n']) ++ last.render)
          (toInt32 a) mem
        = some (store_words mem a (lines.flatMap TokLine.values ++ last.values)) := by
  obtain ⟨hlok, hllead, hllen⟩ := (ok_last_iff last).mp hlast
  intro lines
  induction lines with
  | nil =>
    intro a fuel mem _ hfuel hfit h31
    simp only [List.flatMap_nil, List.nil_append, List.length_append, values_length] at *
    by_cases hempty : last.render = []
    · have hitems : last.items = [] := by
        have := items_length_le last.items hlok
        have hlen : last.render.length = 0 := by rw [hempty]; rfl
        simp only [TokLine.render, List.length_append, List.length_replicate] at hlen
        exact List.eq_nil_of_length_eq_zero (by omega)
      rw [hempty, load_lines_nil]
      simp [TokLine.values, hitems, store_words]
    · obtain ⟨f, rfl⟩ : ∃ f, fuel = f + 1 := ⟨fuel - 1, by omega⟩
      have hline := load_line_data last [] (Or.inl rfl) hlok hllead a mem hfit h31
      rw [List.append_nil] at hline
      rw [load_lines, if_neg hempty,
        fgets_take_last last.render 255 (render_no_newline last hlok) hllen]
      simp only [hline, load_lines_nil]
  | cons l ls ih =>
    intro a fuel mem hall hfuel hfit h31
    obtain ⟨hok, hlead, hlen⟩ := (ok_iff l).mp (hall l (List.mem_cons_self _ _))
    have hstream : (l :: ls).flatMap (fun l => l.render ++ ['\n']) ++ last.render
        = l.render ++ '\n' :: (ls.flatMap (fun l => l.render ++ ['\n']) ++ last.render) := by
      simp
    have hvals : (l :: ls).flatMap TokLine.values ++ last.values
        = l.values ++ (ls.flatMap TokLine.values ++ last.values) := by
      simp
    rw [hstream] at hfuel ⊢
    rw [hvals] at hfit h31 ⊢
    simp only [List.length_append, List.length_cons, values_length] at hfuel hfit h31
    obtain ⟨f, rfl⟩ : ∃ f, fuel = f + 1 := ⟨fuel - 1, by omega⟩
    have hline := load_line_data l ['\n'] (Or.inr rfl) hok hlead a mem (by omega) (by omega)
    have hrest := ih (a + 4 * l.items.length) f (store_words mem a l.values)
      (fun x hx => hall x (List.mem_cons_of_mem _ hx))
      (by simp only [List.length_append]; omega)
      (by rw [store_words_length]; simp only [List.length_append, values_length]; omega)
      (by simp only [List.length_append, values_length]; omega)
    rw [load_lines, if_neg (by simp),
      fgets_take_line _ l.render 255 (render_no_newline l hok) (by omega)]
    simp only [hline, hrest]
    rw [store_words_append l.values _ mem a, values_length]

/-! ## Program image loader: the store it builds -/

theorem put_word_getElem? (mem : List Byte) (a d p : Nat) (ha : a + 4 ≤ mem.length) :
    (put_word mem a d)[p]?
      = if a ≤ p ∧ p < a + 4 then some (word_byte d (p - a)) else mem[p]? := by
  unfold put_word
  simp only [List.getElem?_set, List.length_set]
  by_cases h3 : a + 3 = p
  · subst h3
    have e : a + 3 - a = 3 := by omega
    rw [if_pos rfl, if_pos (by omega), if_pos (by omega), e]
  · rw [if_neg h3]
    by_cases h2 : a + 2 = p
    · subst h2
      have e : a + 2 - a = 2 := by omega
      rw [if_pos rfl, if_pos (by omega), if_pos (by omega), e]
    · rw [if_neg h2]
      by_cases h1 : a + 1 = p
      · subst h1
        have e : a + 1 - a = 1 := by omega
        rw [if_pos rfl, if_pos (by omega), if_pos (by omega), e]
      · rw [if_neg h1]
        by_cases h0 : a = p
        · subst h0
          rw [if_pos rfl, if_pos (by omega), if_pos (by omega), Nat.sub_self]
        · rw [if_neg h0, if_neg (by omega)]

theorem store_words_getElem? (ds : List Nat) :
    ∀ (mem : List Byte) (a p : Nat), a + 4 * ds.length ≤ mem.length →
      (store_words mem a ds)[p]?
        = if a ≤ p ∧ p < a + 4 * ds.length then
            some (word_byte (ds.getD ((p - a) / 4) 0) ((p - a) % 4))
          else mem[p]? := by
  induction ds with
  | nil =>
    intro mem a p _
    rw [if_neg (by simp only [List.length_nil]; omega)]
    rfl
  | cons d ds ih =>
    intro mem a p hfit
    simp only [List.length_cons] at hfit
    rw [store_words, ih (put_word mem a d) (a + 4) p (by rw [put_word_length]; omega),
      put_word_getElem? mem a d p (by omega)]
    simp only [List.length_cons]
    by_cases hlo : a + 4 ≤ p ∧ p < a + 4 + 4 * ds.length
    · have hidx : (p - a) / 4 = (p - (a + 4)) / 4 + 1 := by omega
      have hmod : (p - a) % 4 = (p - (a + 4)) % 4 := by omega
      rw [if_pos hlo, if_pos (by omega), hidx, hmod, List.getD_cons_succ]
    · rw [if_neg hlo]
      by_cases hin : a ≤ p ∧ p < a + 4
      · have hidx : (p - a) / 4 = 0 := by omega
        have hmod : (p - a) % 4 = p - a := by omega
        rw [if_pos hin, if_pos (by omega), hidx, hmod, List.getD_cons_zero]
      · rw [if_neg hin, if_neg (by omega)]

/-- Storing the words `ds` from address `4*A` on into a zeroed store builds the
image the specification describes. -/
theorem store_words_eq_image (mem_sz A : Nat) (ds : List Nat)
    (hfit : 4 * A + 4 * ds.length ≤ mem_sz) :
    store_words (List.replicate mem_sz 0) (4 * A) ds = image mem_sz A ds := by
  apply List.ext_getElem?
  intro p
  rw [store_words_getElem? ds _ _ p (by simpa using hfit)]
  unfold image
  rw [List.getElem?_map, List.getElem?_replicate]
  by_cases hp : p < mem_sz
  · rw [List.getElem?_range hp, if_pos hp]
    by_cases hin : 4 * A ≤ p ∧ p < 4 * A + 4 * ds.length
    · simp only [hin, and_self, if_true, Option.map_some']
    · simp only [hin, if_false, Option.map_some']
  · rw [List.getElem?_eq_none (by simpa using hp), if_neg hp,
      if_neg (by omega)]
    rfl

/-- C9 (as amended): for a program text made of the line `@A` (tokens may follow
the address after at least one space) and then hex tokens `d_0 .. d_(n-1)`, each below
`2^32`, laid out in lines of at most 255 characters (newline included) of which none
consists of spaces only, the tokens of a line separated by spaces, with
`4*A + 4*n ≤ mem_sz` and `4*A + 4*n ≤ 2^31`: `load_program` returns a store of `mem_sz` bytes in which
byte `4*A + 4*k + j` is bits `8j..8j+7` of `d_k` and every other byte is zero. -/
theorem load_program_image (mem_sz : Nat) (A : List Char) (first : TokLine)
    (lines : List TokLine) (last : TokLine)
    (hA : is_hex_token A = true) (hfirst : first.ok_after_address A = true)
    (hlines : ∀ l ∈ lines, l.ok = true) (hlast : last.ok_last = true)
    (hfit : 4 * hex_value A + 4 * (program_words first lines last).length ≤ mem_sz)
    (h31 : 4 * hex_value A + 4 * (program_words first lines last).length ≤ 2 ^ 31) :
    load_program mem_sz true (some (program_text A first lines last))
      = some (some (image mem_sz (hex_value A) (program_words first lines last))) := by
  obtain ⟨hok, hlead, hlen⟩ := (ok_after_address_iff first A).mp hfirst
  have htext : program_text A first lines last
      = ('@' :: A ++ first.render)
        ++ '\n' :: (lines.flatMap (fun l => l.render ++ ['\n']) ++ last.render) := by
    simp [program_text]
  have hwords : program_words first lines last
      = first.values ++ (lines.flatMap TokLine.values ++ last.values) := by
    simp [program_words]
  have hnl : ∀ c ∈ '@' :: A ++ first.render, c ≠ '\n' := by
    intro c hc
    simp only [List.cons_append, List.mem_cons, List.mem_append] at hc
    rcases hc with h | h | h
    · rw [h]; decide
    · exact token_no_newline A hA c h
    · exact render_no_newline first hok c h
  rw [hwords] at hfit h31
  simp only [List.length_append, values_length] at hfit h31
  have hline := load_line_address A first hA hok hlead 0 (List.replicate mem_sz 0)
    (by rw [List.length_replicate]; omega) (by omega)
  have hrest := load_lines_data last hlast lines
    (4 * hex_value A + 4 * first.items.length)
    (program_text A first lines last).length
    (store_words (List.replicate mem_sz 0) (4 * hex_value A) first.values) hlines
    (by rw [htext]; simp only [List.length_append, List.length_cons]; omega)
    (by
      rw [store_words_length, List.length_replicate]
      simp only [List.length_append, values_length]; omega)
    (by simp only [List.length_append, values_length]; omega)
  have hfg := fgets_take_line (lines.flatMap (fun l => l.render ++ ['\n']) ++ last.render)
    ('@' :: A ++ first.render) 255 hnl
    (by simp only [List.length_append, List.length_cons] at hlen ⊢; omega)
  have hbuf : ('@' :: A ++ first.render) ++ ['\n'] = '@' :: A ++ first.render ++ ['\n'] := by
    simp
  unfold load_program
  rw [if_pos rfl]
  simp only []
  rw [load_lines, if_neg (by rw [htext]; simp)]
  rw [htext] at hrest ⊢
  rw [hfg, hbuf]
  simp only [hline, hrest]
  rw [hwords, ← store_words_eq_image mem_sz (hex_value A) _
      (by simp only [List.length_append, values_length]; omega),
    store_words_append first.values _ _ (4 * hex_value A), values_length]

theorem load_program_image_witness :
    program_text "10".toList { lead := 0, items := [] }
        [{ lead := 0, items := [("1".toList, 1), ("2".toList, 1), ("3".toList, 0)] }]
        { lead := 0, items := [] } = "@10\n1 2 3\n".toList ∧
    load_program 0x50 true (some (program_text "10".toList { lead := 0, items := [] }
        [{ lead := 0, items := [("1".toList, 1), ("2".toList, 1), ("3".toList, 0)] }]
        { lead := 0, items := [] }))
      = some (some (image 0x50 (hex_value "10".toList)
          (program_words { lead := 0, items := [] }
            [{ lead := 0, items := [("1".toList, 1), ("2".toList, 1), ("3".toList, 0)] }]
            { lead := 0, items := [] }))) ∧
    (image 0x50 (hex_value "10".toList)
        (program_words { lead := 0, items := [] }
          [{ lead := 0, items := [("1".toList, 1), ("2".toList, 1), ("3".toList, 0)] }]
          { lead := 0, items := [] })).drop 0x40
      = [1, 0, 0, 0, 2, 0, 0, 0, 3, 0, 0, 0, 0, 0, 0, 0] :=
  ⟨by decide,
    load_program_image 0x50 "10".toList { lead := 0, items := [] }
      [{ lead := 0, items := [("1".toList, 1), ("2".toList, 1), ("3".toList, 0)] }]
      { lead := 0, items := [] } (by decide) (by decide) (by decide) (by decide) (by decide)
      (by decide),
    by decide⟩

set_option maxRecDepth 100000 in
/-- C9 (the claim as stated fails): in `@0`, `1`, a line holding one space, `2` the
tokens `1` and `2` are separated by spaces and newlines, yet the word `2` lands at byte
8, not at byte 4, because the line of one space stores a zero word. In `@0` followed by
a line of 254 spaces and the token `12`, the 255-character line buffer cuts the token
in two and the words `1` and `2` are stored instead of the word `0x12`. With `@20000000`
the byte address `2^31` does not fit the `int` address and the store to a store of
`2^31 + 4` bytes leaves it: no store is returned. -/
theorem load_program_counterexample :
    (load_program 16 true (some "@0\n1\n \n2\n".toList)
        = some (some [1, 0, 0, 0, 0, 0, 0, 0, 2, 0, 0, 0, 0, 0, 0, 0]) ∧
      load_program 16 true (some "@0\n1\n \n2\n".toList) ≠ some (some (image 16 0 [1, 2]))) ∧
    (load_program 8 true (some ('@' :: '0' :: '\n' :: List.replicate 254 ' ' ++ "12\n".toList))
        = some (some [1, 0, 0, 0, 2, 0, 0, 0]) ∧
      load_program 8 true (some ('@' :: '0' :: '\n' :: List.replicate 254 ' ' ++ "12\n".toList))
        ≠ some (some (image 8 0 [0x12]))) ∧
    load_program (2 ^ 31 + 4) true (some "@20000000\n1\n".toList) = none := by
  decide

/-! ## Write-port frame and MMIO capture -/

/-- C18: frame of `update_mem_write`. With `req_valid = false` the whole backing store
is unchanged. With `req_valid = true` (and the bytes the call touches existing) every
byte that is not `mem[address+i]` for an enabled `i < mem_w/8` is unchanged, the index
taken as the code computes it in `uint32_t`; when `address + mem_w/8 ≤ 2^32` these are
every byte whose offset is outside `[address, address + mem_w/8)` and every byte
`address+i`, `i < mem_w/8`, whose enable bit `i` is clear. -/
theorem write_frame (address mem_w mem_size : Nat) (d be mem : List Byte) :
    update_mem_write address false mem_w mem_size d be mem = some mem ∧
    (mem_w < 2 ^ 32 → mem_w / 8 ≤ 8 * be.length →
      (∀ i, i < mem_w / 8 → be_bit be i = true →
        i < d.length ∧ u32 (address + i) < mem.length) →
      ∃ m, update_mem_write address true mem_w mem_size d be mem = some m ∧
        m.length = mem.length ∧
        (∀ p, (∀ i, i < mem_w / 8 → be_bit be i = true → u32 (address + i) ≠ p) →
          m[p]? = mem[p]?) ∧
        (address + mem_w / 8 ≤ 2 ^ 32 →
          (∀ p, p < address ∨ address + mem_w / 8 ≤ p → m[p]? = mem[p]?) ∧
          (∀ i, i < mem_w / 8 → be_bit be i = false →
            m[address + i]? = mem[address + i]?))) := by
  refine ⟨rfl, ?_⟩
  intro hw hbe hen
  obtain ⟨m, hrun, hlen, _, hframe⟩ := write_loop_spec address (mem_w / 8) d be mem
    (by omega) hbe hen
  refine ⟨m, by simp only [update_mem_write, if_true, hrun], hlen, hframe, ?_⟩
  intro h32
  have hu : ∀ i, i < mem_w / 8 → u32 (address + i) = address + i := fun i hi =>
    u32_of_lt _ (by omega)
  constructor
  · intro p hp
    apply hframe
    intro i hi _ heq
    rw [hu i hi] at heq
    omega
  · intro i hi hb
    apply hframe
    intro k hk hbk heq
    rw [hu k hk] at heq
    have hki : k = i := by omega
    rw [hki, hb] at hbk
    cases hbk

theorem write_frame_witness :
    ∃ m, update_mem_write 1 true 16 0 [7, 8] [2] [10, 11, 12, 13] = some m ∧
      m.length = [10, 11, 12, 13].length ∧
      (∀ p, (∀ i, i < 16 / 8 → be_bit [2] i = true → u32 (1 + i) ≠ p) →
        m[p]? = [10, 11, 12, 13][p]?) ∧
      (1 + 16 / 8 ≤ 2 ^ 32 →
        (∀ p, p < 1 ∨ 1 + 16 / 8 ≤ p → m[p]? = [10, 11, 12, 13][p]?) ∧
        (∀ i, i < 16 / 8 → be_bit [2] i = false →
          m[1 + i]? = [10, 11, 12, 13][1 + i]?)) :=
  (write_frame 1 16 0 [7, 8] [2] [10, 11, 12, 13]).2 (by decide) (by decide) (by decide)

/-- C19: data capture of `check_memmapio`. When the call returns `true` the first
`mem_w/8` bytes of `data_out` are the first `mem_w/8` bytes of the write data (and the
bytes behind them are untouched); when it returns `false`, `data_out` is unchanged. The
call returns whenever the buffers hold the `mem_w/8` bytes a hit copies. -/
theorem memmapio_capture (address : Nat) (req_valid : Bool) (mem_w : Nat)
    (model_data_o : List Byte) (memmap_address : Nat) (data_out : List Byte)
    (hbuf : req_valid = true → address = memmap_address →
      mem_w / 8 ≤ model_data_o.length ∧ mem_w / 8 ≤ data_out.length) :
    ∃ r, check_memmapio address req_valid mem_w model_data_o memmap_address data_out = some r ∧
      (r.1 = true → r.2.take (mem_w / 8) = model_data_o.take (mem_w / 8) ∧
        r.2.drop (mem_w / 8) = data_out.drop (mem_w / 8)) ∧
      (r.1 = false → r.2 = data_out) := by
  unfold check_memmapio
  by_cases hv : req_valid = true
  · by_cases ha : address = memmap_address
    · obtain ⟨hd, ho⟩ := hbuf hv ha
      rw [if_pos hv, if_pos ha, capture_loop_eq _ _ _ hd ho]
      refine ⟨_, rfl, fun _ => ⟨?_, ?_⟩, fun h => by cases h⟩
      · rw [List.take_append_of_le_length (by rw [List.length_take]; omega),
          List.take_take, Nat.min_self]
      · rw [List.drop_append_of_le_length (by rw [List.length_take]; omega),
          List.drop_of_length_le (by rw [List.length_take]; omega), List.nil_append]
    · rw [if_pos hv, if_neg ha]
      exact ⟨_, rfl, fun h => (by cases h), fun _ => rfl⟩
  · rw [if_neg hv]
    exact ⟨_, rfl, fun h => (by cases h), fun _ => rfl⟩

theorem memmapio_capture_witness :
    ∃ r, check_memmapio 8 true 16 [7, 8, 9] 8 [0, 0, 5] = some r ∧
      (r.1 = true → r.2.take (16 / 8) = [7, 8, 9].take (16 / 8) ∧
        r.2.drop (16 / 8) = [0, 0, 5].drop (16 / 8)) ∧
      (r.1 = false → r.2 = [0, 0, 5]) :=
  memmapio_capture 8 true 16 [7, 8, 9] 8 [0, 0, 5] (by decide)

/-! ## Trace window -/

theorem ofInt32_natCast (c : Nat) (h : c < 2 ^ 32) : ofInt32 (c : Int) = c := by
  unfold ofInt32
  omega

/-- C13: trace window of `update_inst_trace`. For every cycle count (a non-negative
`int`), `begin_cycles` and `end_cycles`, a call with a non-null trace stream appends the
instruction-word line of the cycle (8 hex digits and a newline, after the `NEW PC` line
when the writeback PC pair differs) if and only if
`(begin_cycles ≤ cycles ∧ cycles < end_cycles) ∨ end_cycles = 0`, and appends nothing
otherwise; with a null stream it appends nothing. -/
theorem trace_window (g : Stats) (top : Top) (cycles begin_cycles end_cycles : Nat)
    (hc : g.cycles = (cycles : Int)) (hc31 : cycles < 2 ^ 31)
    (hw : top.instruction_wb < 2 ^ 32) :
    (((begin_cycles ≤ cycles ∧ cycles < end_cycles) ∨ end_cycles = 0) →
      update_inst_trace g top true begin_cycles end_cycles
        = (if g.current_WB_PC ≠ g.last_WB_PC then "NEW PC\n".toList else [])
          ++ (hex_digits 8 top.instruction_wb ++ ['\n'])) ∧
    (¬ ((begin_cycles ≤ cycles ∧ cycles < end_cycles) ∨ end_cycles = 0) →
      update_inst_trace g top true begin_cycles end_cycles = []) ∧
    ((hex_digits 8 top.instruction_wb ++ ['\n'])
        <:+ update_inst_trace g top true begin_cycles end_cycles
      ↔ ((begin_cycles ≤ cycles ∧ cycles < end_cycles) ∨ end_cycles = 0)) ∧
    update_inst_trace g top false begin_cycles end_cycles = [] := by
  have hcyc : ofInt32 g.cycles = cycles := by rw [hc]; exact ofInt32_natCast cycles (by omega)
  have hfmt : fmt_x 8 top.instruction_wb = hex_digits 8 top.instruction_wb :=
    fmt_x_eq_hex_digits 8 _ (by decide) (by decide) (by simpa using hw)
  have hin : ((begin_cycles ≤ cycles ∧ cycles < end_cycles) ∨ end_cycles = 0) →
      update_inst_trace g top true begin_cycles end_cycles
        = (if g.current_WB_PC ≠ g.last_WB_PC then "NEW PC\n".toList else [])
          ++ (hex_digits 8 top.instruction_wb ++ ['\n']) := by
    intro h
    unfold update_inst_trace
    rw [if_pos rfl, hcyc, if_pos h, hfmt]
  have hout : ¬ ((begin_cycles ≤ cycles ∧ cycles < end_cycles) ∨ end_cycles = 0) →
      update_inst_trace g top true begin_cycles end_cycles = [] := by
    intro h
    unfold update_inst_trace
    rw [if_pos rfl, hcyc, if_neg h]
  refine ⟨hin, hout, ⟨?_, ?_⟩, ?_⟩
  · intro hsuf
    by_contra hnot
    rw [hout hnot] at hsuf
    have hlen := hsuf.length_le
    simp [hex_digits_length] at hlen
  · intro h
    rw [hin h]
    exact List.suffix_append _ _
  · unfold update_inst_trace
    rw [if_neg (by decide)]

theorem trace_window_witness :
    (((2 ≤ 5 ∧ 5 < 9) ∨ 9 = 0) →
      update_inst_trace { cycles := 5, current_WB_PC := 4, last_WB_PC := 4 }
          { instruction_wb := 0x93 } true 2 9
        = (if (4 : Int) ≠ 4 then "NEW PC\n".toList else [])
          ++ (hex_digits 8 0x93 ++ ['\n'])) ∧
    (¬ ((2 ≤ 5 ∧ 5 < 9) ∨ 9 = 0) →
      update_inst_trace { cycles := 5, current_WB_PC := 4, last_WB_PC := 4 }
          { instruction_wb := 0x93 } true 2 9 = []) ∧
    ((hex_digits 8 0x93 ++ ['\n'])
        <:+ update_inst_trace { cycles := 5, current_WB_PC := 4, last_WB_PC := 4 }
          { instruction_wb := 0x93 } true 2 9
      ↔ ((2 ≤ 5 ∧ 5 < 9) ∨ 9 = 0)) ∧
    update_inst_trace { cycles := 5, current_WB_PC := 4, last_WB_PC := 4 }
      { instruction_wb := 0x93 } false 2 9 = [] :=
  trace_window { cycles := 5, current_WB_PC := 4, last_WB_PC := 4 } { instruction_wb := 0x93 }
    5 2 9 rfl (by decide) (by decide)

/-! ## Stall detection -/

theorem run_stall_append (max_cycles : Nat) (tops : List Top) (top : Top) :
    run_stall max_cycles (tops ++ [top])
      = (check_stall (run_stall max_cycles tops) top max_cycles).1 := by
  simp [run_stall, List.foldl_append]

theorem pc_history_append (tops : List Top) (top : Top) :
    pc_history (tops ++ [top]) = pc_history tops ++ [top.pc_if] := by
  simp [pc_history]

theorem pc_history_length (tops : List Top) : (pc_history tops).length = tops.length + 1 := by
  simp [pc_history]

/-- After `n` calls the counter is the number of steps one can go back in the PC
history without the PC changing. -/
theorem stall_count_spec (max_cycles : Nat) (tops : List Top) (hn : tops.length < 2 ^ 32) :
    (pc_history tops)[tops.length]? = some (run_stall max_cycles tops).last_IF_PC ∧
    (run_stall max_cycles tops).cycles_stalled ≤ tops.length ∧
    (∀ j, j ≤ (run_stall max_cycles tops).cycles_stalled →
      (pc_history tops)[tops.length - j]? = some (run_stall max_cycles tops).last_IF_PC) ∧
    ((run_stall max_cycles tops).cycles_stalled < tops.length →
      (pc_history tops)[tops.length - (run_stall max_cycles tops).cycles_stalled - 1]?
        ≠ some (run_stall max_cycles tops).last_IF_PC) := by
  induction tops using List.reverseRecOn with
  | nil =>
    refine ⟨rfl, Nat.le_refl _, ?_, ?_⟩
    · intro j hj
      have : j = 0 := by simpa [run_stall] using hj
      subst this
      rfl
    · intro h
      simp [run_stall] at h
  | append_singleton l a ih =>
    rw [List.length_append, List.length_singleton] at hn
    obtain ⟨hlast, hle, hrun, hstop⟩ := ih (by omega)
    rw [run_stall_append, pc_history_append, List.length_append, List.length_singleton]
    have hlen := pc_history_length l
    have hold : ∀ i, i ≤ l.length → (pc_history l ++ [a.pc_if])[i]? = (pc_history l)[i]? :=
      fun i hi => List.getElem?_append_left (by omega)
    have hnew : (pc_history l ++ [a.pc_if])[l.length + 1]? = some a.pc_if := by
      rw [← hlen]
      exact List.getElem?_concat_length _ _
    by_cases heq : a.pc_if = (run_stall max_cycles l).last_IF_PC
    · have hc : (check_stall (run_stall max_cycles l) a max_cycles).1
          = { cycles_stalled := (run_stall max_cycles l).cycles_stalled + 1,
              last_IF_PC := a.pc_if } := by
        simp only [check_stall, if_pos heq]
        rw [u32_of_lt _ (by omega)]
      rw [hc]
      refine ⟨hnew, by simp only []; omega, ?_, ?_⟩
      · intro j hj
        simp only [] at hj ⊢
        by_cases hj0 : j = 0
        · subst hj0
          exact hnew
        · have hidx : l.length + 1 - j = l.length - (j - 1) := by omega
          rw [hidx, hold _ (by omega), hrun (j - 1) (by omega), heq]
      · intro hlt
        simp only [] at hlt ⊢
        have hidx : l.length + 1 - ((run_stall max_cycles l).cycles_stalled + 1) - 1
            = l.length - (run_stall max_cycles l).cycles_stalled - 1 := by omega
        rw [hidx, hold _ (by omega), heq]
        exact hstop (by omega)
    · have hc : (check_stall (run_stall max_cycles l) a max_cycles).1
          = { cycles_stalled := 0, last_IF_PC := a.pc_if } := by
        simp only [check_stall, if_neg heq]
      rw [hc]
      refine ⟨hnew, Nat.zero_le _, ?_, ?_⟩
      · intro j hj
        have : j = 0 := by simpa using hj
        subst this
        exact hnew
      · intro _
        simp only [Nat.sub_zero, Nat.add_sub_cancel]
        rw [hold _ (Nat.le_refl _), hlast]
        intro h
        exact heq (Option.some.inj h).symm

/-- C11: stall detection. For a sequence of calls of `check_stall` from the start of the
simulation with fetch PCs `p_1, ..., p_n` (`p_0 = 0`, fewer than `2^32` calls) and every
`max_cycles`, the `n`-th call returns `true` if and only if `max_cycles ≤ n` and
`p_n = p_(n-1) = ... = p_(n-max_cycles)`. A call whose PC differs from `last_IF_PC`, the
PC of the previous call, leaves the stall count at 0. -/
theorem stall_detection (max_cycles : Nat) (tops : List Top) (top : Top)
    (hn : tops.length + 1 < 2 ^ 32) :
    ((check_stall (run_stall max_cycles tops) top max_cycles).2 = true ↔
      max_cycles ≤ tops.length + 1 ∧
      ∀ j, j ≤ max_cycles →
        (pc_history (tops ++ [top]))[tops.length + 1 - j]? = some top.pc_if) ∧
    (pc_history tops)[tops.length]? = some (run_stall max_cycles tops).last_IF_PC ∧
    ∀ s : StallState, s.last_IF_PC ≠ top.pc_if →
      (check_stall s top max_cycles).1.cycles_stalled = 0 := by
  have hspec := stall_count_spec max_cycles (tops ++ [top])
    (by rw [List.length_append, List.length_singleton]; exact hn)
  rw [run_stall_append, List.length_append, List.length_singleton] at hspec
  obtain ⟨_, hle, hrun, hstop⟩ := hspec
  have hprev := (stall_count_spec max_cycles tops (by omega)).1
  have hret : (check_stall (run_stall max_cycles tops) top max_cycles).2
      = decide (max_cycles
          ≤ (check_stall (run_stall max_cycles tops) top max_cycles).1.cycles_stalled) := rfl
  have hpc : (check_stall (run_stall max_cycles tops) top max_cycles).1.last_IF_PC
      = top.pc_if := rfl
  rw [hpc] at hrun hstop
  refine ⟨?_, hprev, ?_⟩
  · rw [hret, decide_eq_true_eq]
    constructor
    · intro hmax
      exact ⟨by omega, fun j hj => hrun j (by omega)⟩
    · intro ⟨hmn, hall⟩
      by_contra hlt
      exact hstop (by omega) (by
        have := hall ((check_stall (run_stall max_cycles tops) top
          max_cycles).1.cycles_stalled + 1) (by omega)
        rw [← this]
        congr 1)
  · intro s hs
    simp only [check_stall, if_neg (Ne.symm hs)]

theorem stall_detection_witness :
    ((check_stall (run_stall 2 [{ pc_if := 4 }, { pc_if := 8 }, { pc_if := 8 }])
        { pc_if := 8 } 2).2 = true ↔
      2 ≤ [({ pc_if := 4 } : Top), { pc_if := 8 }, { pc_if := 8 }].length + 1 ∧
      ∀ j, j ≤ 2 →
        (pc_history ([{ pc_if := 4 }, { pc_if := 8 }, { pc_if := 8 }] ++ [{ pc_if := 8 }]))[
          [({ pc_if := 4 } : Top), { pc_if := 8 }, { pc_if := 8 }].length + 1 - j]?
          = some ({ pc_if := 8 } : Top).pc_if) ∧
    (pc_history [{ pc_if := 4 }, { pc_if := 8 }, { pc_if := 8 }])[
        [({ pc_if := 4 } : Top), { pc_if := 8 }, { pc_if := 8 }].length]?
      = some (run_stall 2 [{ pc_if := 4 }, { pc_if := 8 }, { pc_if := 8 }]).last_IF_PC ∧
    ∀ s : StallState, s.last_IF_PC ≠ ({ pc_if := 8 } : Top).pc_if →
      (check_stall s { pc_if := 8 } 2).1.cycles_stalled = 0 :=
  stall_detection 2 [{ pc_if := 4 }, { pc_if := 8 }, { pc_if := 8 }] { pc_if := 8 } (by decide)

/-! ## Vector-length statistics -/

theorem toInt32_add_eq_iff (s : Int) (vl : Nat) (hlo : -2 ^ 31 ≤ s) (hhi : s < 2 ^ 31) :
    toInt32 (ofInt32 s + vl) = s ↔ u32 vl = 0 := by
  unfold toInt32 ofInt32 u32
  split <;> omega

theorem bit_length_aux_zero (fuel : Nat) : bit_length_aux fuel 0 = 0 := by
  cases fuel <;> simp [bit_length_aux]

theorem bit_length_aux_spec : ∀ (fuel n : Nat), n ≤ fuel → n ≠ 0 →
    2 ^ (bit_length_aux fuel n - 1) ≤ n ∧ n < 2 ^ bit_length_aux fuel n := by
  intro fuel
  induction fuel with
  | zero => intro n hn h0; omega
  | succ fuel ih =>
    intro n hn h0
    rw [bit_length_aux, if_neg h0]
    by_cases h2 : n / 2 = 0
    · rw [h2, bit_length_aux_zero]
      have : n = 1 := by omega
      subst this
      exact ⟨by decide, by decide⟩
    · obtain ⟨hlo, hhi⟩ := ih (n / 2) (by omega) h2
      obtain ⟨b, hb⟩ : ∃ b, bit_length_aux fuel (n / 2) = b + 1 := by
        cases hbl : bit_length_aux fuel (n / 2) with
        | zero => rw [hbl] at hhi; simp at hhi; omega
        | succ b => exact ⟨b, rfl⟩
      rw [hb] at hlo hhi ⊢
      simp only [Nat.add_sub_cancel] at hlo ⊢
      rw [Nat.pow_succ] at hhi ⊢
      rw [Nat.pow_succ]
      omega

theorem bit_length_spec (n : Nat) (h0 : n ≠ 0) :
    2 ^ (bit_length n - 1) ≤ n ∧ n < 2 ^ bit_length n :=
  bit_length_aux_spec n n (Nat.le_refl n) h0

theorem round_half_even_ge (m k : Nat) : m / 2 ^ k ≤ round_half_even m k := by
  unfold round_half_even
  split
  · exact Nat.le_refl _
  · split
    · exact Nat.le_succ _
    · split
      · exact Nat.le_refl _
      · exact Nat.le_succ _

theorem round_nat_ne_zero (p m : Nat) (e : Int) (hp : 1 ≤ p) (hm : m ≠ 0) :
    (round_nat p m e).m ≠ 0 := by
  unfold round_nat
  split
  · simp only []
    omega
  · simp only []
    have hlo := (bit_length_spec m hm).1
    have hle : 2 ^ (bit_length m - p) ≤ 2 ^ (bit_length m - 1) :=
      Nat.pow_le_pow_right (by decide) (by omega)
    have hq : 0 < m / 2 ^ (bit_length m - p) :=
      Nat.div_pos (Nat.le_trans hle hlo) (Nat.two_pow_pos _)
    have := round_half_even_ge m (bit_length m - p)
    omega

theorem round_int_ne_zero (p : Nat) (m e : Int) (hp : 1 ≤ p) (hm : m ≠ 0) :
    (round_int p m e).m ≠ 0 := by
  have h := round_nat_ne_zero p m.natAbs e hp (by omega)
  unfold round_int
  simp only []
  split <;> omega

theorem of_int_small (p : Nat) (z : Int) (hlo : -2 ^ p < z) (hhi : z < 2 ^ p) :
    of_int p z = { m := z, e := 0 } := by
  have habs : z.natAbs < 2 ^ p := by
    have h1 : ((z.natAbs : Nat) : Int) < ((2 ^ p : Nat) : Int) := by
      rw [Nat.cast_pow, Nat.cast_ofNat]
      omega
    exact Int.ofNat_lt.mp h1
  unfold of_int round_int round_nat
  rw [if_pos habs]
  simp only []
  congr 1
  split <;> omega

theorem to_int32_int (z : Int) (hlo : -2 ^ 31 ≤ z) (hhi : z < 2 ^ 31) :
    to_int32 { m := z, e := 0 } = some z := by
  unfold to_int32
  simp only [Int.le_refl, if_true, Int.toNat_zero, Nat.pow_zero, Nat.mul_one]
  have hz : (if z < 0 then -((z.natAbs : Nat) : Int) else ((z.natAbs : Nat) : Int)) = z := by
    split <;> omega
  rw [hz, if_pos ⟨hlo, hhi⟩]

/-- Adding a zero quotient to an accumulator that the format holds exactly gives the
accumulator back. -/
theorem add_assign_zero (p : Nat) (s : Int) (hlo : -2 ^ p < s) (hhi : s < 2 ^ p)
    (hlo31 : -2 ^ 31 ≤ s) (hhi31 : s < 2 ^ 31) :
    add_assign p s (some { m := 0, e := 0 }) = some s := by
  unfold add_assign
  simp only []
  rw [of_int_small p s hlo hhi]
  unfold fadd
  simp only []
  by_cases h0 : s = 0
  · subst h0
    rw [if_pos rfl]
    exact to_int32_int 0 (by omega) (by omega)
  · rw [if_neg h0, if_pos trivial]
    exact to_int32_int s hlo31 hhi31

theorem fdiv_zero (p : Nat) (d : Flt) (hd : d.m ≠ 0) :
    fdiv p { m := 0, e := 0 } d = some { m := 0, e := 0 } := by
  unfold fdiv
  rw [if_neg hd, if_pos rfl]

theorem fdiv_ne_zero (p : Nat) (a b : Flt) (hp : 1 ≤ p) (ha : a.m ≠ 0) (hb : b.m ≠ 0) :
    ∃ r, fdiv p a b = some r ∧ r.m ≠ 0 := by
  unfold fdiv
  rw [if_neg hb, if_neg ha]
  refine ⟨_, rfl, ?_⟩
  have hbn : b.m.natAbs ≠ 0 := by omega
  have han : 1 ≤ a.m.natAbs := by omega
  have hhi := (bit_length_spec b.m.natAbs hbn).2
  have hpow : 2 ^ bit_length b.m.natAbs ≤ 2 ^ (p + 2 + bit_length b.m.natAbs) :=
    Nat.pow_le_pow_right (by decide) (by omega)
  have hn : b.m.natAbs ≤ a.m.natAbs * 2 ^ (p + 2 + bit_length b.m.natAbs) :=
    calc b.m.natAbs ≤ 2 ^ (p + 2 + bit_length b.m.natAbs) := by omega
      _ = 1 * 2 ^ (p + 2 + bit_length b.m.natAbs) := (Nat.one_mul _).symm
      _ ≤ a.m.natAbs * 2 ^ (p + 2 + bit_length b.m.natAbs) := Nat.mul_le_mul_right _ han
  have hq : 0 < a.m.natAbs * 2 ^ (p + 2 + bit_length b.m.natAbs) / b.m.natAbs :=
    Nat.div_pos hn (by omega)
  have hr := round_nat_ne_zero p
    (2 * (a.m.natAbs * 2 ^ (p + 2 + bit_length b.m.natAbs) / b.m.natAbs)
      + (if a.m.natAbs * 2 ^ (p + 2 + bit_length b.m.natAbs) % b.m.natAbs = 0 then 0 else 1))
    (a.e - b.e - ((p + 2 + bit_length b.m.natAbs : Nat) : Int) - 1) hp (by omega)
  simp only []
  split
  · intro h
    exact hr (by omega)
  · exact hr

/-- The `float` statement `sum += 0/d` with a non-zero divisor. -/
theorem add_assign_zero_quotient (p : Nat) (s : Int) (d : Flt) (hd : d.m ≠ 0)
    (hlo : -2 ^ p < s) (hhi : s < 2 ^ p) (hlo31 : -2 ^ 31 ≤ s) (hhi31 : s < 2 ^ 31) :
    add_assign p s (fdiv p { m := 0, e := 0 } d) = some s := by
  rw [fdiv_zero p d hd]
  exact add_assign_zero p s hlo hhi hlo31 hhi31

/-- The `double` statement `sum += 0/(v/k)` with non-zero `v` and `k`. -/
theorem add_assign_zero_quotient_div (s : Int) (v k : Flt) (hv : v.m ≠ 0) (hk : k.m ≠ 0)
    (hlo31 : -2 ^ 31 ≤ s) (hhi31 : s < 2 ^ 31) :
    add_assign 53 s ((fdiv 53 v k).bind (fdiv 53 { m := 0, e := 0 })) = some s := by
  obtain ⟨d, hd, hd0⟩ := fdiv_ne_zero 53 v k (by decide) hv hk
  rw [hd, Option.some_bind]
  exact add_assign_zero_quotient 53 s d hd0 (by omega) (by omega) hlo31 hhi31

/-- The arithmetic above on known IEEE 754 results: 16777217 is halfway between two
`float` values and goes to the even one, 16777219 goes up to 16777220, `1/3` is
`0x3eaaaaab` as a `float` and `0x3fd5555555555555` as a `double`, and the `float` sum
`16777216 + 1.5` is 16777218. -/
theorem float_rounding_examples :
    of_int 24 16777217 = { m := 8388608, e := 1 } ∧
    of_int 24 16777219 = { m := 8388610, e := 1 } ∧
    of_int 24 (-16777219) = { m := -8388610, e := 1 } ∧
    fdiv 24 (of_int 24 1) (of_int 24 3) = some { m := 11184811, e := -25 } ∧
    fdiv 53 (of_int 53 1) (of_int 53 3) = some { m := 6004799503160661, e := -54 } ∧
    fdiv 24 (of_int 24 1) (of_int 24 0) = none ∧
    add_assign 24 16777216 (fdiv 24 (of_int 24 3) (of_int 24 2)) = some 16777218 ∧
    add_assign 24 2147483647 (some { m := 0, e := 0 }) = none ∧
    add_assign 53 2147483647 (some { m := 0, e := 0 }) = some 2147483647 := by
  decide

/-- C12, as the code has it: in a call of `update_avg_vector_len` with a valid and ready
vector result and a SEW field (bits [5:3] of vtype) other than 0, 1, 2,
`sum_vec_lengths` is increased by `vl` (wrapping in 32 bits) before the SEW field is
looked at, so it keeps its value only when `vl` is 0 modulo `2^32`; the SEW switch adds
no byte count to `sum_vec_lengths_bytes` and leaves the current byte length at 0, and
`sum_vec_lengths_bytes` has the same value after the call when the LMUL field is 1, or
when `vlen_b` is not zero and the accumulator is below `2^24` in magnitude (so that the
conversions of the LMUL switch to `float` and back are exact). -/
theorem unsupported_sew_update (a : VecAcc) (top : Top)
    (hvalid : top.vcore_result_valid = true) (hready : top.vcore_result_ready = true)
    (hsew : 2 < top.csr_vtype_o / 8 % 8)
    (hbytes : top.csr_vtype_o % 8 = 1 ∨
      (top.csr_vlen_b_o ≠ 0 ∧ -2 ^ 24 < a.sum_vec_lengths_bytes
        ∧ a.sum_vec_lengths_bytes < 2 ^ 24)) :
    update_avg_vector_len a top
      = some { sum_vec_lengths := toInt32 (ofInt32 a.sum_vec_lengths + top.csr_vl_o),
               sum_vec_lengths_bytes := a.sum_vec_lengths_bytes } ∧
    (-2 ^ 31 ≤ a.sum_vec_lengths → a.sum_vec_lengths < 2 ^ 31 →
      (toInt32 (ofInt32 a.sum_vec_lengths + top.csr_vl_o) = a.sum_vec_lengths
        ↔ u32 top.csr_vl_o = 0)) := by
  refine ⟨?_, toInt32_add_eq_iff _ _⟩
  unfold update_avg_vector_len
  rw [hvalid, hready]
  simp only [Bool.and_self, if_true]
  obtain ⟨k, hk⟩ : ∃ k, top.csr_vtype_o / 8 % 8 = k + 3 :=
    ⟨top.csr_vtype_o / 8 % 8 - 3, by omega⟩
  rw [hk]
  rcases hbytes with h1 | ⟨hv, hlo, hhi⟩
  · rw [h1]
    rfl
  · have hcur : of_int 24 0 = { m := 0, e := 0 } := rfl
    have hvlen : (of_int 24 (top.csr_vlen_b_o : Int)).m ≠ 0 :=
      round_int_ne_zero 24 _ 0 (by decide) (by omega)
    have hx4 : (fmul 24 (of_int 24 (top.csr_vlen_b_o : Int)) (of_int 24 4)).m ≠ 0 :=
      round_int_ne_zero 24 _ _ (by decide) (Int.mul_ne_zero hvlen (by decide))
    have hx8 : (fmul 24 (of_int 24 (top.csr_vlen_b_o : Int)) (of_int 24 8)).m ≠ 0 :=
      round_int_ne_zero 24 _ _ (by decide) (Int.mul_ne_zero hvlen (by decide))
    have h32 := fun d hd => add_assign_zero_quotient 24 a.sum_vec_lengths_bytes d hd hlo hhi
      (by omega) (by omega)
    have h64 := fun k hk => add_assign_zero_quotient_div a.sum_vec_lengths_bytes
      (of_int 24 (top.csr_vlen_b_o : Int)) k hvlen hk (by omega) (by omega)
    have h2 : (of_int 53 2).m ≠ 0 := by decide
    have h4 : (of_int 53 4).m ≠ 0 := by decide
    have h8 : (of_int 53 8).m ≠ 0 := by decide
    have hlt : top.csr_vtype_o % 8 < 8 := Nat.mod_lt _ (by decide)
    generalize top.csr_vtype_o % 8 = l at hlt
    match l, hlt with
    | 0, _ => simp only [hcur, h32 _ hvlen, Option.map_some']
    | 1, _ => rfl
    | 2, _ => simp only [hcur, h32 _ hx4, Option.map_some']
    | 3, _ => simp only [hcur, h32 _ hvlen, Option.map_some']
    | 4, _ => simp only [hcur, h32 _ hx8, Option.map_some']
    | 5, _ => simp only [hcur, h32 _ hvlen, h64 _ h8, Option.some_bind, Option.map_some']
    | 6, _ => simp only [hcur, h32 _ hvlen, h64 _ h8, h64 _ h4, Option.some_bind,
        Option.map_some']
    | 7, _ => simp only [hcur, h32 _ hvlen, h64 _ h8, h64 _ h4, h64 _ h2, Option.some_bind,
        Option.map_some']

theorem unsupported_sew_update_witness :
    update_avg_vector_len { sum_vec_lengths := 3, sum_vec_lengths_bytes := 12 }
        { vcore_result_valid := true, vcore_result_ready := true, csr_vl_o := 5,
          csr_vtype_o := 0x1f, csr_vlen_b_o := 16 }
      = some { sum_vec_lengths := toInt32 (ofInt32 3 + 5), sum_vec_lengths_bytes := 12 } ∧
    (-2 ^ 31 ≤ (3 : Int) → (3 : Int) < 2 ^ 31 →
      (toInt32 (ofInt32 3 + 5) = 3 ↔ u32 5 = 0)) :=
  unsupported_sew_update { sum_vec_lengths := 3, sum_vec_lengths_bytes := 12 }
    { vcore_result_valid := true, vcore_result_ready := true, csr_vl_o := 5,
      csr_vtype_o := 0x1f, csr_vlen_b_o := 16 }
    rfl rfl (by decide) (Or.inr ⟨by decide, by decide, by decide⟩)

/-- C12: the claim fails on the code, for both accumulators. With `vl = 5` and
`vtype = 0x19` (SEW field 3, LMUL field 1) `sum_vec_lengths` goes from 0 to 5. With
`vl = 0`, `vtype = 0x18` (SEW field 3, LMUL field 0) and `vlen_b = 16`,
`sum_vec_lengths_bytes` goes from 16777217 to 16777216: the LMUL switch adds the `float`
quotient `0/16` to it, and 16777217 is not a `float`. -/
theorem unsupported_sew_counterexample :
    0x19 / 8 % 8 = 3 ∧
    update_avg_vector_len { sum_vec_lengths := 0, sum_vec_lengths_bytes := 0 }
        { vcore_result_valid := true, vcore_result_ready := true, csr_vl_o := 5,
          csr_vtype_o := 0x19, csr_vlen_b_o := 16 }
      = some { sum_vec_lengths := 5, sum_vec_lengths_bytes := 0 } ∧
    0x18 / 8 % 8 = 3 ∧
    update_avg_vector_len { sum_vec_lengths := 0, sum_vec_lengths_bytes := 16777217 }
        { vcore_result_valid := true, vcore_result_ready := true, csr_vl_o := 0,
          csr_vtype_o := 0x18, csr_vlen_b_o := 16 }
      = some { sum_vec_lengths := 0, sum_vec_lengths_bytes := 16777216 } := by
  decide

/-! ## One call of `update_mem_load` for every latency of the `uint32_t` range -/

theorem forUp_fail {σ : Type} (body : Nat → σ → Option σ) (n : Nat) :
    ∀ (i0 k : Nat), k < n → (∀ s, body (i0 + k) s = none) → ∀ s, forUp body n i0 s = none := by
  induction n with
  | zero => intro i0 k hk; omega
  | succ n ih =>
    intro i0 k hk hfail s
    cases hb : body i0 s with
    | none => simp [forUp, hb]
    | some s1 =>
      have hk0 : k ≠ 0 := by
        intro h0
        subst h0
        rw [Nat.add_zero, ] at hfail
        rw [hfail s] at hb
        cases hb
      simp only [forUp, hb]
      apply ih (i0 + 1) (k - 1) (by omega)
      intro s2
      rw [← hfail s2]
      congr 1
      omega

theorem new_entry_length (address : Nat) (req_valid : Bool) (mem_w mem_size : Nat)
    (mem : List Byte) : (new_entry address req_valid mem_w mem_size mem).length = mem_w / 8 := by
  unfold new_entry
  split
  · exact fetched_length _ _ _
  · simp

theorem last_index_long (L : Nat) (hL31 : 2 ^ 31 < L) (hL32 : L < 2 ^ 32) :
    u32 (L + 2 ^ 32 - 1) = L - 1 ∧ (toInt32 (L - 1)).toNat = 0 := by
  constructor
  · unfold u32; omega
  · unfold toInt32
    have h1 : (L - 1) % 2 ^ 32 = L - 1 := Nat.mod_eq_of_lt (by omega)
    rw [h1, if_neg (by omega)]
    omega

/-- With a latency above `2^31` the `int` counter of the shift loop starts negative and
the loop body never runs: the call delivers the last entry and overwrites position 0. -/
theorem update_mem_load_long (address : Nat) (req_valid : Bool)
    (mem_w mem_lat mem_size : Nat) (st : LoadPort) (mem : List Byte)
    (hL31 : 2 ^ 31 < mem_lat) (hL32 : mem_lat < 2 ^ 32)
    (hwf : st.WellFormed mem_lat (mem_w / 8))
    (hsafe : ReadInBounds address req_valid mem_w mem_size mem) :
    update_mem_load address req_valid mem_w mem_lat mem_size st mem
      = some { model_data_i := (st.queue_data.getLast?.getD []).take (mem_w / 8)
                 ++ st.model_data_i.drop (mem_w / 8)
               model_valid_i := st.queue_valid.getLast?.getD false
               model_err_i := st.queue_err.getLast?.getD false
               queue_data :=
                 st.queue_data.set 0 (new_entry address req_valid mem_w mem_size mem)
               queue_valid := st.queue_valid.set 0 req_valid
               queue_err :=
                 st.queue_err.set 0 (!(decide (address < mem_size) && req_valid)) } := by
  obtain ⟨hqd, hrows, hqv, hqe, hout⟩ := hwf
  obtain ⟨hlast, hint⟩ := last_index_long mem_lat hL31 hL32
  have hld : mem_lat - 1 < st.queue_data.length := by omega
  have hlv : mem_lat - 1 < st.queue_valid.length := by omega
  have hle : mem_lat - 1 < st.queue_err.length := by omega
  have hrow : st.queue_data[mem_lat - 1]? = some st.queue_data[mem_lat - 1] :=
    List.getElem?_eq_getElem hld
  have hv : st.queue_valid[mem_lat - 1]? = some st.queue_valid[mem_lat - 1] :=
    List.getElem?_eq_getElem hlv
  have he : st.queue_err[mem_lat - 1]? = some st.queue_err[mem_lat - 1] :=
    List.getElem?_eq_getElem hle
  have hdel := deliver_loop_eq st.queue_data st.model_data_i (mem_lat - 1) (mem_w / 8)
    _ hrow (by rw [hrows _ (List.getElem_mem hld)]) hout
  have hq0 : 0 < st.queue_data.length := by omega
  have hqv0 : 0 < st.queue_valid.length := by omega
  have hqe0 : 0 < st.queue_err.length := by omega
  have hzero := zero_loop_eq (mem_w / 8) st.queue_data st.queue_data[0]
    (List.getElem?_eq_getElem hq0) (hrows _ (List.getElem_mem hq0))
  have hgd : st.queue_data.getLast?.getD [] = st.queue_data[mem_lat - 1] :=
    getLast?_getD_eq _ _ _ (by rw [hqd]; exact hrow)
  have hgv : st.queue_valid.getLast?.getD false = st.queue_valid[mem_lat - 1] :=
    getLast?_getD_eq _ _ _ (by rw [hqv]; exact hv)
  have hge : st.queue_err.getLast?.getD false = st.queue_err[mem_lat - 1] :=
    getLast?_getD_eq _ _ _ (by rw [hqe]; exact he)
  unfold update_mem_load new_entry
  rw [hlast]
  dsimp only
  rw [hint, hdel, hv, he]
  dsimp only [forDown]
  rw [hzero]
  dsimp only [wr]
  rw [if_pos hqv0, if_pos hqe0, hgd, hgv, hge]
  by_cases hacc : (decide (address < mem_size) && req_valid) = true
  · have hboth : address < mem_size ∧ req_valid = true := by simpa using hacc
    have hfetch := fetch_loop_eq address (mem_w / 8) mem
      (st.queue_data.set 0 (List.replicate (mem_w / 8) 0))
      (by rw [List.getElem?_set]; simp [hq0]) (hsafe hboth.1 hboth.2)
    rw [if_pos hacc, if_pos hacc, hfetch, List.set_set, hacc]
  · have hacc2 : (decide (address < mem_size) && req_valid) = false := by
      simpa using hacc
    rw [if_neg hacc, if_neg hacc, hacc2]

/-- For every latency `1 ≤ mem_lat < 2^32`, on well-formed buffers and with every store
byte of an accepted request inside the store, `update_mem_load` returns; the buffers stay
well-formed, the outputs are the last entry and position 0 holds the new entry. -/
theorem update_mem_load_total (address : Nat) (req_valid : Bool)
    (mem_w mem_lat mem_size : Nat) (st : LoadPort) (mem : List Byte)
    (hL : 1 ≤ mem_lat) (hL32 : mem_lat < 2 ^ 32)
    (hwf : st.WellFormed mem_lat (mem_w / 8))
    (hsafe : ReadInBounds address req_valid mem_w mem_size mem) :
    ∃ s, update_mem_load address req_valid mem_w mem_lat mem_size st mem = some s ∧
      s.WellFormed mem_lat (mem_w / 8) ∧
      s.model_data_i = (st.queue_data.getLast?.getD []).take (mem_w / 8)
        ++ st.model_data_i.drop (mem_w / 8) ∧
      s.model_valid_i = st.queue_valid.getLast?.getD false ∧
      s.model_err_i = st.queue_err.getLast?.getD false ∧
      s.queue_data[0]? = some (new_entry address req_valid mem_w mem_size mem) ∧
      s.queue_valid[0]? = some req_valid ∧
      s.queue_err[0]? = some (!(decide (address < mem_size) && req_valid)) := by
  by_cases hL31 : mem_lat ≤ 2 ^ 31
  · refine ⟨_, update_mem_load_eq address req_valid mem_w mem_lat mem_size st mem hL hL31
      hwf hsafe, load_next_wellFormed address req_valid mem_w mem_size mem_lat st mem hL hwf,
      rfl, rfl, rfl, ?_, ?_, ?_⟩ <;> simp [load_next]
  · refine ⟨_, update_mem_load_long address req_valid mem_w mem_lat mem_size st mem
      (by omega) hL32 hwf hsafe, ?_, rfl, rfl, rfl, ?_, ?_, ?_⟩
    · have hwf1 := load_next_wellFormed address req_valid mem_w mem_size mem_lat st mem hL hwf
      obtain ⟨hqd, hrows, hqv, hqe, hout⟩ := hwf
      refine ⟨by simp [hqd], ?_, by simp [hqv], by simp [hqe], hwf1.2.2.2.2⟩
      intro row hrow
      rcases List.mem_or_eq_of_mem_set hrow with h | h
      · exact hrows row h
      · rw [h]
        exact new_entry_length _ _ _ _ _
    · obtain ⟨hqd, _⟩ := hwf
      simp only [List.getElem?_set, if_true]
      rw [if_pos (by omega)]
    · obtain ⟨_, _, hqv, _⟩ := hwf
      simp only [List.getElem?_set, if_true]
      rw [if_pos (by omega)]
    · obtain ⟨_, _, _, hqe, _⟩ := hwf
      simp only [List.getElem?_set, if_true]
      rw [if_pos (by omega)]

theorem run_load_wellFormed (mem_w mem_lat : Nat) (hL : 1 ≤ mem_lat) (hL32 : mem_lat < 2 ^ 32) :
    ∀ (rs : List LoadReq) (st : LoadPort), st.WellFormed mem_lat (mem_w / 8) →
      (∀ r ∈ rs, r.InBounds mem_w) →
      ∃ s, run_load mem_w mem_lat st rs = some s ∧ s.WellFormed mem_lat (mem_w / 8) := by
  intro rs
  induction rs with
  | nil => intro st hwf _; exact ⟨st, rfl, hwf⟩
  | cons r rs ih =>
    intro st hwf hin
    obtain ⟨s1, h1, hwf1, _⟩ := update_mem_load_total r.address r.req_valid mem_w mem_lat
      r.mem_size st r.mem hL hL32 hwf (hin r (List.mem_cons_self _ _))
    obtain ⟨s2, h2, hwf2⟩ := ih s1 hwf1 (fun x hx => hin x (List.mem_cons_of_mem _ hx))
    exact ⟨s2, by simp [run_load, h1, h2], hwf2⟩

/-- C14: pipeline shape invariant. For every latency `L ≥ 1` (a `uint32_t`) and every
width, if the data, valid and error queues each hold exactly `L` entries and every data
entry exactly `mem_w/8` bytes (the output buffer holding `mem_w/8` bytes and an accepted
request reading inside the store), then `update_mem_load` returns and the same holds after
the call, for every request; hence also after any number of consecutive calls. -/
theorem pipeline_shape (address : Nat) (req_valid : Bool)
    (mem_w mem_lat mem_size : Nat) (st : LoadPort) (mem : List Byte)
    (hL : 1 ≤ mem_lat) (hL32 : mem_lat < 2 ^ 32)
    (hwf : st.WellFormed mem_lat (mem_w / 8))
    (hsafe : ReadInBounds address req_valid mem_w mem_size mem) :
    (∃ s, update_mem_load address req_valid mem_w mem_lat mem_size st mem = some s ∧
      s.queue_data.length = mem_lat ∧ (∀ row ∈ s.queue_data, row.length = mem_w / 8) ∧
      s.queue_valid.length = mem_lat ∧ s.queue_err.length = mem_lat) ∧
    ∀ rs : List LoadReq, (∀ r ∈ rs, r.InBounds mem_w) →
      ∃ s, run_load mem_w mem_lat st rs = some s ∧
        s.queue_data.length = mem_lat ∧ (∀ row ∈ s.queue_data, row.length = mem_w / 8) ∧
        s.queue_valid.length = mem_lat ∧ s.queue_err.length = mem_lat := by
  constructor
  · obtain ⟨s, hs, hwf1, _⟩ := update_mem_load_total address req_valid mem_w mem_lat
      mem_size st mem hL hL32 hwf hsafe
    exact ⟨s, hs, hwf1.1, hwf1.2.1, hwf1.2.2.1, hwf1.2.2.2.1⟩
  · intro rs hrs
    obtain ⟨s, hs, hwf1⟩ := run_load_wellFormed mem_w mem_lat hL hL32 rs st hwf hrs
    exact ⟨s, hs, hwf1.1, hwf1.2.1, hwf1.2.2.1, hwf1.2.2.2.1⟩

theorem pipeline_shape_witness :
    (∃ s, update_mem_load 1 true 16 2 4
        { model_data_i := [0, 0], model_valid_i := false, model_err_i := false,
          queue_data := [[1, 2], [3, 4]], queue_valid := [true, false],
          queue_err := [false, true] } [9, 8, 7, 6] = some s ∧
      s.queue_data.length = 2 ∧ (∀ row ∈ s.queue_data, row.length = 16 / 8) ∧
      s.queue_valid.length = 2 ∧ s.queue_err.length = 2) ∧
    ∀ rs : List LoadReq, (∀ r ∈ rs, r.InBounds 16) →
      ∃ s, run_load 16 2
          { model_data_i := [0, 0], model_valid_i := false, model_err_i := false,
            queue_data := [[1, 2], [3, 4]], queue_valid := [true, false],
            queue_err := [false, true] } rs = some s ∧
        s.queue_data.length = 2 ∧ (∀ row ∈ s.queue_data, row.length = 16 / 8) ∧
        s.queue_valid.length = 2 ∧ s.queue_err.length = 2 :=
  pipeline_shape 1 true 16 2 4
    { model_data_i := [0, 0], model_valid_i := false, model_err_i := false,
      queue_data := [[1, 2], [3, 4]], queue_valid := [true, false],
      queue_err := [false, true] } [9, 8, 7, 6] (by decide) (by decide) (by decide) (by decide)

/-- C15: deliver step and same-cycle ordering. For every latency `L ≥ 1` (a `uint32_t`),
on queues of `L` entries of `mem_w/8` bytes, the data, valid and error outputs of a call of
`update_mem_load` are the entry that was at position `L-1` before the call; two calls on
the same buffers with different requests and different stores (for instance the store
before and after a write of the same cycle) deliver identical outputs. -/
theorem deliver_step (mem_w mem_lat : Nat) (st : LoadPort)
    (address1 address2 : Nat) (req_valid1 req_valid2 : Bool) (mem_size1 mem_size2 : Nat)
    (mem1 mem2 : List Byte)
    (hL : 1 ≤ mem_lat) (hL32 : mem_lat < 2 ^ 32)
    (hwf : st.WellFormed mem_lat (mem_w / 8))
    (hsafe1 : ReadInBounds address1 req_valid1 mem_w mem_size1 mem1)
    (hsafe2 : ReadInBounds address2 req_valid2 mem_w mem_size2 mem2) :
    ∃ s1 s2 d v e,
      update_mem_load address1 req_valid1 mem_w mem_lat mem_size1 st mem1 = some s1 ∧
      update_mem_load address2 req_valid2 mem_w mem_lat mem_size2 st mem2 = some s2 ∧
      st.queue_data[mem_lat - 1]? = some d ∧ st.queue_valid[mem_lat - 1]? = some v ∧
      st.queue_err[mem_lat - 1]? = some e ∧
      s1.model_data_i.take (mem_w / 8) = d ∧ s1.model_valid_i = v ∧ s1.model_err_i = e ∧
      s1.model_data_i.drop (mem_w / 8) = st.model_data_i.drop (mem_w / 8) ∧
      s2.model_data_i = s1.model_data_i ∧ s2.model_valid_i = s1.model_valid_i ∧
      s2.model_err_i = s1.model_err_i := by
  obtain ⟨s1, h1, _, hd1, hv1, he1, _⟩ := update_mem_load_total address1 req_valid1 mem_w
    mem_lat mem_size1 st mem1 hL hL32 hwf hsafe1
  obtain ⟨s2, h2, _, hd2, hv2, he2, _⟩ := update_mem_load_total address2 req_valid2 mem_w
    mem_lat mem_size2 st mem2 hL hL32 hwf hsafe2
  obtain ⟨hqd, hrows, hqv, hqe, hout⟩ := hwf
  have hld : mem_lat - 1 < st.queue_data.length := by omega
  have hlv : mem_lat - 1 < st.queue_valid.length := by omega
  have hle : mem_lat - 1 < st.queue_err.length := by omega
  have hgd : st.queue_data.getLast?.getD [] = st.queue_data[mem_lat - 1] :=
    getLast?_getD_eq _ _ _ (by rw [hqd]; exact List.getElem?_eq_getElem hld)
  have hgv : st.queue_valid.getLast?.getD false = st.queue_valid[mem_lat - 1] :=
    getLast?_getD_eq _ _ _ (by rw [hqv]; exact List.getElem?_eq_getElem hlv)
  have hge : st.queue_err.getLast?.getD false = st.queue_err[mem_lat - 1] :=
    getLast?_getD_eq _ _ _ (by rw [hqe]; exact List.getElem?_eq_getElem hle)
  have hlen : st.queue_data[mem_lat - 1].length = mem_w / 8 :=
    hrows _ (List.getElem_mem hld)
  have htk : st.queue_data[mem_lat - 1].take (mem_w / 8) = st.queue_data[mem_lat - 1] :=
    List.take_of_length_le (by omega)
  refine ⟨s1, s2, st.queue_data[mem_lat - 1], st.queue_valid[mem_lat - 1],
    st.queue_err[mem_lat - 1], h1, h2, List.getElem?_eq_getElem hld,
    List.getElem?_eq_getElem hlv, List.getElem?_eq_getElem hle, ?_, ?_, ?_, ?_, ?_, ?_, ?_⟩
  · rw [hd1, hgd, htk]
    exact List.take_left' hlen
  · rw [hv1, hgv]
  · rw [he1, hge]
  · rw [hd1, hgd, htk]
    exact List.drop_left' hlen
  · rw [hd2, hd1]
  · rw [hv2, hv1]
  · rw [he2, he1]

theorem deliver_step_witness :
    ∃ s1 s2 d v e,
      update_mem_load 1 true 16 2 4
        { model_data_i := [0, 0], model_valid_i := false, model_err_i := false,
          queue_data := [[1, 2], [3, 4]], queue_valid := [true, false],
          queue_err := [false, true] } [9, 8, 7, 6] = some s1 ∧
      update_mem_load 2 false 16 2 3
        { model_data_i := [0, 0], model_valid_i := false, model_err_i := false,
          queue_data := [[1, 2], [3, 4]], queue_valid := [true, false],
          queue_err := [false, true] } [5, 5, 5] = some s2 ∧
      ([[1, 2], [3, 4]] : List (List Byte))[2 - 1]? = some d ∧
      [true, false][2 - 1]? = some v ∧ [false, true][2 - 1]? = some e ∧
      s1.model_data_i.take (16 / 8) = d ∧ s1.model_valid_i = v ∧ s1.model_err_i = e ∧
      s1.model_data_i.drop (16 / 8) = ([0, 0] : List Byte).drop (16 / 8) ∧
      s2.model_data_i = s1.model_data_i ∧ s2.model_valid_i = s1.model_valid_i ∧
      s2.model_err_i = s1.model_err_i :=
  deliver_step 16 2
    { model_data_i := [0, 0], model_valid_i := false, model_err_i := false,
      queue_data := [[1, 2], [3, 4]], queue_valid := [true, false],
      queue_err := [false, true] } 1 2 true false 4 3 [9, 8, 7, 6] [5, 5, 5]
    (by decide) (by decide) (by decide) (by decide) (by decide)

/-- C16: accept step. For every latency `L ≥ 1` (a `uint32_t`) and every request, after a
call of `update_mem_load` on queues of `L` entries of `mem_w/8` bytes, position 0 holds
`valid = req_valid`, `error = not (req_valid and address < mem_size)` and `mem_w/8` data
bytes: for an accepted request the store bytes `mem[address+i]` (index in `uint32_t`),
which are the `mem_w/8` store bytes starting at `address` when `address + mem_w/8` does
not pass `2^32`; for a request that is not accepted, `mem_w/8` zero bytes. -/
theorem accept_step (address : Nat) (req_valid : Bool)
    (mem_w mem_lat mem_size : Nat) (st : LoadPort) (mem : List Byte)
    (hL : 1 ≤ mem_lat) (hL32 : mem_lat < 2 ^ 32)
    (hwf : st.WellFormed mem_lat (mem_w / 8))
    (hsafe : ReadInBounds address req_valid mem_w mem_size mem) :
    ∃ s d, update_mem_load address req_valid mem_w mem_lat mem_size st mem = some s ∧
      s.queue_valid[0]? = some req_valid ∧
      s.queue_err[0]? = some (!(req_valid && decide (address < mem_size))) ∧
      s.queue_data[0]? = some d ∧ d.length = mem_w / 8 ∧
      (req_valid = true → address < mem_size →
        (∀ i, i < mem_w / 8 → d[i]? = mem[u32 (address + i)]?) ∧
        (address + mem_w / 8 ≤ 2 ^ 32 → d = (mem.drop address).take (mem_w / 8))) ∧
      (¬ (req_valid = true ∧ address < mem_size) → d = List.replicate (mem_w / 8) 0) := by
  obtain ⟨s, hs, _, _, _, _, hd, hv, he⟩ := update_mem_load_total address req_valid mem_w
    mem_lat mem_size st mem hL hL32 hwf hsafe
  refine ⟨s, new_entry address req_valid mem_w mem_size mem, hs, hv, ?_, hd,
    new_entry_length _ _ _ _ _, ?_, ?_⟩
  · rw [he, Bool.and_comm]
  · intro hreq hacc
    have hnew : new_entry address req_valid mem_w mem_size mem
        = fetched address (mem_w / 8) mem := by
      unfold new_entry
      rw [if_pos (by simp [hacc, hreq])]
    rw [hnew]
    constructor
    · intro i hi
      rw [fetched_getElem? address _ mem i hi, List.getD_eq_getElem?_getD,
        List.getElem?_eq_getElem (hsafe hacc hreq i hi)]
      rfl
    · intro h32
      by_cases hn : mem_w / 8 = 0
      · rw [hn]
        rfl
      · have hlast := hsafe hacc hreq (mem_w / 8 - 1) (by omega)
        rw [u32_of_lt _ (by omega)] at hlast
        exact fetched_eq_take address (mem_w / 8) mem (by omega) h32
  · intro hno
    unfold new_entry
    rw [if_neg]
    intro hyes
    have : address < mem_size ∧ req_valid = true := by simpa using hyes
    exact hno ⟨this.2, this.1⟩

theorem accept_step_witness :
    ∃ s d, update_mem_load 1 true 16 2 4
        { model_data_i := [0, 0], model_valid_i := false, model_err_i := false,
          queue_data := [[1, 2], [3, 4]], queue_valid := [true, false],
          queue_err := [false, true] } [9, 8, 7, 6] = some s ∧
      s.queue_valid[0]? = some true ∧
      s.queue_err[0]? = some (!(true && decide (1 < 4))) ∧
      s.queue_data[0]? = some d ∧ d.length = 16 / 8 ∧
      (true = true → 1 < 4 →
        (∀ i, i < 16 / 8 → d[i]? = ([9, 8, 7, 6] : List Byte)[u32 (1 + i)]?) ∧
        (1 + 16 / 8 ≤ 2 ^ 32 → d = (([9, 8, 7, 6] : List Byte).drop 1).take (16 / 8))) ∧
      (¬ (true = true ∧ 1 < 4) → d = List.replicate (16 / 8) 0) :=
  accept_step 1 true 16 2 4
    { model_data_i := [0, 0], model_valid_i := false, model_err_i := false,
      queue_data := [[1, 2], [3, 4]], queue_valid := [true, false],
      queue_err := [false, true] } [9, 8, 7, 6] (by decide) (by decide) (by decide) (by decide)

/-- C17: shift step. For every latency `L ≥ 1` within the range of the `int` loop counter
(`L ≤ 2^31`) and every request, after a call of `update_mem_load` on queues of `L` entries
of `mem_w/8` bytes the entry (data, valid, error) at each position `i` with `1 ≤ i < L` is
the entry that was at position `i-1` before the call. -/
theorem shift_step (address : Nat) (req_valid : Bool)
    (mem_w mem_lat mem_size : Nat) (st : LoadPort) (mem : List Byte)
    (hL : 1 ≤ mem_lat) (hL31 : mem_lat ≤ 2 ^ 31)
    (hwf : st.WellFormed mem_lat (mem_w / 8))
    (hsafe : ReadInBounds address req_valid mem_w mem_size mem) :
    ∃ s, update_mem_load address req_valid mem_w mem_lat mem_size st mem = some s ∧
      ∀ i, 1 ≤ i → i < mem_lat →
        ∃ d v e, st.queue_data[i - 1]? = some d ∧ st.queue_valid[i - 1]? = some v ∧
          st.queue_err[i - 1]? = some e ∧
          s.queue_data[i]? = some d ∧ s.queue_valid[i]? = some v ∧
          s.queue_err[i]? = some e := by
  refine ⟨_, update_mem_load_eq address req_valid mem_w mem_lat mem_size st mem hL hL31
    hwf hsafe, ?_⟩
  obtain ⟨hqd, hrows, hqv, hqe, hout⟩ := hwf
  intro i hi1 hiL
  obtain ⟨j, rfl⟩ : ∃ j, i = j + 1 := ⟨i - 1, by omega⟩
  have hjd : j < st.queue_data.length := by omega
  have hjv : j < st.queue_valid.length := by omega
  have hje : j < st.queue_err.length := by omega
  refine ⟨st.queue_data[j], st.queue_valid[j], st.queue_err[j],
    List.getElem?_eq_getElem hjd, List.getElem?_eq_getElem hjv, List.getElem?_eq_getElem hje,
    ?_, ?_, ?_⟩
  · show (_ :: st.queue_data.dropLast)[j + 1]? = _
    rw [dropLast_cons_getElem? _ _ _ (by omega), List.getElem?_eq_getElem hjd]
  · show (_ :: st.queue_valid.dropLast)[j + 1]? = _
    rw [dropLast_cons_getElem? _ _ _ (by omega), List.getElem?_eq_getElem hjv]
  · show (_ :: st.queue_err.dropLast)[j + 1]? = _
    rw [dropLast_cons_getElem? _ _ _ (by omega), List.getElem?_eq_getElem hje]

theorem shift_step_witness :
    ∃ s, update_mem_load 1 true 16 3 4
        { model_data_i := [0, 0], model_valid_i := false, model_err_i := false,
          queue_data := [[1, 2], [3, 4], [5, 6]], queue_valid := [true, false, true],
          queue_err := [false, true, false] } [9, 8, 7, 6] = some s ∧
      ∀ i, 1 ≤ i → i < 3 →
        ∃ d v e, ([[1, 2], [3, 4], [5, 6]] : List (List Byte))[i - 1]? = some d ∧
          [true, false, true][i - 1]? = some v ∧ [false, true, false][i - 1]? = some e ∧
          s.queue_data[i]? = some d ∧ s.queue_valid[i]? = some v ∧
          s.queue_err[i]? = some e :=
  shift_step 1 true 16 3 4
    { model_data_i := [0, 0], model_valid_i := false, model_err_i := false,
      queue_data := [[1, 2], [3, 4], [5, 6]], queue_valid := [true, false, true],
      queue_err := [false, true, false] } [9, 8, 7, 6]
    (by decide) (by decide) (by decide) (by decide)

/-- C20: bounds safety of the read path. In the embedding an access outside a buffer makes
the call return nothing. Under the preconditions `L ≥ 1` (a `uint32_t`), queues of exactly
`L` entries of `mem_w/8` bytes, an output buffer of `mem_w/8` bytes, a store of `mem_size`
bytes and `address + mem_w/8 ≤ mem_size` whenever the request is accepted, the index
`mem_lat - 1` does not wrap and lies inside the queues and `update_mem_load` returns, so
every access it performs is within bounds. Without the last precondition, every accepted
request with `address < mem_size < address + mem_w/8` makes the copy loop read past the
end of the store: the loop, and with it the call, has no result. -/
theorem read_path_bounds (address : Nat) (req_valid : Bool)
    (mem_w mem_lat mem_size : Nat) (st : LoadPort) (mem : List Byte)
    (hL : 1 ≤ mem_lat) (hL32 : mem_lat < 2 ^ 32)
    (hwf : st.WellFormed mem_lat (mem_w / 8))
    (hmem : mem.length = mem_size) :
    ((req_valid = true → address < mem_size → address + mem_w / 8 ≤ mem_size) →
      u32 (mem_lat + 2 ^ 32 - 1) = mem_lat - 1 ∧ mem_lat - 1 < st.queue_data.length ∧
      mem_lat - 1 < st.queue_valid.length ∧ mem_lat - 1 < st.queue_err.length ∧
      ∃ s, update_mem_load address req_valid mem_w mem_lat mem_size st mem = some s) ∧
    (req_valid = true → address < mem_size → mem_size < address + mem_w / 8 →
      mem_size < 2 ^ 32 →
      (∃ i, i < mem_w / 8 ∧ mem[u32 (address + i)]? = none) ∧
      (∀ qd, forUp (fetch_body address mem) (mem_w / 8) 0 qd = none) ∧
      update_mem_load address req_valid mem_w mem_lat mem_size st mem = none) := by
  constructor
  · intro hpre
    have hsafe : ReadInBounds address req_valid mem_w mem_size mem := by
      intro hacc hreq i hi
      have h1 := hpre hreq hacc
      have h2 := u32_le (address + i)
      omega
    obtain ⟨s, hs, _⟩ := update_mem_load_total address req_valid mem_w mem_lat mem_size st
      mem hL hL32 hwf hsafe
    obtain ⟨hqd, _, hqv, hqe, _⟩ := hwf
    refine ⟨by unfold u32; omega, by omega, by omega, by omega, s, hs⟩
  · intro hreq hacc hover h32
    have hidx : u32 (address + (mem_size - address)) = mem_size := by
      rw [u32_of_lt _ (by omega)]
      omega
    have hnone : mem[u32 (address + (mem_size - address))]? = none := by
      rw [hidx, List.getElem?_eq_none_iff]
      omega
    have hloop : ∀ qd, forUp (fetch_body address mem) (mem_w / 8) 0 qd = none := by
      apply forUp_fail _ _ 0 (mem_size - address) (by omega)
      intro qd
      rw [Nat.zero_add]
      unfold fetch_body
      rw [hnone]
      cases rd2 qd 0 (mem_size - address) <;> rfl
    refine ⟨⟨mem_size - address, by omega, hnone⟩, hloop, ?_⟩
    have hvalid : (decide (address < mem_size) && req_valid) = true := by simp [hacc, hreq]
    have hlast : u32 (mem_lat + 2 ^ 32 - 1) = mem_lat - 1 := by unfold u32; omega
    unfold update_mem_load
    rw [hlast]
    dsimp only
    generalize (toInt32 (mem_lat - 1)).toNat = trips
    rw [hvalid]
    cases forUp (deliver_body st.queue_data (mem_lat - 1)) (mem_w / 8) 0 st.model_data_i with
    | none => rfl
    | some out =>
      cases st.queue_valid[mem_lat - 1]? with
      | none => rfl
      | some v =>
        cases st.queue_err[mem_lat - 1]? with
        | none => rfl
        | some e =>
          cases forDown (shift_body (mem_w / 8)) trips
              { data := st.queue_data, valid := st.queue_valid, err := st.queue_err } with
          | none => rfl
          | some q =>
            dsimp only
            cases forUp zero_body (mem_w / 8) 0 q.data with
            | none => rfl
            | some qd0 =>
              dsimp only
              rw [if_pos rfl, hloop]

theorem read_path_bounds_witness :
    (u32 (2 + 2 ^ 32 - 1) = 2 - 1 ∧ 2 - 1 < ([[1, 2], [3, 4]] : List (List Byte)).length ∧
      2 - 1 < [true, false].length ∧ 2 - 1 < [false, true].length ∧
      ∃ s, update_mem_load 2 true 16 2 4
        { model_data_i := [0, 0], model_valid_i := false, model_err_i := false,
          queue_data := [[1, 2], [3, 4]], queue_valid := [true, false],
          queue_err := [false, true] } [9, 8, 7, 6] = some s) ∧
    ((∃ i, i < 16 / 8 ∧ ([9, 8, 7, 6] : List Byte)[u32 (3 + i)]? = none) ∧
      (∀ qd, forUp (fetch_body 3 [9, 8, 7, 6]) (16 / 8) 0 qd = none) ∧
      update_mem_load 3 true 16 2 4
        { model_data_i := [0, 0], model_valid_i := false, model_err_i := false,
          queue_data := [[1, 2], [3, 4]], queue_valid := [true, false],
          queue_err := [false, true] } [9, 8, 7, 6] = none) :=
  ⟨(read_path_bounds 2 true 16 2 4
      { model_data_i := [0, 0], model_valid_i := false, model_err_i := false,
        queue_data := [[1, 2], [3, 4]], queue_valid := [true, false],
        queue_err := [false, true] } [9, 8, 7, 6]
      (by decide) (by decide) (by decide) rfl).1 (by decide),
   (read_path_bounds 3 true 16 2 4
      { model_data_i := [0, 0], model_valid_i := false, model_err_i := false,
        queue_data := [[1, 2], [3, 4]], queue_valid := [true, false],
        queue_err := [false, true] } [9, 8, 7, 6]
      (by decide) (by decide) (by decide) rfl).2 rfl (by decide) (by decide) (by decide)⟩

/-! ## Writeback-PC pair and the instruction counter -/

theorem incr32_eq_succ (x : Int) (hlo : -2 ^ 31 ≤ x) (hhi : x < 2 ^ 31 - 1) :
    incr32 x = x + 1 := by
  unfold incr32 toInt32 ofInt32
  split <;> omega

theorem toInt32_inj (a b : Nat) (ha : a < 2 ^ 32) (hb : b < 2 ^ 32)
    (h : toInt32 a = toInt32 b) : a = b := by
  unfold toInt32 at h
  split at h <;> split at h <;> omega

theorem update_stats_instr (g : Stats) (top : Top) :
    (update_stats g top).instr = (update_instructions g top).instr ∧
    (update_stats g top).last_WB_PC = (update_instructions g top).last_WB_PC ∧
    (update_stats g top).current_WB_PC = (update_instructions g top).current_WB_PC := by
  unfold update_stats update_vector_count update_instructions update_cycles
  refine ⟨?_, ?_, ?_⟩ <;> (dsimp only; split <;> split <;> rfl)

/-- C21: writeback-PC pair after the statistics update. After every call of
`update_instructions`, and of `update_stats`, `last_WB_PC` equals `current_WB_PC`, which is
the writeback PC of the call read as an `int`, for every writeback PC value. The counter
`instr` (below `INT_MAX`) is incremented by exactly 1 in that call if the new writeback PC
differs from the previous `last_WB_PC`, and is unchanged otherwise; for a `last_WB_PC`
left by an earlier call, the two differ exactly when the two 32-bit writeback PCs do. -/
theorem wb_pc_pair (g : Stats) (top : Top)
    (hlo : -2 ^ 31 ≤ g.instr) (hhi : g.instr < 2 ^ 31 - 1) :
    (update_instructions g top).last_WB_PC = (update_instructions g top).current_WB_PC ∧
    (update_instructions g top).current_WB_PC = toInt32 top.instruction_wb_pc ∧
    (toInt32 top.instruction_wb_pc ≠ g.last_WB_PC →
      (update_instructions g top).instr = g.instr + 1) ∧
    (toInt32 top.instruction_wb_pc = g.last_WB_PC →
      (update_instructions g top).instr = g.instr) ∧
    (update_stats g top).last_WB_PC = (update_stats g top).current_WB_PC ∧
    (update_stats g top).current_WB_PC = toInt32 top.instruction_wb_pc ∧
    (toInt32 top.instruction_wb_pc ≠ g.last_WB_PC →
      (update_stats g top).instr = g.instr + 1) ∧
    (toInt32 top.instruction_wb_pc = g.last_WB_PC →
      (update_stats g top).instr = g.instr) ∧
    (∀ prev : Top, top.instruction_wb_pc < 2 ^ 32 → prev.instruction_wb_pc < 2 ^ 32 →
      (toInt32 top.instruction_wb_pc = (update_instructions g prev).last_WB_PC
        ↔ top.instruction_wb_pc = prev.instruction_wb_pc) ∧
      (toInt32 top.instruction_wb_pc = (update_stats g prev).last_WB_PC
        ↔ top.instruction_wb_pc = prev.instruction_wb_pc)) := by
  obtain ⟨hsi, hsl, hsc⟩ := update_stats_instr g top
  have hpair : (update_instructions g top).last_WB_PC
      = (update_instructions g top).current_WB_PC := by
    rfl
  have hcur : (update_instructions g top).current_WB_PC = toInt32 top.instruction_wb_pc := by
    unfold update_instructions
    dsimp only
    split <;> rfl
  have hne : toInt32 top.instruction_wb_pc ≠ g.last_WB_PC →
      (update_instructions g top).instr = g.instr + 1 := by
    intro h
    unfold update_instructions
    dsimp only
    rw [if_pos h]
    exact incr32_eq_succ _ hlo hhi
  have heq : toInt32 top.instruction_wb_pc = g.last_WB_PC →
      (update_instructions g top).instr = g.instr := by
    intro h
    unfold update_instructions
    dsimp only
    rw [if_neg (fun hn => hn h)]
  have hlast : ∀ prev : Top,
      (update_instructions g prev).last_WB_PC = toInt32 prev.instruction_wb_pc := by
    intro prev
    unfold update_instructions
    dsimp only
    split <;> rfl
  refine ⟨hpair, hcur, hne, heq, ?_, ?_, ?_, ?_, ?_⟩
  · rw [hsl, hsc]; exact hpair
  · rw [hsc]; exact hcur
  · rw [hsi]; exact hne
  · rw [hsi]; exact heq
  · intro prev ht hp
    rw [(update_stats_instr g prev).2.1, hlast prev]
    exact ⟨⟨fun h => toInt32_inj _ _ ht hp h, fun h => by rw [h]⟩,
      ⟨fun h => toInt32_inj _ _ ht hp h, fun h => by rw [h]⟩⟩

theorem wb_pc_pair_witness :
    (update_instructions { last_WB_PC := 0x100, instr := 7 }
        { instruction_wb_pc := 0x104 }).last_WB_PC
      = (update_instructions { last_WB_PC := 0x100, instr := 7 }
          { instruction_wb_pc := 0x104 }).current_WB_PC ∧
    (update_instructions { last_WB_PC := 0x100, instr := 7 }
        { instruction_wb_pc := 0x104 }).current_WB_PC = toInt32 0x104 ∧
    (toInt32 0x104 ≠ 0x100 →
      (update_instructions { last_WB_PC := 0x100, instr := 7 }
        { instruction_wb_pc := 0x104 }).instr = 7 + 1) ∧
    (toInt32 0x104 = 0x100 →
      (update_instructions { last_WB_PC := 0x100, instr := 7 }
        { instruction_wb_pc := 0x104 }).instr = 7) ∧
    (update_stats { last_WB_PC := 0x100, instr := 7 } { instruction_wb_pc := 0x104 }).last_WB_PC
      = (update_stats { last_WB_PC := 0x100, instr := 7 }
          { instruction_wb_pc := 0x104 }).current_WB_PC ∧
    (update_stats { last_WB_PC := 0x100, instr := 7 }
        { instruction_wb_pc := 0x104 }).current_WB_PC = toInt32 0x104 ∧
    (toInt32 0x104 ≠ 0x100 →
      (update_stats { last_WB_PC := 0x100, instr := 7 }
        { instruction_wb_pc := 0x104 }).instr = 7 + 1) ∧
    (toInt32 0x104 = 0x100 →
      (update_stats { last_WB_PC := 0x100, instr := 7 }
        { instruction_wb_pc := 0x104 }).instr = 7) ∧
    (∀ prev : Top, 0x104 < 2 ^ 32 → prev.instruction_wb_pc < 2 ^ 32 →
      (toInt32 0x104
          = (update_instructions { last_WB_PC := 0x100, instr := 7 } prev).last_WB_PC
        ↔ 0x104 = prev.instruction_wb_pc) ∧
      (toInt32 0x104 = (update_stats { last_WB_PC := 0x100, instr := 7 } prev).last_WB_PC
        ↔ 0x104 = prev.instruction_wb_pc)) :=
  wb_pc_pair { last_WB_PC := 0x100, instr := 7 } { instruction_wb_pc := 0x104 }
    (by decide) (by decide)

/-! ## Termination of the token loop -/

theorem scan_hex_suffix : ∀ (s : List Char) (acc : Nat) (any : Bool),
    (scan_hex s acc any).2.2 <:+ s := by
  intro s
  induction s with
  | nil => intro acc any; exact List.suffix_refl _
  | cons c t ih =>
    intro acc any
    unfold scan_hex
    cases hex_val c with
    | none => exact List.suffix_refl _
    | some d => exact (ih _ _).trans (List.suffix_cons c t)

theorem strtol16_suffix (s : List Char) : (strtol16 s).2 <:+ s := by
  have h1 : s.dropWhile isspace <:+ s := List.dropWhile_suffix _
  have h2 : ∀ l : List Char,
      (if l.head? = some '-' ∨ l.head? = some '+' then l.tail else l) <:+ l := by
    intro l
    split
    · exact List.tail_suffix l
    · exact List.suffix_refl l
  have h3 : ∀ l : List Char,
      (if l.head? = some '0' ∧ (l[1]? = some 'x' ∨ l[1]? = some 'X')
          ∧ (l[2]?.bind hex_val).isSome then l.drop 2 else l) <:+ l := by
    intro l
    split
    · exact List.drop_suffix 2 l
    · exact List.suffix_refl l
  unfold strtol16
  dsimp only
  have hscan := scan_hex_suffix
    (if (if (s.dropWhile isspace).head? = some '-' ∨ (s.dropWhile isspace).head? = some '+'
          then (s.dropWhile isspace).tail else s.dropWhile isspace).head? = some '0'
        ∧ ((if (s.dropWhile isspace).head? = some '-' ∨ (s.dropWhile isspace).head? = some '+'
          then (s.dropWhile isspace).tail else s.dropWhile isspace)[1]? = some 'x'
          ∨ (if (s.dropWhile isspace).head? = some '-'
              ∨ (s.dropWhile isspace).head? = some '+'
            then (s.dropWhile isspace).tail else s.dropWhile isspace)[1]? = some 'X')
        ∧ ((if (s.dropWhile isspace).head? = some '-' ∨ (s.dropWhile isspace).head? = some '+'
          then (s.dropWhile isspace).tail else s.dropWhile isspace)[2]?.bind hex_val).isSome
      then (if (s.dropWhile isspace).head? = some '-' ∨ (s.dropWhile isspace).head? = some '+'
          then (s.dropWhile isspace).tail else s.dropWhile isspace).drop 2
      else (if (s.dropWhile isspace).head? = some '-' ∨ (s.dropWhile isspace).head? = some '+'
          then (s.dropWhile isspace).tail else s.dropWhile isspace)) 0 false
  have hall := (hscan.trans (h3 _)).trans ((h2 _).trans h1)
  split
  · exact List.suffix_refl s
  · rename_i v rest heq
    rw [heq] at hall
    exact hall

theorem next_ptr_suffix (ptr : List Char) : next_ptr ptr <:+ ptr :=
  (List.dropWhile_suffix _).trans (strtol16_suffix ptr)

theorem next_ptr_eq_self (ptr : List Char) (h : ¬ (next_ptr ptr).length < ptr.length) :
    next_ptr ptr = ptr :=
  (next_ptr_suffix ptr).eq_of_length_le (by omega)

/-- An iteration that leaves the read position where it was is repeated for ever: the
loop has no result, whatever the fuel. -/
theorem token_loop_stuck (ptr : List Char)
    (hend : ¬ (ptr.head? = none ∨ ptr.head? = some '\n' ∨ ptr.head? = some '\x00'))
    (hsame : next_ptr ptr = ptr) :
    ∀ (fuel : Nat) (addr : Int) (mem : List Byte), token_loop fuel ptr addr mem = none := by
  intro fuel
  induction fuel with
  | zero => intro addr mem; rfl
  | succ fuel ih =>
    intro addr mem
    rw [token_loop, if_neg hend]
    dsimp only
    cases forUp (store_body addr (toInt32 (ofInt32 (strtol16 ptr).1))) 4 0 mem with
    | none => rfl
    | some mem1 =>
      dsimp only
      have hnext : (strtol16 ptr).2.dropWhile (· = ' ') = ptr := hsame
      rw [hnext]
      exact ih _ _

theorem token_loop_no_progress : ∀ (f : Nat) (ptr : List Char), ptr.length < f →
    line_advances f ptr = false →
    ∀ (fuel : Nat) (addr : Int) (mem : List Byte), token_loop fuel ptr addr mem = none := by
  intro f
  induction f with
  | zero => intro ptr hlen; omega
  | succ f ih =>
    intro ptr hlen hadv fuel addr mem
    rw [line_advances] at hadv
    by_cases hend : ptr.head? = none ∨ ptr.head? = some '\n' ∨ ptr.head? = some '\x00'
    · rw [if_pos hend] at hadv
      cases hadv
    · rw [if_neg hend] at hadv
      by_cases hlt : (next_ptr ptr).length < ptr.length
      · have hrest : line_advances f (next_ptr ptr) = false := by
          simpa [hlt] using hadv
        cases fuel with
        | zero => rfl
        | succ fuel =>
          rw [token_loop, if_neg hend]
          dsimp only
          cases forUp (store_body addr (toInt32 (ofInt32 (strtol16 ptr).1))) 4 0 mem with
          | none => rfl
          | some mem1 =>
            dsimp only
            exact ih (next_ptr ptr) (by omega) hrest _ _ _
      · exact token_loop_stuck ptr hend (next_ptr_eq_self ptr hlt) fuel addr mem

theorem ofInt32_lt (x : Int) : ofInt32 x < 2 ^ 32 := by
  unfold ofInt32
  omega

theorem token_loop_progress : ∀ (f : Nat) (ptr : List Char), line_advances f ptr = true →
    ∀ (fuel a : Nat) (mem : List Byte), f ≤ fuel →
      a + 4 * ptr.length ≤ mem.length → a + 4 * ptr.length < 2 ^ 31 →
      ∃ k m, k ≤ ptr.length ∧
        token_loop fuel ptr (toInt32 a) mem = some (toInt32 (a + 4 * k), m) ∧
        m.length = mem.length := by
  intro f
  induction f with
  | zero => intro ptr hadv; cases hadv
  | succ f ih =>
    intro ptr hadv fuel a mem hfuel hfit h31
    obtain ⟨fuel1, rfl⟩ : ∃ fuel1, fuel = fuel1 + 1 := ⟨fuel - 1, by omega⟩
    rw [line_advances] at hadv
    by_cases hend : ptr.head? = none ∨ ptr.head? = some '\n' ∨ ptr.head? = some '\x00'
    · refine ⟨0, mem, Nat.zero_le _, ?_, rfl⟩
      rw [token_loop, if_pos hend]
      rfl
    · rw [if_neg hend] at hadv
      have hboth : (next_ptr ptr).length < ptr.length ∧ line_advances f (next_ptr ptr) = true := by
        simpa using hadv
      obtain ⟨hlt, hrest⟩ := hboth
      have hd := ofInt32_lt (strtol16 ptr).1
      have hdata : toInt32 (ofInt32 (strtol16 ptr).1)
          = toInt32 (ofInt32 ((ofInt32 (strtol16 ptr).1 : Nat) : Int)) := by
        rw [ofInt32_natCast _ hd]
      have hstore := store_loop_eq a (ofInt32 (strtol16 ptr).1) mem hd (by omega)
      obtain ⟨k, m, hk, hrun, hm⟩ := ih (next_ptr ptr) hrest fuel1 (a + 4)
        (put_word mem a (ofInt32 (strtol16 ptr).1)) (by omega)
        (by rw [put_word_length]; omega) (by omega)
      refine ⟨k + 1, m, by omega, ?_, by rw [hm, put_word_length]⟩
      rw [token_loop, if_neg hend]
      dsimp only
      rw [hdata, toInt32_of_lt a (by omega), hstore]
      dsimp only
      rw [← toInt32_of_lt a (by omega), toInt32_next a (by omega)]
      have hidx : a + 4 * (k + 1) = a + 4 + 4 * k := by omega
      rw [hidx]
      exact hrun

/-- A line of hex tokens separated by spaces makes every iteration advance. -/
theorem tokens_advance (items : List (List Char × Nat)) (term : List Char)
    (hok : items_ok items = true) (hterm : term = [] ∨ term = ['\n'])
    (hlen : (render_toks items ++ term).length ≤ 255) :
    line_advances ((render_toks items ++ term).length + 1) (render_toks items ++ term)
      = true := by
  cases hadv : line_advances ((render_toks items ++ term).length + 1)
      (render_toks items ++ term) with
  | true => rfl
  | false =>
    exfalso
    have hle := items_length_le items hok
    have hnone := token_loop_no_progress _ _ (Nat.lt_succ_self _) hadv (items.length + 1)
      (toInt32 0) (List.replicate (4 * items.length) 0)
    have hsome := token_loop_items term hterm items 0 (items.length + 1)
      (List.replicate (4 * items.length) 0) hok (Nat.lt_succ_self _) (by simp)
      (by
        rw [List.length_append] at hlen
        omega)
    rw [hnone] at hsome
    cases hsome

/-- C23, as the code has it: an iteration of the token loop of `load_program` never moves
the read position backward; it either advances it or leaves it where it was. On a line on
which every iteration advances the read position (as on every line of hex tokens separated
by spaces that fits the line buffer) the loop terminates, and the number `k` of words it
stores is bounded by the length of the line (the stores lying inside the store). On a line
with an iteration that does not advance the read position the loop never terminates: it
has no result, whatever the number of iterations allowed. -/
theorem token_loop_termination (ptr : List Char) (a : Nat) (mem : List Byte) (fuel : Nat)
    (hfuel : ptr.length < fuel) (hfit : a + 4 * ptr.length ≤ mem.length)
    (h31 : a + 4 * ptr.length < 2 ^ 31) :
    ((next_ptr ptr).length < ptr.length ∨ next_ptr ptr = ptr) ∧
    (line_advances (ptr.length + 1) ptr = true →
      ∃ k m, k ≤ ptr.length ∧
        token_loop fuel ptr (toInt32 a) mem = some (((a + 4 * k : Nat) : Int), m) ∧
        m.length = mem.length) ∧
    (line_advances (ptr.length + 1) ptr = false →
      ∀ (fuel1 : Nat) (addr : Int) (mem1 : List Byte),
        token_loop fuel1 ptr addr mem1 = none) ∧
    (∀ (items : List (List Char × Nat)) (term : List Char), items_ok items = true →
      (term = [] ∨ term = ['\n']) → ptr = render_toks items ++ term → ptr.length ≤ 255 →
      line_advances (ptr.length + 1) ptr = true) := by
  refine ⟨?_, ?_, ?_, ?_⟩
  · by_cases hlt : (next_ptr ptr).length < ptr.length
    · exact Or.inl hlt
    · exact Or.inr (next_ptr_eq_self ptr hlt)
  · intro hadv
    obtain ⟨k, m, hk, hrun, hm⟩ := token_loop_progress (ptr.length + 1) ptr hadv fuel a mem
      (by omega) hfit h31
    refine ⟨k, m, hk, ?_, hm⟩
    rw [hrun, toInt32_of_lt _ (by omega)]
  · intro hadv
    exact token_loop_no_progress (ptr.length + 1) ptr (Nat.lt_succ_self _) hadv
  · intro items term hok hterm hptr hlen
    subst hptr
    exact tokens_advance items term hok hterm hlen

theorem token_loop_termination_witness :
    ((next_ptr "1f 2\n".toList).length < "1f 2\n".toList.length
      ∨ next_ptr "1f 2\n".toList = "1f 2\n".toList) ∧
    (line_advances ("1f 2\n".toList.length + 1) "1f 2\n".toList = true →
      ∃ k m, k ≤ "1f 2\n".toList.length ∧
        token_loop 6 "1f 2\n".toList (toInt32 4) (List.replicate 24 0)
          = some (((4 + 4 * k : Nat) : Int), m) ∧
        m.length = (List.replicate 24 (0 : Byte)).length) ∧
    (line_advances ("1f 2\n".toList.length + 1) "1f 2\n".toList = false →
      ∀ (fuel1 : Nat) (addr : Int) (mem1 : List Byte),
        token_loop fuel1 "1f 2\n".toList addr mem1 = none) ∧
    (∀ (items : List (List Char × Nat)) (term : List Char), items_ok items = true →
      (term = [] ∨ term = ['\n']) → "1f 2\n".toList = render_toks items ++ term →
      "1f 2\n".toList.length ≤ 255 →
      line_advances ("1f 2\n".toList.length + 1) "1f 2\n".toList = true) :=
  token_loop_termination "1f 2\n".toList 4 (List.replicate 24 0) 6
    (by decide) (by decide) (by decide)

/-- C23: the claim fails on the code. On the line `x` the first iteration of the token
loop parses no digit: `strtol` returns 0 and leaves the read position where it was, no
space follows, the zero word is stored and the same iteration starts again. The read
position never advances, so the loop does not terminate and `load_program` does not
return. -/
theorem token_loop_counterexample :
    next_ptr "x\n".toList = "x\n".toList ∧
    line_advances ("x\n".toList.length + 1) "x\n".toList = false ∧
    load_line "x\n".toList 0 (List.replicate 64 0) = none ∧
    load_program 64 true (some "x\n".toList) = none := by
  decide

/-! ## Dump and load round trip -/

theorem hex_val_digitChar (d : Nat) (hd : d < 16) : hex_val (Nat.digitChar d) = some d := by
  interval_cases d <;> rfl

theorem hex_digits_succ (n v : Nat) :
    hex_digits (n + 1) v = Nat.digitChar (v / 16 ^ n % 16) :: hex_digits n v := by
  unfold hex_digits
  rw [List.range_succ, List.reverse_append]
  rfl

theorem hex_digits_all_hex (n v : Nat) : ∀ c ∈ hex_digits n v, (hex_val c).isSome = true := by
  intro c hc
  unfold hex_digits at hc
  rw [List.mem_map] at hc
  obtain ⟨k, _, rfl⟩ := hc
  rw [hex_val_digitChar _ (Nat.mod_lt _ (by decide))]
  rfl

theorem hex_digits_foldl (v : Nat) : ∀ (n acc : Nat),
    (hex_digits n v).foldl (fun a c => 16 * a + (hex_val c).getD 0) acc
      = acc * 16 ^ n + v % 16 ^ n := by
  intro n
  induction n with
  | zero =>
    intro acc
    simp [hex_digits, Nat.mod_one]
  | succ n ih =>
    intro acc
    rw [hex_digits_succ, List.foldl_cons, ih,
      hex_val_digitChar _ (Nat.mod_lt _ (by decide)), Option.getD_some,
      Nat.mod_pow_succ, Nat.pow_succ]
    ring

theorem hex_value_hex_digits (n v : Nat) (hv : v < 16 ^ n) : hex_value (hex_digits n v) = v := by
  unfold hex_value
  rw [hex_digits_foldl, Nat.zero_mul, Nat.zero_add, Nat.mod_eq_of_lt hv]

theorem hex_digits_is_token (n v : Nat) (hn : 0 < n) : is_hex_token (hex_digits n v) = true := by
  rw [is_hex_token_iff]
  refine ⟨?_, hex_digits_all_hex n v⟩
  intro h
  have := hex_digits_length n v
  rw [h] at this
  simp at this
  omega

theorem word_byte_word_at (mem : List Byte) (a j : Nat) (hj : j < 4) :
    word_byte (word_at mem a) j = mem.getD (a + j) 0 := by
  have h0 := (mem.getD a 0).isLt
  have h1 := (mem.getD (a + 1) 0).isLt
  have h2 := (mem.getD (a + 2) 0).isLt
  have h3 := (mem.getD (a + 3) 0).isLt
  apply Fin.ext
  unfold word_byte word_at
  show (_ / 2 ^ (8 * j) % 256) % 256 = _
  interval_cases j
  · simp only [Nat.mul_zero, Nat.pow_zero, Nat.div_one, Nat.add_zero]
    omega
  · show (_ / 2 ^ 8 % 256) % 256 = _
    omega
  · show (_ / 2 ^ 16 % 256) % 256 = _
    omega
  · show (_ / 2 ^ 24 % 256) % 256 = _
    omega

theorem dump_line_render (w : Nat) : (dump_line w).render = hex_digits 8 w := by
  simp [dump_line, TokLine.render, render_toks]

theorem dump_line_values (w : Nat) (hw : w < 2 ^ 32) : (dump_line w).values = [w] := by
  simp only [dump_line, TokLine.values, List.map_cons, List.map_nil]
  rw [hex_value_hex_digits 8 w (by omega)]

theorem dump_line_ok (w : Nat) (hw : w < 2 ^ 32) : (dump_line w).ok = true := by
  rw [ok_iff, dump_line_render, hex_digits_length]
  refine ⟨?_, ?_, by decide⟩
  · simp only [dump_line, items_ok, Bool.and_eq_true, decide_eq_true_eq]
    exact ⟨hex_digits_is_token 8 w (by decide), by rw [hex_value_hex_digits 8 w (by omega)]; exact hw⟩
  · intro h
    simp [dump_line] at h

theorem dump_lines_values : ∀ ws : List Nat, (∀ w ∈ ws, w < 2 ^ 32) →
    (ws.map dump_line).flatMap TokLine.values = ws := by
  intro ws
  induction ws with
  | nil => intro _; rfl
  | cons w ws ih =>
    intro hws
    rw [List.map_cons, List.flatMap_cons, dump_line_values w (hws w (List.mem_cons_self _ _)),
      ih (fun x hx => hws x (List.mem_cons_of_mem _ hx))]
    rfl

/-- The loader on a text of 8-digit hex lines, one word per line, as the dump writes them. -/
theorem load_dump_text (mem_sz : Nat) (ws : List Nat) (hws : ∀ w ∈ ws, w < 2 ^ 32)
    (hfit : 4 * ws.length ≤ mem_sz) (h31 : 4 * ws.length ≤ 2 ^ 31) :
    load_program mem_sz true (some (ws.flatMap fun w => hex_digits 8 w ++ ['\n']))
      = some (some (store_words (List.replicate mem_sz 0) 0 ws)) := by
  have hlast : ({ lead := 0, items := [] } : TokLine).ok_last = true := by decide
  have htext : (ws.flatMap fun w => hex_digits 8 w ++ ['\n'])
      = (ws.map dump_line).flatMap (fun l => l.render ++ ['\n'])
        ++ ({ lead := 0, items := [] } : TokLine).render := by
    rw [List.flatMap_map]
    simp only [dump_line_render]
    exact (List.append_nil _).symm
  have hvals : (ws.map dump_line).flatMap TokLine.values
      ++ ({ lead := 0, items := [] } : TokLine).values = ws := by
    rw [dump_lines_values ws hws]
    exact List.append_nil _
  have hrun := load_lines_data { lead := 0, items := [] } hlast (ws.map dump_line) 0
    ((ws.flatMap fun w => hex_digits 8 w ++ ['\n']).length + 1) (List.replicate mem_sz 0)
    (by
      intro l hl
      rw [List.mem_map] at hl
      obtain ⟨w, hw, rfl⟩ := hl
      exact dump_line_ok w (hws w hw))
    (by rw [← htext]; exact Nat.lt_succ_self _)
    (by rw [hvals, List.length_replicate]; omega)
    (by rw [hvals]; omega)
  rw [← htext, hvals, toInt32_of_lt 0 (by decide)] at hrun
  unfold load_program
  rw [if_pos rfl]
  dsimp only
  rw [show ((0 : Int) = ((0 : Nat) : Int)) from rfl, hrun]

/-- C22: dump and load round trip. For every `n` that is a multiple of 4 (at most `2^31`,
the range of the `int` address of both loops) and every store `s` of at least `n` bytes,
`dump_mem_region(0, n, s)` writes a text, and `load_program` on that text with
`mem_sz ≥ n` returns a store of `mem_sz` bytes whose bytes `0..n-1` are those of `s` and
whose remaining bytes are zero (`strtol` with a 64-bit `long`). -/
theorem dump_load_round_trip (n mem_sz : Nat) (s : List Byte) (hn : n % 4 = 0)
    (hs : n ≤ s.length) (hsz : n ≤ mem_sz) (h31 : n ≤ 2 ^ 31) :
    ∃ text m, dump_mem_region 0 n s true = some text ∧
      load_program mem_sz true (some text) = some (some m) ∧
      m.length = mem_sz ∧
      (∀ p, p < n → m[p]? = s[p]?) ∧
      (∀ p, n ≤ p → p < mem_sz → m[p]? = some 0) := by
  have hr : (n - 0 + 3) / 4 = n / 4 := by omega
  have hdump := dump_format 0 n s (by decide) (fun _ => by rw [hr]; omega)
  rw [hr] at hdump
  have htext : ((List.range (n / 4)).flatMap
        (fun k => hex_digits 8 (word_at s (0 + 4 * k)) ++ ['\n']))
      = ((List.range (n / 4)).map fun k => word_at s (4 * k)).flatMap
          (fun w => hex_digits 8 w ++ ['\n']) := by
    rw [List.flatMap_map]
    simp only [Nat.zero_add]
  have hlen : ((List.range (n / 4)).map fun k => word_at s (4 * k)).length = n / 4 := by
    simp
  have hload := load_dump_text mem_sz ((List.range (n / 4)).map fun k => word_at s (4 * k))
    (by
      intro w hw
      rw [List.mem_map] at hw
      obtain ⟨k, _, rfl⟩ := hw
      exact word_at_lt s _)
    (by rw [hlen]; omega) (by rw [hlen]; omega)
  rw [← htext] at hload
  have hget := fun p => store_words_getElem?
    ((List.range (n / 4)).map fun k => word_at s (4 * k)) (List.replicate mem_sz 0) 0 p
    (by rw [hlen, List.length_replicate]; omega)
  refine ⟨_, _, hdump, hload, by rw [store_words_length, List.length_replicate], ?_, ?_⟩
  · intro p hp
    have hq : p / 4 < n / 4 := by omega
    rw [hget p, hlen, if_pos (by omega), Nat.sub_zero, List.getD_eq_getElem?_getD,
      List.getElem?_map, List.getElem?_range hq]
    simp only [Option.map_some', Option.getD_some]
    rw [word_byte_word_at s _ _ (Nat.mod_lt _ (by decide)), List.getD_eq_getElem?_getD]
    have hidx : 4 * (p / 4) + p % 4 = p := by omega
    rw [hidx, List.getElem?_eq_getElem (by omega)]
    rfl
  · intro p hp hpm
    rw [hget p, hlen, if_neg (by omega), List.getElem?_replicate, if_pos hpm]

theorem dump_load_round_trip_witness :
    ∃ text m, dump_mem_region 0 8 [0x12, 0x34, 0x56, 0x78, 0x9a, 0xbc, 0xde, 0xf0, 0x55] true
        = some text ∧
      load_program 12 true (some text) = some (some m) ∧
      m.length = 12 ∧
      (∀ p, p < 8 →
        m[p]? = ([0x12, 0x34, 0x56, 0x78, 0x9a, 0xbc, 0xde, 0xf0, 0x55] : List Byte)[p]?) ∧
      (∀ p, 8 ≤ p → p < 12 → m[p]? = some 0) :=
  dump_load_round_trip 8 12 [0x12, 0x34, 0x56, 0x78, 0x9a, 0xbc, 0xde, 0xf0, 0x55]
    (by decide) (by decide) (by decide) (by decide)

end VerilatorSupport
